import Mathlib

/-!
# peerio-icebear: kegs, task queue and file processor

A shallow embedding of `src/models/kegs/keg.js`, `src/helpers/queue.js` and
`src/models/files/file-processor.js`, with the properties their specification
states about them.

Conventions of the embedding:

* a promise is represented by its settled state (`Except JsError α`), and an
  asynchronous method by the function from the object before the call and the
  collaborators' answers to the object after the promise has settled;
* collaborators that live outside these files (the socket, `crypto/secret`,
  the payload hooks of subclasses) are parameters;
* JavaScript numbers that count things (versions, running tasks) are integers
  of unbounded size.
-/

namespace Icebear

/-! ## JavaScript values -/

mutual
/-- JavaScript values that can occur in a keg payload. Numbers are restricted
to integers; `undefined` is a value of its own because `JSON.stringify`
treats it specially. -/
inductive JsVal where
  | undefined
  | null
  | bool (b : Bool)
  | num (n : Int)
  | str (s : String)
  | arr (items : JsList)
  | obj (fields : JsFields)
  deriving DecidableEq
/-- The elements of a JavaScript array, in index order. -/
inductive JsList where
  | nil
  | cons (head : JsVal) (tail : JsList)
  deriving DecidableEq
/-- The own enumerable properties of a JavaScript object, in enumeration order. -/
inductive JsFields where
  | nil
  | cons (key : String) (value : JsVal) (rest : JsFields)
  deriving DecidableEq
end

/-- Property read on the fields of an object: a missing key reads `undefined`. -/
def JsFields.get : JsFields → String → JsVal
  | .nil, _ => .undefined
  | .cons k v rest, key => if k = key then v else rest.get key

/-- Property assignment on the fields of an object: an existing key keeps its
place and takes the new value, a new key is added last. -/
def JsFields.set : JsFields → String → JsVal → JsFields
  | .nil, key, v => .cons key v .nil
  | .cons k w rest, key, v => if k = key then .cons k v rest else .cons k w (rest.set key v)

/-- Errors that a keg operation can throw or reject with. -/
inductive JsError where
  /-- A plain `new Error(message)`. -/
  | error (message : String)
  /-- Modelled from the spec: the error class `AntiTamperError` (`TamperDetected`
  in the specification), which `keg.js` imports from `errors` and which the
  `errors.js` at hand does not declare. Its message is abstracted to the name
  of the mismatching field. -/
  | antiTamper (field : String)
  /-- A `TypeError` raised by the language (property read on `null`/`undefined`). -/
  | typeError
  /-- A `SyntaxError` raised by `JSON.parse`. -/
  | syntaxError
  /-- An error coming from a collaborator (socket, crypto, payload hook). -/
  | external (tag : String)
  deriving DecidableEq

/-- Property read `v[key]` for the keys used by the anti-tamper stamp
(`_sys`, `kegId`, `type`): throws a `TypeError` on `null` and `undefined`,
reads the field of an object, and is `undefined` on every other value. -/
def getProp (v : JsVal) (key : String) : Except JsError JsVal :=
  match v with
  | .undefined => .error .typeError
  | .null => .error .typeError
  | .obj fields => .ok (fields.get key)
  | _ => .ok .undefined

/-! ## JSON

A string is represented up to the JSON document it denotes: a well-formed
JSON text is the value it parses to, anything else is malformed. -/

/-- Strings handed to `JSON.parse` or produced by `JSON.stringify`. -/
inductive Text where
  | json (doc : JsVal)
  | malformed (raw : String)
  deriving DecidableEq

mutual
/-- The value denoted by the text `JSON.stringify(v)` when `v` is a member of
an object or the root: properties whose value is `undefined` are left out,
`undefined` array elements become `null`. -/
def jsonValue : JsVal → JsVal
  | .arr items => .arr (jsonItems items)
  | .obj fields => .obj (jsonFields fields)
  | v => v
/-- `jsonValue` on the elements of an array. -/
def jsonItems : JsList → JsList
  | .nil => .nil
  | .cons .undefined tail => .cons .null (jsonItems tail)
  | .cons head tail => .cons (jsonValue head) (jsonItems tail)
/-- `jsonValue` on the properties of an object. -/
def jsonFields : JsFields → JsFields
  | .nil => .nil
  | .cons _ .undefined rest => jsonFields rest
  | .cons key value rest => .cons key (jsonValue value) (jsonFields rest)
end

/-- `JSON.stringify(payload)` for an object `payload`. -/
def jsonStringify (payload : JsFields) : Text :=
  .json (.obj (jsonFields payload))

/-- `JSON.parse(text)`: throws a `SyntaxError` on malformed input. -/
def jsonParse : Text → Except JsError JsVal
  | .json doc => .ok doc
  | .malformed _ => .error .syntaxError

/-! ## Kegs (`src/models/kegs/keg.js`) -/

/-- A symmetric key (a `Uint8Array`). -/
abbrev Key := List Nat

/-- Binary data (an `ArrayBuffer` or `Uint8Array`). A ciphertext is kept
symbolic, as the text and the key it was sealed with, so that an ideal cipher
can be written down; every other buffer is its bytes. -/
inductive Buffer where
  | raw (bytes : List Nat)
  | sealed (text : Text) (key : Key)
  deriving DecidableEq

/-- The payload of a keg on the wire: a string for plaintext kegs, binary
for encrypted ones. -/
inductive WirePayload where
  | text (t : Text)
  | binary (b : Buffer)
  deriving DecidableEq

/-- The keg database owning a keg: `db.id` and `db.key`. -/
structure KegDb where
  id : String
  key : Key
  deriving DecidableEq

/-- The fields of a `Keg` instance. An id is `null` (here `none`) or a string. -/
structure Keg where
  id : Option String
  type : String
  db : KegDb
  plaintext : Bool
  overrideKey : Option Key
  version : Nat
  collectionVersion : Nat
  props : JsVal
  deriving DecidableEq

/-- The constructor `new Keg(id, type, db, plaintext)`. -/
def Keg.new (id : Option String) (type : String) (db : KegDb) (plaintext : Bool) : Keg :=
  { id := id, type := type, db := db, plaintext := plaintext, overrideKey := none,
    version := 0, collectionVersion := 0, props := .obj .nil }

/-- The getter `isEmpty`: `this.version === 1`. -/
def Keg.isEmpty (k : Keg) : Bool := k.version == 1

/-- Truthiness of an id (`if (this.id)`): `null` and the empty string are falsy. -/
def idTruthy : Option String → Bool
  | none => false
  | some s => s != ""

/-- An id as a JavaScript value. -/
def idValue : Option String → JsVal
  | none => .null
  | some s => .str s

/-- An id inside a template literal. -/
def idText : Option String → String
  | none => "null"
  | some s => s

/-- Body of `/auth/kegs/create`. -/
structure CreateRequest where
  collectionId : String
  type : String
  deriving DecidableEq

/-- Answer to `/auth/kegs/create`. -/
structure CreateResponse where
  kegId : Option String
  version : Nat
  collectionVersion : Nat
  deriving DecidableEq

/-- Body of `/auth/kegs/update` (`collectionId` and the fields of `update`). -/
structure UpdateRequest where
  collectionId : String
  kegId : Option String
  keyId : String
  type : String
  payload : WirePayload
  props : JsVal
  version : Nat
  deriving DecidableEq

/-- Answer to `/auth/kegs/update`. -/
structure UpdateResponse where
  collectionVersion : Nat
  deriving DecidableEq

/-- Body of `/auth/kegs/get`. -/
structure GetRequest where
  collectionId : String
  kegId : Option String
  deriving DecidableEq

/-- A raw keg record as the server returns it. -/
structure RawKeg where
  kegId : Option String
  version : Nat
  collectionVersion : Nat
  props : JsVal
  payload : Option WirePayload
  deriving DecidableEq

/-- A request passed to `socket.send`. -/
inductive Request where
  | create (body : CreateRequest)
  | update (body : UpdateRequest)
  | get (body : GetRequest)
  deriving DecidableEq

/-- The socket (`network/socket`): the settled state of the promise that
`socket.send` returns for each request. -/
structure Socket where
  create : CreateRequest → Except JsError CreateResponse
  update : UpdateRequest → Except JsError UpdateResponse
  get : GetRequest → Except JsError RawKeg

/-- The string functions of `crypto/secret`; either may throw. -/
structure Secret where
  encryptString : Text → Key → Except JsError Buffer
  decryptString : Buffer → Key → Except JsError Text

/-- The collaborators of a keg. `uint8ArrayOfString` is `new Uint8Array(s)`
for a string `s`. -/
structure Env where
  socket : Socket
  secret : Secret
  uint8ArrayOfString : Text → Buffer

/-- The payload hooks that subclasses override. `serializeKegPayload` returns
an object (its fields) or throws; `deserializeKegPayload` may throw. -/
structure Hooks where
  serializeKegPayload : Keg → Except JsError JsFields
  deserializeKegPayload : JsVal → Except JsError Unit

/-- The hooks of the base class: an empty payload, and a deserializer that
does nothing. -/
def Keg.baseHooks : Hooks :=
  { serializeKegPayload := fun _ => .ok .nil
    deserializeKegPayload := fun _ => .ok () }

/-- The key in use: `this.overrideKey || this.db.key`. -/
def Keg.key (k : Keg) : Key := k.overrideKey.getD k.db.key

/-- The anti-tamper stamp `{ kegId: this.id, type: this.type }`. -/
def Keg.stamp (k : Keg) : JsVal :=
  .obj (.cons "kegId" (idValue k.id) (.cons "type" (.str k.type) .nil))

/-- What a save leaves behind: the keg, the settled promise, and the requests
sent, oldest first. -/
structure SaveResult where
  keg : Keg
  outcome : Except JsError Unit
  sent : List Request

/-- The `try` block of `_internalSave`: serialize, stamp, stringify, encrypt. -/
def Keg.preparePayload (env : Env) (hooks : Hooks) (k : Keg) : Except JsError WirePayload := do
  let payload ← hooks.serializeKegPayload k
  let payload := if !k.plaintext then payload.set "_sys" k.stamp else payload
  let text := jsonStringify payload
  if !k.plaintext then
    let encrypted ← env.secret.encryptString text k.key
    pure (.binary encrypted)
  else
    pure (.text text)

/-- The body of the update request that `_internalSave` builds, read off the
keg once `++this.version` has run. -/
def Keg.updateRequest (k : Keg) (payload : WirePayload) : UpdateRequest :=
  { collectionId := k.db.id, kegId := k.id, keyId := "0", type := k.type,
    payload := payload, props := k.props, version := k.version }

/-- The keg after `++this.version`. -/
def Keg.bumpVersion (k : Keg) : Keg :=
  { k with version := k.version + 1 }

/-- The method `_internalSave`. -/
def Keg._internalSave (env : Env) (hooks : Hooks) (k : Keg) : SaveResult :=
  match k.preparePayload env hooks with
  | .error err => { keg := k, outcome := .error err, sent := [] }
  | .ok payload =>
    -- `version: ++this.version` runs while the request is built
    let k1 := k.bumpVersion
    let req := k1.updateRequest payload
    match env.socket.update req with
    | .error err => { keg := k1, outcome := .error err, sent := [.update req] }
    | .ok resp =>
      { keg := { k1 with collectionVersion := resp.collectionVersion },
        outcome := .ok (), sent := [.update req] }

/-- Lines 58-60 of `saveToServer`: the assignments of `id`, `version` and
`collectionVersion` from the answer to the create request. -/
def Keg.assign (k : Keg) (resp : CreateResponse) : Keg :=
  { k with id := resp.kegId, version := resp.version,
           collectionVersion := resp.collectionVersion }

/-- The method `saveToServer`. -/
def Keg.saveToServer (env : Env) (hooks : Hooks) (k : Keg) : SaveResult :=
  if idTruthy k.id then k._internalSave env hooks
  else
    let req : CreateRequest := { collectionId := k.db.id, type := k.type }
    match env.socket.create req with
    | .error err => { keg := k, outcome := .error err, sent := [.create req] }
    | .ok resp =>
      let k1 := k.assign resp
      let r := k1._internalSave env hooks
      { r with sent := .create req :: r.sent }

/-- What a load leaves behind: the keg, whether the call returned or threw
(for `load`: how its promise settled), and the arguments with which
`deserializeKegPayload` was invoked, oldest first. -/
structure LoadResult where
  keg : Keg
  outcome : Except JsError Unit
  deserialized : List JsVal

/-- Truthiness of `keg.payload`: a missing payload and the empty string are
falsy, every buffer and every other string is truthy. -/
def payloadTruthy : Option WirePayload → Bool
  | none => false
  | some (.text (.malformed raw)) => raw != ""
  | some _ => true

/-- The value `new Uint8Array(keg.payload)`. -/
def toUint8Array (env : Env) : WirePayload → Buffer
  | .binary b => b
  | .text t => env.uint8ArrayOfString t

/-- The string that `JSON.parse` sees when it is given the payload itself. -/
def toText : WirePayload → Text
  | .text t => t
  | .binary _ => .malformed "[object ArrayBuffer]"

/-- The method `detectTampering`. -/
def Keg.detectTampering (k : Keg) (payload : JsVal) : Except JsError Unit := do
  let sys ← getProp payload "_sys"
  let innerId ← getProp sys "kegId"
  if innerId ≠ idValue k.id then
    throw (.antiTamper "kegId")
  let sys ← getProp payload "_sys"
  let innerType ← getProp sys "type"
  if innerType ≠ .str k.type then
    throw (.antiTamper "type")

/-- Lines 130-136 of `loadFromKeg`: decrypt when the keg is not plaintext,
then `JSON.parse`. -/
def Keg.decodePayload (env : Env) (k : Keg) (payload : WirePayload) : Except JsError JsVal := do
  let text ← if !k.plaintext then env.secret.decryptString (toUint8Array env payload) k.key
             else pure (toText payload)
  jsonParse text

/-- Lines 124-127 of `loadFromKeg`: the assignments of `id`, `version`,
`collectionVersion` and `props` from the record. -/
def Keg.rehydrate (k : Keg) (keg : RawKeg) : Keg :=
  { k with id := keg.kegId, version := keg.version,
           collectionVersion := keg.collectionVersion, props := keg.props }

/-- The method `loadFromKeg`. -/
def Keg.loadFromKeg (env : Env) (hooks : Hooks) (k : Keg) (keg : RawKeg) : LoadResult :=
  if idTruthy k.id && k.id != keg.kegId then
    { keg := k,
      outcome := .error (.error ("Attempt to rehydrate keg(" ++ idText k.id ++
        ") with data from another keg(" ++ idText keg.kegId ++ ").")),
      deserialized := [] }
  else
    let k1 := k.rehydrate keg
    match keg.payload with
    | none => { keg := k1, outcome := .ok (), deserialized := [] }
    | some wire =>
      if !payloadTruthy (some wire) then { keg := k1, outcome := .ok (), deserialized := [] }
      else
        match k1.decodePayload env wire with
        | .error err => { keg := k1, outcome := .error err, deserialized := [] }
        | .ok payload =>
          match (if !k1.plaintext then k1.detectTampering payload else .ok ()) with
          | .error err => { keg := k1, outcome := .error err, deserialized := [] }
          | .ok () =>
            { keg := k1, outcome := hooks.deserializeKegPayload payload,
              deserialized := [payload] }

/-- The method `load`. -/
def Keg.load (env : Env) (hooks : Hooks) (k : Keg) : LoadResult :=
  match env.socket.get { collectionId := k.db.id, kegId := k.id } with
  | .error err => { keg := k, outcome := .error err, deserialized := [] }
  | .ok keg => k.loadFromKeg env hooks keg

/-- The ideal cipher: a ciphertext opens under the key it was sealed with
and under no other. -/
def idealSecret : Secret :=
  { encryptString := fun text key => .ok (.sealed text key)
    decryptString := fun buffer key =>
      match buffer with
      | .sealed text sealedWith =>
        if sealedWith = key then .ok text else .error (.external "DecryptionError")
      | .raw _ => .error (.external "DecryptionError") }

/-- A sequence of saves through `saveToServer`, each with the collaborators
and hooks in force at that call; stops at the first save that fails. -/
def Keg.saveAll : List (Env × Hooks) → Keg → Option Keg
  | [], k => some k
  | (env, hooks) :: rest, k =>
    match (k.saveToServer env hooks).outcome with
    | .ok () => Keg.saveAll rest (k.saveToServer env hooks).keg
    | .error _ => none

/-! ## Task queue (`src/helpers/queue.js`) -/

/-- What `t.task.apply(t.context, t.args)` does: return a value that is not a
promise, return a promise, or throw. -/
inductive TaskRun where
  | returns
  | promise
  | throws (err : JsError)
  deriving DecidableEq

/-- What a callback does when it is called. -/
inductive Callback where
  | returns
  | throws (err : JsError)
  deriving DecidableEq

/-- An entry `{ task, context, args, onFinish }` of the backlog. `id` tells
entries apart. -/
structure Task where
  id : Nat
  task : TaskRun
  onFinish : Option Callback
  deriving DecidableEq

/-- The fields of a `Queue`, with the bookkeeping needed to talk about its
runs: `timers` counts the `setTimeout(this.runTask, ...)` callbacks that have
not fired yet, `pending` holds the tasks whose promise has `onTaskComplete`
attached and has not settled, `started` lists the tasks taken from the
backlog (oldest first), `logged` what went to `console.error`. -/
structure Queue where
  parallelism : Nat
  throttle : Nat
  tasks : List Task
  runningTasks : Int
  timers : Nat
  pending : List Task
  started : List Task
  logged : List JsError
  deriving DecidableEq

/-- The constructor: `parallelism || 1`, `throttle || 0`. -/
def Queue.new (parallelism throttle : Nat) : Queue :=
  { parallelism := if parallelism = 0 then 1 else parallelism
    throttle := throttle
    tasks := [], runningTasks := 0, timers := 0, pending := [], started := [], logged := [] }

/-- The getter `queueLength`. -/
def Queue.queueLength (q : Queue) : Int := q.tasks.length + q.runningTasks

/-- The method `addTask`. -/
def Queue.addTask (q : Queue) (t : Task) : Queue :=
  { q with tasks := q.tasks ++ [t], timers := q.timers + 1 }

/-- The method `onTaskComplete`: the loop runs for `i` from the new
`runningTasks` up to `parallelism - 1` and schedules one `runTask` each time. -/
def Queue.onTaskComplete (q : Queue) : Queue :=
  { q with runningTasks := q.runningTasks - 1
           timers := q.timers + ((q.parallelism : Int) - (q.runningTasks - 1)).toNat }

/-- The `try` block of `runTask`: the queue when the block is left, and the
exception if it is left by one. -/
def Queue.tryDispatch (q : Queue) : Queue × Option JsError :=
  match q.tasks with
  | [] => (q, some .typeError)
  | t :: rest =>
    let q1 := { q with tasks := rest, started := q.started ++ [t] }
    match t.task with
    | .throws err => (q1, some err)
    | .promise => ({ q1 with pending := q1.pending ++ [t] }, none)
    | .returns =>
      match t.onFinish with
      | some (.throws err) => (q1, some err)
      | _ => (q1.onTaskComplete, none)

/-- The method `runTask`: the queue after the call, and the exception the call
lets through, if any. -/
def Queue.runTask (q : Queue) : Queue × Option JsError :=
  if (q.parallelism : Int) ≤ q.runningTasks ∨ q.tasks.length = 0 then (q, none)
  else
    let q1 := { q with runningTasks := q.runningTasks + 1 }
    match q1.tryDispatch with
    | (q2, none) => (q2, none)
    | (q2, some ex) => ({ q2 with logged := q2.logged ++ [ex] }.onTaskComplete, none)

/-- What can happen to a queue: a call of `addTask`, a direct call of
`runTask`, a scheduled `runTask` firing, and the promise of the `i`-th pending
task settling (which calls `onTaskComplete`). -/
inductive QueueEvent where
  | addTask (t : Task)
  | runTask
  | timer
  | settle (i : Nat)
  deriving DecidableEq

/-- One event. A timer fires only if one is scheduled, a promise settles only
if it is pending; otherwise nothing happens. -/
def Queue.step (q : Queue) : QueueEvent → Queue
  | .addTask t => q.addTask t
  | .runTask => q.runTask.1
  | .timer => if q.timers = 0 then q else ({ q with timers := q.timers - 1 }).runTask.1
  | .settle i =>
    if i < q.pending.length then ({ q with pending := q.pending.eraseIdx i }).onTaskComplete
    else q

/-- A run: the events one after the other. -/
def Queue.run (q : Queue) (events : List QueueEvent) : Queue :=
  events.foldl Queue.step q

/-- The tasks passed to `addTask` during a run, in call order. -/
def addedTasks : List QueueEvent → List Task
  | [] => []
  | .addTask t :: rest => t :: addedTasks rest
  | _ :: rest => addedTasks rest

/-! ## File processor (`src/models/files/file-processor.js`, `src/errors.js`) -/

/-- A value caught, rejected with or passed as `err`: a falsy value
(`undefined`, `null`, ...), an instance of `Error`, or some other truthy value. -/
inductive Thrown where
  | falsy
  | error (err : JsError)
  | other (description : String)
  deriving DecidableEq

/-- The helper `errors.normalize(unknownErrorObject, failoverMessage)`; a
missing `failoverMessage` gives an `Error` with an empty message. -/
def normalize (unknownErrorObject : Thrown) (failoverMessage : Option String) : JsError :=
  match unknownErrorObject with
  | .error err => err
  | _ => .error (failoverMessage.getD "")

/-- What a file processor does to the outside, in the order it does it. -/
inductive ProcessEvent where
  /-- A call of `this.stream.close()`. -/
  | streamClose
  /-- A call of `this.cleanup()`. -/
  | cleanup
  /-- A call of `this.resolve()`. -/
  | resolve
  /-- A call of `this.reject(err)`. -/
  | reject (err : JsError)
  deriving DecidableEq

/-- The fields of a `FileProcessor`. `hasPromise` tells whether `start()` has
stored `resolve` and `reject`; `streamCloseThrows` tells whether
`stream.close()` throws; `events` records the calls made to the outside,
oldest first. -/
structure FileProcessor where
  processType : String
  stopped : Bool
  processFinished : Bool
  hasPromise : Bool
  streamCloseThrows : Bool
  events : List ProcessEvent
  deriving DecidableEq

/-- The constructor, with the field initialisers of the class. -/
def FileProcessor.new (processType : String) (streamCloseThrows : Bool) : FileProcessor :=
  { processType := processType, stopped := false, processFinished := false,
    hasPromise := false, streamCloseThrows := streamCloseThrows, events := [] }

/-- The method `start`; `tick` is the `_tick` of the subclass. -/
def FileProcessor.start (tick : FileProcessor → FileProcessor) (p : FileProcessor) :
    FileProcessor :=
  { tick p with hasPromise := true }

/-- The call `this.stream.close()`: the processor after it, and the exception
it throws, if any. -/
def FileProcessor.closeStream (p : FileProcessor) : FileProcessor × Option JsError :=
  ({ p with events := p.events ++ [ProcessEvent.streamClose] },
   if p.streamCloseThrows then some (.external "stream.close") else none)

/-- The method `_finishProcess`: the processor after the call, and the
exception the call lets through, if any. The `cleanup` hook is the one of the
classes at hand, which returns normally. -/
def FileProcessor._finishProcess (p : FileProcessor) (err : Thrown) :
    FileProcessor × Option JsError :=
  if p.processFinished then (p, none)
  else
    let p1 := { p with processFinished := true, stopped := true }
    -- `try { this.stream.close() } catch (e) {}`: the exception is dropped
    let p2 := (p1.closeStream).1
    let p3 := { p2 with events := p2.events ++ [ProcessEvent.cleanup] }
    if err ≠ .falsy then
      if p3.hasPromise then
        ({ p3 with events := p3.events ++ [ProcessEvent.reject (normalize err none)] }, none)
      else (p3, some .typeError)
    else
      if p3.hasPromise then ({ p3 with events := p3.events ++ [ProcessEvent.resolve] }, none)
      else (p3, some .typeError)

/-- The arrow function `_error`. -/
def FileProcessor._error (p : FileProcessor) (err : Thrown) : FileProcessor × Option JsError :=
  p._finishProcess (if err ≠ .falsy then err else .error (.error (p.processType ++ " failed")))

/-- The method `cancel`. -/
def FileProcessor.cancel (p : FileProcessor) : FileProcessor × Option JsError :=
  p._finishProcess (.error (.error (p.processType ++ " cancelled")))

/-- A call that ends the process. -/
inductive FinishCall where
  | finishProcess (err : Thrown)
  | error (err : Thrown)
  | cancel
  deriving DecidableEq

/-- One call. -/
def FileProcessor.call (p : FileProcessor) : FinishCall → FileProcessor × Option JsError
  | .finishProcess err => p._finishProcess err
  | .error err => p._error err
  | .cancel => p.cancel

/-- A sequence of calls, one after the other, whatever each lets through. -/
def FileProcessor.calls (p : FileProcessor) (cs : List FinishCall) : FileProcessor :=
  cs.foldl (fun p c => (p.call c).1) p

/-- Whether an event is a call of `resolve` or of `reject`. -/
def ProcessEvent.isSettle : ProcessEvent → Bool
  | .resolve => true
  | .reject _ => true
  | _ => false

/-! ## Concrete collaborators -/

/-- A store that accepts every request: it creates kegs with id `keg1` at
version 1 and answers every update. -/
def acceptingSocket : Socket :=
  { create := fun _ => .ok { kegId := some "keg1", version := 1, collectionVersion := 10 }
    update := fun req => .ok { collectionVersion := 10 + req.version }
    get := fun _ => .error (.external "notFound") }

/-- A store that refuses every update. -/
def refusingSocket : Socket :=
  { acceptingSocket with update := fun _ => .error (.external "VersionConflict") }

/-- Collaborators with the accepting store and the ideal cipher. -/
def acceptingEnv : Env :=
  { socket := acceptingSocket, secret := idealSecret, uint8ArrayOfString := fun _ => .raw [] }

/-- Collaborators with the refusing store and the ideal cipher. -/
def refusingEnv : Env :=
  { acceptingEnv with socket := refusingSocket }

/-- A keg database. -/
def sampleDb : KegDb := { id := "SELF", key := [1, 2, 3] }

/-- An encrypted keg that has no id yet. -/
def freshKeg : Keg := Keg.new none "chat_head" sampleDb false

/-- An encrypted keg with id `keg1` at version 1. -/
def storedKeg : Keg := { Keg.new (some "keg1") "chat_head" sampleDb false with version := 1 }

/-- The fresh keg after three saves to the accepting store. -/
def thriceSavedKeg : Keg :=
  { Keg.new (some "keg1") "chat_head" sampleDb false with version := 4, collectionVersion := 14 }

/-- The stamp of keg `keg1` of type `chat_head`. -/
def sampleStamp : JsVal :=
  .obj (.cons "kegId" (.str "keg1") (.cons "type" (.str "chat_head") .nil))

/-- The stamp of keg `keg3` of type `chat_head`. -/
def foreignStamp : JsVal :=
  .obj (.cons "kegId" (.str "keg3") (.cons "type" (.str "chat_head") .nil))

/-- A record filed under id `keg2` whose encrypted payload is stamped `keg3`. -/
def relabelledRecord : RawKeg :=
  { kegId := some "keg2", version := 2, collectionVersion := 12, props := .obj .nil
    payload := some (.binary (.sealed (.json (.obj (.cons "_sys" foreignStamp .nil))) [1, 2, 3])) }

/-- A record filed under id `keg1` whose encrypted payload is stamped `keg9`. -/
def swappedRecord : RawKeg :=
  { kegId := some "keg1", version := 2, collectionVersion := 12, props := .obj .nil
    payload := some (.binary (.sealed (.json (.obj (.cons "_sys"
      (.obj (.cons "kegId" (.str "keg9") (.cons "type" (.str "chat_head") .nil))) .nil)))
      [1, 2, 3])) }

/-- Hooks of a chat head that is not in a space: `spaceId` is `undefined`. -/
def chatHeadHooks : Hooks :=
  { serializeKegPayload := fun _ =>
      .ok (.cons "chatName" (.str "lobby") (.cons "spaceId" .undefined .nil))
    deserializeKegPayload := fun _ => .ok () }

/-- Hooks whose payload is `{ a: 1 }`. -/
def plainHooks : Hooks :=
  { serializeKegPayload := fun _ => .ok (.cons "a" (.num 1) .nil)
    deserializeKegPayload := fun _ => .ok () }

/-! ## File downloader (`src/models/files/file-downloader.ts`) -/

/-- The bytes of a buffer. -/
abbrev Bytes := List Nat

/-- The constants that the downloader reads from `config`: `CHUNK_OVERHEAD`
and the three settings under `config.download`. -/
structure DownloadConfig where
  chunkOverhead : Nat
  maxDownloadChunkSize : Nat
  maxDecryptBufferSize : Nat
  parallelism : Nat
  deriving DecidableEq

/-- The fields of the `File` that the downloader reads. -/
structure FileInfo where
  sizeWithOverhead : Nat
  chunkSize : Nat
  progress : Int
  deriving DecidableEq

/-- The object `resumeParams`. -/
structure ResumeParams where
  partialChunkSize : Nat
  wholeChunks : Nat
  deriving DecidableEq

/-- A continuation waiting on `downloadChain`: the processing of the chunk
requested at `pos` with `size` bytes, or the end-of-data continuation. -/
inductive ChainItem where
  | fetch (pos size : Int)
  | eof
  deriving DecidableEq

/-- The collaborator `secret.decrypt(chunk, this.fileKey, nonce, false)`,
with the nonce given by its index; it may throw. -/
structure DownloadEnv where
  decrypt : Bytes → Nat → Except JsError Bytes

/-- The fields of a `FileDownloader`. `core` holds the fields inherited from
`FileProcessor`; `chunkId` is `nonceGenerator.chunkId`. The bookkeeping
fields record what the downloader does to the outside: `timers` counts the
callbacks scheduled by `_tick` that have not run yet, `requested` lists the
byte ranges `(from, to)` handed to `_getChunkUrl`, `decrypted` the chunks
handed to `secret.decrypt` with the index of their nonce, `written` the
chunks handed to `stream.write`, `writesInFlight` counts the write promises
that have not settled, `aborted` lists the requests on which `abort()` was
called. Requests are told apart by a number. -/
structure FileDownloader where
  core : FileProcessor
  config : DownloadConfig
  sizeWithOverhead : Nat
  progressMax : Int
  progress : Int
  chunkSizeWithOverhead : Nat
  downloadChunkSize : Nat
  partialChunkSize : Nat
  decryptQueue : List Bytes
  activeDownloads : Int
  downloadChain : List ChainItem
  writing : Bool
  downloadPos : Int
  noMoreChunks : Bool
  downloadEof : Bool
  currentXhrs : List Nat
  chunkId : Nat
  timers : Nat
  requested : List (Int × Int)
  decrypted : List (Nat × Bytes)
  written : List Bytes
  writesInFlight : Nat
  aborted : List Nat
  deriving DecidableEq

/-- The constructor without `resumeParams`: the call of `super`, lines 26-31
and the field initialisers. `chunkId` is the counter of the nonce generator
that is passed in. -/
def FileDownloader.fresh (config : DownloadConfig) (file : FileInfo) (streamCloseThrows : Bool)
    (chunkId : Nat) : FileDownloader :=
  { core := FileProcessor.new "download" streamCloseThrows
    config := config
    sizeWithOverhead := file.sizeWithOverhead
    progressMax := file.sizeWithOverhead
    progress := file.progress
    chunkSizeWithOverhead := file.chunkSize + config.chunkOverhead
    downloadChunkSize :=
      config.maxDownloadChunkSize / (file.chunkSize + config.chunkOverhead)
        * (file.chunkSize + config.chunkOverhead)
    partialChunkSize := 0
    decryptQueue := []
    activeDownloads := 0
    downloadChain := []
    writing := false
    downloadPos := 0
    noMoreChunks := false
    downloadEof := false
    currentXhrs := []
    chunkId := chunkId
    timers := 0
    requested := []
    decrypted := []
    written := []
    writesInFlight := 0
    aborted := [] }

/-- Lines 33-38 of the constructor: what `resumeParams` sets. -/
def FileDownloader.resume (d : FileDownloader) (resumeParams : ResumeParams) : FileDownloader :=
  { d with partialChunkSize := resumeParams.partialChunkSize
           chunkId := resumeParams.wholeChunks
           progress := (d.chunkSizeWithOverhead : Int) * resumeParams.wholeChunks
           downloadPos := (d.chunkSizeWithOverhead : Int) * resumeParams.wholeChunks }

/-- The constructor. `resumeParams` is `none` when the argument is missing
or is not an object. -/
def FileDownloader.new (config : DownloadConfig) (file : FileInfo) (streamCloseThrows : Bool)
    (chunkId : Nat) (resumeParams : Option ResumeParams) : FileDownloader :=
  match resumeParams with
  | none => FileDownloader.fresh config file streamCloseThrows chunkId
  | some r => (FileDownloader.fresh config file streamCloseThrows chunkId).resume r

/-- The getter `_isDecryptQueueFull`. -/
def FileDownloader._isDecryptQueueFull (d : FileDownloader) : Bool :=
  decide (d.decryptQueue.length * (d.chunkSizeWithOverhead + 1)
    > d.config.maxDecryptBufferSize * d.config.parallelism)

/-- The arrow function `_abortXhr`. -/
def FileDownloader._abortXhr (d : FileDownloader) : FileDownloader :=
  { d with aborted := d.aborted ++ d.currentXhrs }

/-- The method `cleanup`. -/
def FileDownloader.cleanup (d : FileDownloader) : FileDownloader :=
  d._abortXhr

/-- The inherited method `_finishProcess`, with `cleanup` being the one of
the downloader. An exception that the inherited method lets through (which
takes a call before `start` has stored `resolve` and `reject`) is not kept:
every handler it could reach ends in `_finishProcess` again, which then
returns at once. -/
def FileDownloader._finishProcess (d : FileDownloader) (err : Thrown) : FileDownloader :=
  if d.core.processFinished then d
  else ({ d with core := (d.core._finishProcess err).1 }).cleanup

/-- The inherited arrow function `_error`. -/
def FileDownloader._error (d : FileDownloader) (err : Thrown) : FileDownloader :=
  d._finishProcess
    (if err ≠ .falsy then err else .error (.error (d.core.processType ++ " failed")))

/-- The inherited method `cancel`. -/
def FileDownloader.cancel (d : FileDownloader) : FileDownloader :=
  d._finishProcess (.error (.error (d.core.processType ++ " cancelled")))

/-- The method `_checkIfFinished`: the downloader after the call and the
value returned. -/
def FileDownloader._checkIfFinished (d : FileDownloader) : FileDownloader × Bool :=
  if d.downloadEof && d.decryptQueue.length == 0 && !d.writing then
    (d._finishProcess .falsy, true)
  else (d, false)

/-- The arrow function `_tick`. -/
def FileDownloader._tick (d : FileDownloader) : FileDownloader :=
  if d.core.processFinished then d
  else
    match d._checkIfFinished with
    | (d1, true) => d1
    | (d1, false) => { d1 with timers := d1.timers + 1 }

/-- The inherited method `start`. -/
def FileDownloader.start (d : FileDownloader) : FileDownloader :=
  let d1 := d._tick
  { d1 with core := { d1.core with hasPromise := true } }

/-- The method `_downloadChunk`. -/
def FileDownloader._downloadChunk (d : FileDownloader) : FileDownloader :=
  if d.core.stopped || d.noMoreChunks || d.downloadEof || d._isDecryptQueueFull then d
  else if d.activeDownloads ≥ d.config.parallelism then d
  else
    let pos := d.downloadPos
    let size : Int := min (d.downloadChunkSize : Int) ((d.sizeWithOverhead : Int) - pos)
    if size = 0 then
      { d with noMoreChunks := true, downloadChain := d.downloadChain ++ [.eof] }
    else
      { d with downloadPos := d.downloadPos + size
               activeDownloads := d.activeDownloads + 1
               requested := d.requested ++ [(pos, pos + size - 1)]
               downloadChain := d.downloadChain ++ [.fetch pos size] }

/-- The loop of lines 133-140 on the remaining bytes: one chunk of at most
`c` bytes per round, for at most `rounds` rounds. -/
def chunksOf (c : Nat) : Nat → Bytes → List Bytes
  | 0, _ => []
  | rounds + 1, data =>
    if data.length = 0 then [] else data.take c :: chunksOf c rounds (data.drop c)

/-- The chunks that lines 133-140 push for `dlChunk`. For `c = 0` the loop of
the source does not end; here it ends after `byteLength` rounds. -/
def splitChunks (c : Nat) (dlChunk : Bytes) : List Bytes :=
  chunksOf c dlChunk.length dlChunk

/-- The continuation of lines 128-143: the downloader when it is left, and
the exception if it is left by one. -/
def FileDownloader.onChunk (d : FileDownloader) (dlChunk : Bytes) :
    FileDownloader × Option JsError :=
  if d.core.stopped then (d, none)
  else if dlChunk.length = 0 then (d, some (.error "Unexpected zero-length chunk"))
  else
    (FileDownloader._tick
      { d with decryptQueue := d.decryptQueue ++ splitChunks d.chunkSizeWithOverhead dlChunk
               activeDownloads := d.activeDownloads - 1 }, none)

/-- The continuation of lines 128-143 followed by `.catch(this._error)`. -/
def FileDownloader.afterChunk (d : FileDownloader) (dlChunk : Bytes) : FileDownloader :=
  match d.onChunk dlChunk with
  | (d1, none) => d1
  | (d1, some err) => d1._error (.error err)

/-- The method `_decryptChunk`: the downloader when it is left, and the
exception if it is left by one. `getNextNonce` is a counter: it gives the
nonce of index `chunkId` and adds one to `chunkId`. -/
def FileDownloader._decryptChunk (env : DownloadEnv) (d : FileDownloader) :
    FileDownloader × Option JsError :=
  if d.core.stopped || d.writing || d.decryptQueue.length == 0 then (d, none)
  else
    match d.decryptQueue with
    | [] => (d, none)
    | chunk :: rest =>
      let d1 := { d with decryptQueue := rest, chunkId := d.chunkId + 1
                         decrypted := d.decrypted ++ [(d.chunkId, chunk)] }
      match env.decrypt chunk d.chunkId with
      | .error err => (d1, some err)
      | .ok plain =>
        let d2 := { d1 with writing := true }
        if d2.partialChunkSize ≠ 0 then
          if d2.partialChunkSize ≤ plain.length then
            ({ d2 with partialChunkSize := 0
                       written := d2.written ++ [plain.drop d2.partialChunkSize]
                       writesInFlight := d2.writesInFlight + 1 }, none)
          else (d2, some (.external "RangeError"))
        else
          ({ d2 with written := d2.written ++ [plain]
                     writesInFlight := d2.writesInFlight + 1 }, none)

/-- The callback that `_tick` schedules. -/
def FileDownloader.onTimer (env : DownloadEnv) (d : FileDownloader) : FileDownloader :=
  match d._downloadChunk._decryptChunk env with
  | (d1, none) => d1
  | (d1, some err) => d1._error (.error err)

/-- The arrow function `_onWriteEnd`. -/
def FileDownloader._onWriteEnd (d : FileDownloader) : FileDownloader :=
  FileDownloader._tick { d with writing := false }

/-- What can happen to a started downloader. A chunk request resolves only
with as many bytes as were asked for (`_download` checks the length). -/
inductive DownloadEvent where
  /-- A callback scheduled by `_tick` runs. -/
  | timer
  /-- A request reaches `readyState` 3 and calls `_tick`. -/
  | xhrLoading
  /-- The request at the head of `downloadChain` resolves with `dlChunk`. -/
  | fetched (dlChunk : Bytes)
  /-- The request at the head of `downloadChain` rejects. -/
  | fetchFailed (err : Thrown)
  /-- The end-of-data continuation at the head of `downloadChain` runs. -/
  | chainEof
  /-- The promise of `stream.write` resolves. -/
  | writeEnd
  /-- The promise of `stream.write` rejects. -/
  | writeFailed (err : Thrown)
  /-- A call of `cancel()`. -/
  | cancel
  /-- `_download` creates a request and pushes it on `currentXhrs`. -/
  | xhrOpened (xhr : Nat)
  /-- The promise of `_download` settles and takes its request off `currentXhrs`. -/
  | xhrClosed (xhr : Nat)
  deriving DecidableEq

/-- One event. An event that cannot happen in the state at hand (no timer
scheduled, no request open, another continuation at the head of the chain,
a response of the wrong length, no write in flight) leaves it as it is. -/
def FileDownloader.step (env : DownloadEnv) (d : FileDownloader) : DownloadEvent → FileDownloader
  | .timer =>
    if d.timers = 0 then d
    else FileDownloader.onTimer env { d with timers := d.timers - 1 }
  | .xhrLoading => if d.currentXhrs.length = 0 then d else d._tick
  | .fetched dlChunk =>
    match d.downloadChain with
    | .fetch _ size :: rest =>
      if (dlChunk.length : Int) = size then
        FileDownloader.afterChunk { d with downloadChain := rest } dlChunk
      else d
    | _ => d
  | .fetchFailed err =>
    match d.downloadChain with
    | .fetch _ _ :: rest => FileDownloader._error { d with downloadChain := rest } err
    | _ => d
  | .chainEof =>
    match d.downloadChain with
    | .eof :: rest => FileDownloader._tick { d with downloadChain := rest, downloadEof := true }
    | _ => d
  | .writeEnd =>
    if d.writesInFlight = 0 then d
    else FileDownloader._onWriteEnd { d with writesInFlight := d.writesInFlight - 1 }
  | .writeFailed err =>
    if d.writesInFlight = 0 then d
    else FileDownloader._error { d with writesInFlight := d.writesInFlight - 1 } err
  | .cancel => d.cancel
  | .xhrOpened xhr => { d with currentXhrs := d.currentXhrs ++ [xhr] }
  | .xhrClosed xhr => { d with currentXhrs := d.currentXhrs.erase xhr }

/-- A run: the events one after the other. -/
def FileDownloader.run (env : DownloadEnv) (d : FileDownloader) (events : List DownloadEvent) :
    FileDownloader :=
  events.foldl (FileDownloader.step env) d

/-- The bytes of the stored blob from `pos` on, `size` of them. -/
def blobRange (blob : Bytes) (pos size : Int) : Bytes :=
  (blob.drop pos.toNat).take size.toNat

/-- Chunk number `i` of the stored blob, for chunks of `c` bytes. -/
def blobChunk (blob : Bytes) (c i : Nat) : Bytes :=
  (blob.drop (i * c)).take c

/-- Whether every request that resolves during the run resolves with the
bytes of the blob that it asked for. -/
def FileDownloader.honest (env : DownloadEnv) (blob : Bytes) :
    FileDownloader → List DownloadEvent → Bool
  | _, [] => true
  | d, e :: rest =>
    (match e, d.downloadChain with
      | .fetched dlChunk, .fetch pos size :: _ => decide (dlChunk = blobRange blob pos size)
      | _, _ => true)
    && FileDownloader.honest env blob (d.step env e) rest

/-- The number of bytes waiting in the decrypt queue. -/
def FileDownloader.queuedBytes (d : FileDownloader) : Nat :=
  (d.decryptQueue.map List.length).sum

/-! ## Concrete downloads -/

/-- A configuration with an overhead of 1 byte per chunk, batches of at most
9 bytes, a decrypt buffer of 6 bytes and 2 parallel requests. -/
def smallConfig : DownloadConfig :=
  { chunkOverhead := 1, maxDownloadChunkSize := 9, maxDecryptBufferSize := 6, parallelism := 2 }

/-- A file of 10 stored bytes in chunks of 3 bytes (4 with overhead). -/
def smallFile : FileInfo :=
  { sizeWithOverhead := 10, chunkSize := 3, progress := 0 }

/-- The stored bytes of the small file. -/
def smallBlob : Bytes := [10, 11, 12, 13, 14, 15, 16, 17, 18, 19]

/-- A cipher that strips the first byte of a chunk. -/
def stripEnv : DownloadEnv :=
  { decrypt := fun chunk _ => .ok (chunk.drop 1) }

/-- The small download, started from scratch. -/
def smallDownload : FileDownloader :=
  (FileDownloader.new smallConfig smallFile false 0 none).start

/-- The small download, started with `{ wholeChunks: 1, partialChunkSize: 0 }`. -/
def resumedDownload : FileDownloader :=
  (FileDownloader.new smallConfig smallFile false 0
    (some { partialChunkSize := 0, wholeChunks := 1 })).start

/-- The small download, started with `{ wholeChunks: 1, partialChunkSize: 2 }`. -/
def partialDownload : FileDownloader :=
  (FileDownloader.new smallConfig smallFile false 0
    (some { partialChunkSize := 2, wholeChunks := 1 })).start

/-- A complete run of the small download from scratch. -/
def smallRun : List DownloadEvent :=
  [.timer, .xhrOpened 1, .fetched [10, 11, 12, 13, 14, 15, 16, 17], .xhrClosed 1,
   .timer, .writeEnd, .xhrOpened 2, .fetched [18, 19], .xhrClosed 2,
   .timer, .writeEnd, .timer, .chainEof, .timer, .writeEnd]

/-- A complete run of the small download resumed after one chunk. -/
def resumedRun : List DownloadEvent :=
  [.timer, .xhrOpened 1, .fetched [14, 15, 16, 17, 18, 19], .xhrClosed 1,
   .timer, .writeEnd, .timer, .chainEof, .timer, .writeEnd]

/-- The download of Scenario B: 250000 stored bytes, chunks of 65536 bytes
with overhead, batches of 131072 bytes. -/
def scenarioB : FileDownloader :=
  (FileDownloader.new
    { chunkOverhead := 32, maxDownloadChunkSize := 131072,
      maxDecryptBufferSize := 3145728, parallelism := 3 }
    { sizeWithOverhead := 250000, chunkSize := 65504, progress := 0 } false 0 none).start

/-- What holds in every state of a started downloader: `stopped` and
`processFinished` go together, the promise exists, at most one write is in
flight and `writing` is set while it is, nothing was done to the outside
before the process is finished, and when `resolve` was called the end of the
data was reached with an empty decrypt queue and no write in flight. -/
structure FileDownloader.Sound (d : FileDownloader) : Prop where
  stopped_eq : d.core.stopped = d.core.processFinished
  started : d.core.hasPromise = true
  write_le : d.writesInFlight ≤ 1
  write_flag : d.writesInFlight = 1 → d.writing = true
  quiet : d.core.processFinished = false → d.core.events = []
  resolved : ProcessEvent.resolve ∈ d.core.events →
    d.downloadEof = true ∧ d.decryptQueue = [] ∧ d.writing = false ∧ d.writesInFlight = 0

/-- The moves that the events of a downloader are made of. `served pos size
dlChunk` tells which responses a request for `size` bytes at `pos` may
resolve with. -/
inductive FileDownloader.Move (env : DownloadEnv) (served : Int → Int → Bytes → Prop) :
    FileDownloader → FileDownloader → Prop where
  /-- A call of `_finishProcess` with an error. -/
  | fail (d : FileDownloader) (err : Thrown) (herr : err ≠ .falsy) :
    Move env served d (d._finishProcess err)
  /-- The call of `_finishProcess()` in `_checkIfFinished`. -/
  | succeed (d : FileDownloader) (heof : d.downloadEof = true) (hqueue : d.decryptQueue = [])
    (hwriting : d.writing = false) : Move env served d (d._finishProcess .falsy)
  /-- The call of `setTimeout` in `_tick`. -/
  | schedule (d : FileDownloader) : Move env served d { d with timers := d.timers + 1 }
  /-- A scheduled callback starts. -/
  | timerPop (d : FileDownloader) : Move env served d { d with timers := d.timers - 1 }
  /-- A call of `_downloadChunk`. -/
  | download (d : FileDownloader) : Move env served d d._downloadChunk
  /-- A call of `_decryptChunk` that returns. -/
  | decrypt (d d1 : FileDownloader) (hres : d._decryptChunk env = (d1, none)) :
    Move env served d d1
  /-- A call of `_decryptChunk` that throws, and the `_error` of the `catch`. -/
  | decryptFail (d d1 : FileDownloader) (err : JsError)
    (hres : d._decryptChunk env = (d1, some err)) :
    Move env served d (d1._error (.error err))
  /-- A response arrives and its chunks are pushed on the decrypt queue. -/
  | land (d : FileDownloader) (pos size : Int) (rest : List ChainItem) (dlChunk : Bytes)
    (hchain : d.downloadChain = .fetch pos size :: rest)
    (hsize : (dlChunk.length : Int) = size) (hstopped : d.core.stopped = false)
    (hlen : dlChunk.length ≠ 0) (hserved : served pos size dlChunk) :
    Move env served d
      { d with downloadChain := rest
               decryptQueue := d.decryptQueue ++ splitChunks d.chunkSizeWithOverhead dlChunk
               activeDownloads := d.activeDownloads - 1 }
  /-- A response arrives at a stopped downloader and is dropped. -/
  | skip (d : FileDownloader) (pos size : Int) (rest : List ChainItem)
    (hchain : d.downloadChain = .fetch pos size :: rest) (hstopped : d.core.stopped = true) :
    Move env served d { d with downloadChain := rest }
  /-- A request fails, or its continuation throws, and `_error` is called. -/
  | dropFail (d : FileDownloader) (pos size : Int) (rest : List ChainItem) (err : Thrown)
    (hchain : d.downloadChain = .fetch pos size :: rest) (herr : err ≠ .falsy) :
    Move env served d (FileDownloader._finishProcess { d with downloadChain := rest } err)
  /-- The end-of-data continuation sets `downloadEof`. -/
  | eof (d : FileDownloader) (rest : List ChainItem) (hchain : d.downloadChain = .eof :: rest) :
    Move env served d { d with downloadChain := rest, downloadEof := true }
  /-- A write ends and `_onWriteEnd` clears `writing`. -/
  | writeEnd (d : FileDownloader) (hflight : d.writesInFlight ≠ 0) :
    Move env served d { d with writesInFlight := d.writesInFlight - 1, writing := false }
  /-- A write fails. -/
  | writeFail (d : FileDownloader) (hflight : d.writesInFlight ≠ 0) :
    Move env served d { d with writesInFlight := d.writesInFlight - 1 }
  /-- A request is pushed on, or taken off, `currentXhrs`. -/
  | xhrs (d : FileDownloader) (open_ : List Nat) :
    Move env served d { d with currentXhrs := open_ }

/-- Whether an event is one that `served` allows in the state at hand. -/
def FileDownloader.Allowed (served : Int → Int → Bytes → Prop) (d : FileDownloader) :
    DownloadEvent → Prop
  | .fetched dlChunk =>
    match d.downloadChain with
    | .fetch pos size :: _ => served pos size dlChunk
    | _ => True
  | _ => True

/-- Whether every event of a run is one that `served` allows. -/
def FileDownloader.AllowedRun (env : DownloadEnv) (served : Int → Int → Bytes → Prop) :
    FileDownloader → List DownloadEvent → Prop
  | _, [] => True
  | d, e :: rest => d.Allowed served e ∧ FileDownloader.AllowedRun env served (d.step env e) rest

/-- The fetch plan of the specification for `s` stored bytes and batches of
`b` bytes: `ceil(s / b)` requests, the `i`-th (from 0) for the byte range
from `i * b` to `min((i + 1) * b, s) - 1`. -/
def fetchPlan (s b : Nat) : List (Int × Int) :=
  (List.range ((s + b - 1) / b)).map
    (fun i => (((i * b : Nat) : Int), ((min ((i + 1) * b) s : Nat) : Int) - 1))

/-- A download from scratch follows the fetch plan: the ranges requested so
far are the first `n` of the plan, `downloadPos` is where the `n`-th ended,
and `noMoreChunks` is set only at the end of the stored bytes. -/
def FileDownloader.Planned (s b : Nat) (d : FileDownloader) : Prop :=
  d.sizeWithOverhead = s ∧ d.downloadChunkSize = b ∧
  (∃ n : Nat, d.requested = (fetchPlan s b).take n ∧
    d.downloadPos = ((min (n * b) s : Nat) : Int)) ∧
  (d.noMoreChunks = true → d.downloadPos = (s : Int))

/-- The plain chunk that `secret.decrypt` returned for a logged call, if it
returned one. -/
def DownloadEnv.plain (env : DownloadEnv) (entry : Nat × Bytes) : Option Bytes :=
  match env.decrypt entry.2 entry.1 with
  | .ok plain => some plain
  | .error _ => none

/-- The chunks that the specification expects on the output stream of a
download resumed with `partialChunkSize = p`, for a log of decrypt calls:
the first plain chunk without its first `p` bytes, every later one whole. -/
def expectedWrites (env : DownloadEnv) (p : Nat) : List (Nat × Bytes) → List (Option Bytes)
  | [] => []
  | first :: rest => (env.plain first).map (List.drop p) :: rest.map env.plain

/-- How the chunks written relate to the chunks decrypted, in a download
started with `partialChunkSize = p`. -/
structure FileDownloader.Writes (env : DownloadEnv) (p : Nat) (d : FileDownloader) : Prop where
  untouched : d.decrypted = [] → d.partialChunkSize = p
  cleared : d.decrypted ≠ [] → d.core.stopped = true ∨ d.partialChunkSize = 0
  cleared_written : d.written ≠ [] → d.partialChunkSize = 0
  all_written : d.core.stopped = true ∨ d.written.length = d.decrypted.length
  written_le : d.written.length ≤ d.decrypted.length
  written_eq : d.written.map some = (expectedWrites env p d.decrypted).take d.written.length
  resolved : ProcessEvent.resolve ∈ d.core.events → d.written.length = d.decrypted.length

/-- The `partialChunkSize` that a constructor call sets. -/
def startPartial : Option ResumeParams → Nat
  | none => 0
  | some r => r.partialChunkSize

/-- The number of chunk requests waiting on `downloadChain`. -/
def fetchCount : List ChainItem → Nat
  | [] => 0
  | .fetch _ _ :: rest => fetchCount rest + 1
  | .eof :: rest => fetchCount rest

/-- What bounds the decrypt queue of a downloader with chunks of `c` bytes,
batches of `b` bytes, a buffer of `cap` bytes and `par` parallel requests:
no queued chunk is longer than `c`, no request is for more than `b` bytes,
every waiting request is counted in `activeDownloads`, and the chunks in the
queue together with the chunks that the active requests may still bring do
not exceed what the fullness test admits plus `par` batches. -/
structure FileDownloader.Bounded (c b cap par : Nat) (d : FileDownloader) : Prop where
  chunk_eq : d.chunkSizeWithOverhead = c
  batch_eq : d.downloadChunkSize = b
  cap_eq : d.config.maxDecryptBufferSize = cap
  par_eq : d.config.parallelism = par
  chunk_le : ∀ chunk ∈ d.decryptQueue, chunk.length ≤ c
  size_le : ∀ pos size, ChainItem.fetch pos size ∈ d.downloadChain → size ≤ (b : Int)
  active_ge : (fetchCount d.downloadChain : Int) ≤ d.activeDownloads
  room : (d.decryptQueue.length : Int) + ((b / c : Nat) : Int) * d.activeDownloads
    ≤ ((cap * par / (c + 1) : Nat) : Int) + ((b / c : Nat) : Int) * (par : Int)

/-- A configuration with a decrypt buffer of 1 byte and 1 request at a time. -/
def tightConfig : DownloadConfig :=
  { chunkOverhead := 1, maxDownloadChunkSize := 9, maxDecryptBufferSize := 1, parallelism := 1 }

/-- The small file, downloaded from scratch under the tight configuration. -/
def tightDownload : FileDownloader :=
  (FileDownloader.new tightConfig smallFile false 0 none).start

/-- How `downloadChain` ends: the end-of-data continuation is queued exactly
when `noMoreChunks` is set, it is the last one, and once it has run the chain
is empty; `noMoreChunks` is set only where the computed request size is 0. -/
structure FileDownloader.Chained (d : FileDownloader) : Prop where
  open_ended : d.noMoreChunks = false → ChainItem.eof ∉ d.downloadChain ∧ d.downloadEof = false
  closing : d.noMoreChunks = true → d.downloadEof = false →
    ∃ fetches, d.downloadChain = fetches ++ [.eof] ∧ ChainItem.eof ∉ fetches
  closed : d.downloadEof = true → d.downloadChain = [] ∧ d.noMoreChunks = true
  no_more : d.noMoreChunks = true →
    min (d.downloadChunkSize : Int) ((d.sizeWithOverhead : Int) - d.downloadPos) = 0

/-- The requests waiting on `downloadChain` ask for adjoining ranges that
start at byte `p` of a blob of `s` bytes and end at `downloadPos`; each asks
for at most `b` bytes, a request for a positive number of bytes starts on a
chunk boundary and stays inside the blob, and each ends on a chunk boundary
or at or after the end of the blob. -/
def ChainOk (c s b : Nat) : Nat → List ChainItem → Int → Prop
  | p, [], downloadPos => downloadPos = (p : Int)
  | p, .eof :: rest, downloadPos => ChainOk c s b p rest downloadPos
  | p, .fetch pos size :: rest, downloadPos =>
    pos = (p : Int) ∧ size ≤ (b : Int) ∧
    ∃ p2 : Nat, (p2 : Int) = pos + size ∧ (c ∣ p2 ∨ s ≤ p2) ∧ (0 < size → c ∣ p ∧ p2 ≤ s) ∧
      ChainOk c s b p2 rest downloadPos

/-- How a download of `blob`, with chunks of `c` bytes and batches of `b`
bytes, started at chunk `w`, keeps chunks and nonces aligned: the calls of
`secret.decrypt` so far were for the chunks `w`, `w + 1`, ... of the blob,
each with the nonce of its own index; and while the downloader is not
stopped, the decrypt queue holds the chunks of the blob from chunk `chunkId`
up to the byte where the first waiting request starts. -/
structure FileDownloader.Aligned (blob : Bytes) (c b w : Nat) (d : FileDownloader) : Prop where
  size_eq : d.sizeWithOverhead = blob.length
  chunk_eq : d.chunkSizeWithOverhead = c
  batch_eq : d.downloadChunkSize = b
  resumed : w ≤ d.chunkId
  log : d.decrypted = (List.range' w (d.chunkId - w)).map (fun i => (i, blobChunk blob c i))
  inside : w < d.chunkId → (d.chunkId - 1) * c < blob.length
  idle : b = 0 → d.chunkId = w ∧ d.decryptQueue = []
  shape : d.core.stopped = true ∨ ∃ p : Nat,
    ChainOk c blob.length b p d.downloadChain d.downloadPos ∧
    d.decryptQueue = splitChunks c ((blob.take p).drop (d.chunkId * c)) ∧
    (c ∣ p ∨ blob.length ≤ p) ∧ (d.chunkId * c ≤ p ∨ blob.length ≤ p)
  complete : ProcessEvent.resolve ∈ d.core.events → b = 0 ∨ blob.length ≤ d.chunkId * c

/-- The number of the first chunk that a download started with these
resume parameters fetches: `wholeChunks`, or 0 without resume parameters. -/
def startChunk : Option ResumeParams → Nat
  | none => 0
  | some r => r.wholeChunks

/-- The bytes, one after the other, of the chunks handed to `stream.write`. -/
def FileDownloader.output (d : FileDownloader) : Bytes :=
  d.written.flatten

/-- The chunks that an event pushes on the decrypt queue: those of a
response that lines 128-143 take, and none otherwise. -/
def FileDownloader.pushes (d : FileDownloader) : DownloadEvent → List Bytes
  | .fetched dlChunk =>
    match d.downloadChain with
    | .fetch _ size :: _ =>
      if (dlChunk.length : Int) = size ∧ d.core.stopped = false then
        splitChunks d.chunkSizeWithOverhead dlChunk
      else []
    | _ => []
  | _ => []

/-- The chunks pushed on the decrypt queue during a run, oldest first. -/
def FileDownloader.pushed (env : DownloadEnv) :
    FileDownloader → List DownloadEvent → List Bytes
  | _, [] => []
  | d, e :: rest => d.pushes e ++ FileDownloader.pushed env (d.step env e) rest

/-- The chunks that have entered the decrypt queue, oldest first: those
taken off it (logged with their nonce index in `decrypted`) and those that
wait in it. -/
def FileDownloader.entered (d : FileDownloader) : List Bytes :=
  d.decrypted.map Prod.snd ++ d.decryptQueue

/-- A configuration whose `maxDownloadChunkSize` of 3 bytes is less than a
chunk of the small file with its overhead (4 bytes). -/
def tinyBatchConfig : DownloadConfig :=
  { chunkOverhead := 1, maxDownloadChunkSize := 3, maxDecryptBufferSize := 6, parallelism := 2 }

/-- The small file, downloaded from scratch under the configuration with tiny
batches. -/
def tinyBatchDownload : FileDownloader :=
  (FileDownloader.new tinyBatchConfig smallFile false 0 none).start

/-! ## One call of `_download` (`src/models/files/file-downloader.ts`, lines 198-308) -/

/-- The state of one call of `_download(url, expectedSize)`: the variables of
its closure, and the promises. `settled` is the state of the promise made by
`new Promise`, `isRejected` is what `p.isRejected()` answers, `p` being the
promise that `.finally` derives from it. The bookkeeping fields count what
the call does to the outside: `timers` the callbacks of `setTimeout(..., 3000)`
that have not run yet, `sent` the calls of `xhr.send()`, `progress` what was
added to `self.file.progress`, `ticks` the calls of `self._tick()`. -/
structure DownloadCall where
  expectedSize : Int
  lastLoaded : Int
  retryCount : Nat
  progressEventFired : Bool
  settled : Option (Except JsError Bytes)
  isRejected : Bool
  timers : Nat
  sent : Nat
  progress : Int
  ticks : Nat

/-- A call of `resolve(response)`: it settles the promise unless it is
settled. -/
def DownloadCall.resolve (x : DownloadCall) (response : Bytes) : DownloadCall :=
  match x.settled with
  | none => { x with settled := some (.ok response) }
  | some _ => x

/-- A call of `reject(reason)`: it settles the promise unless it is settled. -/
def DownloadCall.reject (x : DownloadCall) (reason : JsError) : DownloadCall :=
  match x.settled with
  | none => { x with settled := some (.error reason) }
  | some _ => x

/-- The function `trySend` of the closure: the state after the call and the
value returned. `stopped` is `self.stopped` at the time of the call; the
`||` does not count the attempt when it is set. -/
def DownloadCall.trySend (x : DownloadCall) (stopped : Bool) : DownloadCall × Bool :=
  if stopped then (x, false)
  else if x.retryCount ≥ 5 then ({ x with retryCount := x.retryCount + 1 }, false)
  else ({ x with retryCount := x.retryCount + 1, timers := x.timers + 1 }, true)

/-- The call `_download(url, expectedSize)` up to its `return`: the executor
of the promise sets the handlers and calls `trySend()`. -/
def FileDownloader._download (d : FileDownloader) (expectedSize : Int) : DownloadCall :=
  (DownloadCall.trySend
    { expectedSize := expectedSize, lastLoaded := 0, retryCount := 0
      progressEventFired := false, settled := none, isRejected := false
      timers := 0, sent := 0, progress := 0, ticks := 0 } d.core.stopped).1

/-- Modelled from the spec: the error class `DisconnectedError` (the
distinguished "disconnected" failure of the specification), which
`file-downloader.ts` imports from `errors` and which the `errors.js` at hand
does not declare. This is the value of `new DisconnectedError()`; the class
is abstracted to its name. -/
def DisconnectedError : JsError :=
  .external "DisconnectedError"

/-- The handler `xhr.onreadystatechange`, for a request in state `readyState`
with status `status` and response `response`. `stopped` and `authenticated`
are `self.stopped` and `socket.authenticated` at the time of the event.
When `trySend()` returns `false` and the socket is not authenticated, the
promise is rejected with a `DisconnectedError`, the class being the one
modelled above. -/
def DownloadCall.onreadystatechange (x : DownloadCall) (readyState status : Nat)
    (response : Bytes) (stopped authenticated : Bool) : DownloadCall :=
  if readyState = 3 then { x with ticks := x.ticks + 1 }
  else if readyState ≠ 4 then x
  else if status = 0 then x.reject (.error "Blob download cancelled")
  else if status = 423 then x.reject (.error "Blob download got 423 error")
  else if (status = 200 ∨ status = 206) ∧ (response.length : Int) = x.expectedSize then
    DownloadCall.resolve
      (if x.progressEventFired then x else { x with progress := x.progress + x.expectedSize })
      response
  else if x.isRejected then x
  else
    match x.trySend stopped with
    | (x1, true) => x1
    | (x1, false) =>
      x1.reject
        (if authenticated then .error "Blob download error" else DisconnectedError)

/-- The handler `xhr.onprogress`, for an event with `event.loaded = loaded`. -/
def DownloadCall.onprogress (x : DownloadCall) (loaded : Int) : DownloadCall :=
  let x1 := if loaded > 0 then { x with progressEventFired := true } else x
  if x1.isRejected then x1
  else if loaded > x1.lastLoaded then
    { x1 with progress := x1.progress + (loaded - x1.lastLoaded), lastLoaded := loaded }
  else x1

/-- The handler shared by `xhr.ontimeout`, `xhr.onabort` and `xhr.onerror`. -/
def DownloadCall.onerror (x : DownloadCall) (stopped : Bool) : DownloadCall :=
  if x.isRejected then x
  else
    match x.trySend stopped with
    | (x1, true) => x1
    | (x1, false) => x1.reject (.error "Blob download error")

/-- What can happen to a call of `_download`. -/
inductive XhrEvent where
  /-- A callback of `setTimeout(..., 3000)` runs: `xhr.open`, `xhr.send`. -/
  | timer
  /-- The event `readystatechange`. -/
  | readystatechange (readyState status : Nat) (response : Bytes) (stopped authenticated : Bool)
  /-- The event `progress`. -/
  | progress (loaded : Int)
  /-- One of the events `timeout`, `abort` and `error`. -/
  | error (stopped : Bool)
  /-- The promise `p` takes the state of the promise it derives from. -/
  | settle

/-- One event. A timer that was not set does not run. -/
def DownloadCall.step (x : DownloadCall) : XhrEvent → DownloadCall
  | .timer => if x.timers = 0 then x else { x with timers := x.timers - 1, sent := x.sent + 1 }
  | .readystatechange readyState status response stopped authenticated =>
    x.onreadystatechange readyState status response stopped authenticated
  | .progress loaded => x.onprogress loaded
  | .error stopped => x.onerror stopped
  | .settle =>
    match x.settled with
    | some (.error _) => { x with isRejected := true }
    | _ => x

/-- A run: the events one after the other. -/
def DownloadCall.run (x : DownloadCall) (events : List XhrEvent) : DownloadCall :=
  events.foldl DownloadCall.step x

/-- What holds in every state of a call of `_download`: a request was
scheduled for each counted attempt up to the fifth, `p` is rejected only when
the promise is, and the promise is resolved only with a response of the
expected size. -/
structure DownloadCall.Sound (x : DownloadCall) : Prop where
  scheduled : x.sent + x.timers = min x.retryCount 5
  rejected : x.isRejected = true → ∃ reason, x.settled = some (.error reason)
  resolved : ∀ response, x.settled = some (.ok response) →
    (response.length : Int) = x.expectedSize

/-! ## Random nonces (`src/crypto/util.js`) -/

/-- The operator `>>>` on a non-negative integer: the left operand modulo
`2^32`, shifted right by the count modulo 32. -/
def ushr (x count : Nat) : Nat :=
  (x % 2 ^ 32) >>> (count % 32)

/-- The expression `x & 0xff` for a non-negative integer `x`. -/
def and0xff (x : Nat) : Nat :=
  (x % 2 ^ 32) &&& 0xff

/-- The function `numberToByteArray`. -/
def numberToByteArray (num : Nat) : List Nat :=
  [and0xff num, and0xff (ushr num 8), and0xff (ushr num 16), ushr num 24]

/-- The method `set(source, offset)` of a `Uint8Array`: the array after the
call; every value is stored modulo 256, and a source that does not fit
throws a `RangeError`. -/
def Uint8Array.set (target : Bytes) (source : List Nat) (offset : Nat) : Except JsError Bytes :=
  if offset + source.length > target.length then .error (.external "RangeError")
  else
    .ok (target.take offset ++ source.map (fun v => v % 256)
      ++ target.drop (offset + source.length))

/-- The function `getRandomNonce`; `now` is the value of `Date.now()` and
`getRandomBytes` the function of that name. -/
def getRandomNonce (now : Nat) (getRandomBytes : Nat → Except JsError Bytes) :
    Except JsError Bytes := do
  let nonce ← Uint8Array.set (List.replicate 24 0) (numberToByteArray (ushr now 32)) 0
  let random ← getRandomBytes 20
  Uint8Array.set nonce random 4

/-! ## Mail store (`src/models/mail/mail-store.ts`) -/

/-- The fields of a `Mail` that the counting of selected mails reads. -/
structure Mail where
  subject : String
  selected : Bool
  deriving DecidableEq

/-- A primitive value that `+` can yield here: a number or a string. -/
inductive JsPrim where
  | num (n : Int)
  | str (s : String)
  deriving DecidableEq

/-- A value that the accumulator of `reduce` can hold: a `Mail` object or a
primitive value. -/
inductive Accumulated where
  | mail (m : Mail)
  | prim (p : JsPrim)
  deriving DecidableEq

/-- The expression `count + n` for a number `n`: numbers are added, a string
is extended by the digits of `n`, and an object is first made a primitive
value; what a `Mail` object becomes (by its `valueOf` or `toString`) is given
by `toPrimitive`, the class `Mail` not being at hand. -/
def jsPlus (toPrimitive : Mail → JsPrim) (count : Accumulated) (n : Nat) : Accumulated :=
  match (match count with
    | .mail m => toPrimitive m
    | .prim p => p) with
  | .num v => .prim (.num (v + n))
  | .str s => .prim (.str (s ++ toString n))

/-- The method `reduce(callback)` of an array of mails, called without an
initial value: the first element is the first accumulator, and an empty
array throws a `TypeError`. -/
def reduceMails (callback : Accumulated → Mail → Accumulated) :
    List Mail → Except JsError Accumulated
  | [] => .error .typeError
  | first :: rest => .ok (rest.foldl callback (.mail first))

/-- The getter `selectedCount` of `MailStore`. -/
def MailStore.selectedCount (toPrimitive : Mail → JsPrim) (mails : List Mail) :
    Except JsError Accumulated :=
  reduceMails (fun count m => jsPlus toPrimitive count (if m.selected then 1 else 0)) mails

/-- The static method `isMailSelected` of `MailStore`. -/
def MailStore.isMailSelected (mail : Mail) : Bool :=
  mail.selected

/-- The method `getSelectedMails` of `MailStore`. -/
def MailStore.getSelectedMails (mails : List Mail) : List Mail :=
  mails.filter MailStore.isMailSelected

/-! ## Username suggestions (`src/helpers/validation/user-validators.ts`) -/

/-- Whether a character is white space or a line terminator for
`String.prototype.trim`. -/
def isTrimmed (c : Char) : Bool :=
  c.toNat ∈ [0x09, 0x0A, 0x0B, 0x0C, 0x0D, 0x20, 0xA0, 0x1680, 0x2000, 0x2001, 0x2002, 0x2003,
    0x2004, 0x2005, 0x2006, 0x2007, 0x2008, 0x2009, 0x200A, 0x2028, 0x2029, 0x202F, 0x205F,
    0x3000, 0xFEFF]

/-- The method `trim` of a string, on its characters. -/
def trim (s : List Char) : List Char :=
  ((s.dropWhile isTrimmed).reverse.dropWhile isTrimmed).reverse

/-- Whether a character is in the class `[a-z|A-Z|0-9|_]`: a letter of the
basic alphabet, a digit, an underscore or a vertical bar. -/
def isKept (c : Char) : Bool :=
  (97 ≤ c.toNat && c.toNat ≤ 122) || c = '|' || (65 ≤ c.toNat && c.toNat ≤ 90)
    || (48 ≤ c.toNat && c.toNat ≤ 57) || c = '_'

/-- The call `replace(/[^a-z|A-Z|0-9|_]/g, '')`, on the characters of a
string. -/
def stripOthers (s : List Char) : List Char :=
  s.filter isKept

/-- The call `substring(0, end)` for a string of characters of the basic
plane; an `end` that is negative or not a number counts as 0. -/
def substring0 (s : List Char) (end_ : Int) : List Char :=
  s.take end_.toNat

/-- The method `toLocaleLowerCase` on one character of the class that the
`replace` keeps: a capital letter becomes the small one, except that in a
Turkic locale the capital `I` becomes the dotless small `ı`; every other
character of the class stays. -/
def lowerChar (turkic : Bool) (c : Char) : Char :=
  if 65 ≤ c.toNat ∧ c.toNat ≤ 90 then
    if turkic ∧ c = 'I' then 'ı' else Char.ofNat (c.toNat + 32)
  else c

/-- The method `toLocaleLowerCase`, on the characters of a string made of
characters that the `replace` keeps. -/
def toLocaleLowerCase (turkic : Bool) (s : List Char) : List Char :=
  s.map (lowerChar turkic)

/-- The validator `isValidSignupUsernameSuggestion`, that is
`isValid('signup', 'username', 'suggestion')`: an empty value gives `false`
without a request; otherwise the answer of the server to request number
`request`, taken for its truthiness. -/
def isValidSignupUsernameSuggestion (server : Nat → String → Bool) (request : Nat)
    (value : List Char) : Bool :=
  if value = [] then false else server request (String.mk value)

/-- The loop of lines 199-206 from option number `request` on. -/
def suggestLoop (turkic : Bool) (server : Nat → String → Bool) :
    Nat → List (List Char) → List String → List String
  | _, [], suggestions => suggestions
  | request, option :: rest, suggestions =>
    if suggestions.length ≥ 3 then suggestions
    else
      let normalized := toLocaleLowerCase turkic option
      if isValidSignupUsernameSuggestion server request normalized then
        suggestLoop turkic server (request + 1) rest (suggestions ++ [String.mk normalized])
      else suggestLoop turkic server (request + 1) rest suggestions

/-- The function `suggestUsername`, when every validation request is
answered. `usernameLength` is `config.user.maxUsernameLength`, `getFirstLetter`
the helper of that name, `turkic` tells whether the locale of the host is a
Turkic one, and `server` gives the answers of the server. -/
def suggestUsername (usernameLength : Int) (getFirstLetter : String → String) (turkic : Bool)
    (server : Nat → String → Bool) (firstName lastName : String) : List String :=
  let initial := getFirstLetter firstName
  let options : List String :=
    [firstName, firstName ++ lastName, firstName ++ "_" ++ lastName, lastName,
     initial ++ lastName, lastName ++ initial]
  let validOptions := options.map
    (fun x => toLocaleLowerCase turkic
      (substring0 (stripOthers (trim x.data)) (usernameLength - 1)))
  suggestLoop turkic server 0 validOptions []

/-- Whether a character is one that the username format check `\w` accepts
in lower case: a small letter of the basic alphabet, a digit or an
underscore. -/
def isUsernameChar (c : Char) : Bool :=
  (97 ≤ c.toNat && c.toNat ≤ 122) || (48 ≤ c.toNat && c.toNat ≤ 57) || c = '_'

/-- A cipher that fails on every chunk. -/
def failingEnv : DownloadEnv :=
  { decrypt := fun _ _ => .error (.external "decrypt") }

/-! ## Properties of kegs -/

/-- C1 (as stated) fails: a keg with id `keg1` is handed a record filed under
`keg2` whose payload decrypts to a stamp saying `keg3`. The inner stamp
differs from the outer id (of the record as of the keg), yet `loadFromKeg`
fails with a plain `Error`, not with an `AntiTamperError`. -/
theorem loadFromKeg_rehydrate_not_antiTamper :
    storedKeg.plaintext = false ∧
    storedKeg.id = some "keg1" ∧
    relabelledRecord.kegId = some "keg2" ∧
    payloadTruthy relabelledRecord.payload = true ∧
    relabelledRecord.payload
      = some (.binary (.sealed (.json (.obj (.cons "_sys" foreignStamp .nil))) [1, 2, 3])) ∧
    storedKeg.decodePayload acceptingEnv
        (.binary (.sealed (.json (.obj (.cons "_sys" foreignStamp .nil))) [1, 2, 3]))
      = .ok (.obj (.cons "_sys" foreignStamp .nil)) ∧
    getProp (.obj (.cons "_sys" foreignStamp .nil)) "_sys" = .ok foreignStamp ∧
    getProp foreignStamp "kegId" = .ok (.str "keg3") ∧
    JsVal.str "keg3" ≠ idValue relabelledRecord.kegId ∧
    JsVal.str "keg3" ≠ idValue storedKeg.id ∧
    (storedKeg.loadFromKeg acceptingEnv Keg.baseHooks relabelledRecord).outcome
      = .error (.error "Attempt to rehydrate keg(keg1) with data from another keg(keg2).") ∧
    ∀ field, (storedKeg.loadFromKeg acceptingEnv Keg.baseHooks relabelledRecord).outcome
      ≠ .error (.antiTamper field) := by
  refine ⟨rfl, rfl, rfl, rfl, rfl, rfl, rfl, rfl, by decide, by decide, rfl, ?_⟩
  intro field h
  have h2 : (storedKeg.loadFromKeg acceptingEnv Keg.baseHooks relabelledRecord).outcome
      = .error (.error "Attempt to rehydrate keg(keg1) with data from another keg(keg2).") := rfl
  rw [h2] at h
  cases h

/-- When the payload carries a stamp that disagrees with the keg,
`detectTampering` throws an `AntiTamperError`. -/
theorem detectTampering_mismatch (k : Keg) (payload sys innerId innerType : JsVal)
    (hsys : getProp payload "_sys" = .ok sys)
    (hid : getProp sys "kegId" = .ok innerId)
    (htype : getProp sys "type" = .ok innerType)
    (hdiff : innerId ≠ idValue k.id ∨ innerType ≠ .str k.type) :
    ∃ field, k.detectTampering payload = .error (.antiTamper field) := by
  by_cases h1 : innerId = idValue k.id
  · have h2 : innerType ≠ .str k.type := by
      rcases hdiff with h | h
      · exact absurd h1 h
      · exact h
    refine ⟨"type", ?_⟩
    simp [Keg.detectTampering, hsys, hid, htype, h1, h2, bind, Except.bind, pure, Except.pure,
      throw, throwThe, MonadExceptOf.throw]
  · refine ⟨"kegId", ?_⟩
    simp [Keg.detectTampering, hsys, hid, h1, bind, Except.bind, throw, throwThe,
      MonadExceptOf.throw]

/-- When the payload carries the stamp of the keg, `detectTampering` returns. -/
theorem detectTampering_match (k : Keg) (payload sys : JsVal)
    (hsys : getProp payload "_sys" = .ok sys)
    (hid : getProp sys "kegId" = .ok (idValue k.id))
    (htype : getProp sys "type" = .ok (.str k.type)) :
    k.detectTampering payload = .ok () := by
  simp [Keg.detectTampering, hsys, hid, htype, bind, Except.bind, pure, Except.pure]

/-- The guard of `loadFromKeg` lets a record through when the keg has no id
yet or the ids agree. -/
theorem rehydrate_guard_false (k : Keg) (keg : RawKeg)
    (h : idTruthy k.id = false ∨ k.id = keg.kegId) :
    (idTruthy k.id && k.id != keg.kegId) = false := by
  rcases h with h | h
  · simp [h]
  · simp [h]

/-- C1 (amended): for a keg that is not plaintext and whose id is unassigned
or equal to the record's `kegId`, a record with a non-empty payload that
decrypts and parses to a value carrying a stamp `_sys` whose `kegId` differs
from the record's id, or whose `type` differs from the keg's type, makes
`loadFromKeg` fail with an `AntiTamperError` without invoking
`deserializeKegPayload`; and so does `load` when the store returns that
record. -/
theorem loadFromKeg_antiTamper (env : Env) (hooks : Hooks) (k : Keg) (keg : RawKeg)
    (wire : WirePayload) (text : Text) (payload sys innerId innerType : JsVal)
    (hplain : k.plaintext = false)
    (hguard : idTruthy k.id = false ∨ k.id = keg.kegId)
    (hpayload : keg.payload = some wire)
    (htruthy : payloadTruthy keg.payload = true)
    (hdecrypt : env.secret.decryptString (toUint8Array env wire) k.key = .ok text)
    (hparse : jsonParse text = .ok payload)
    (hsys : getProp payload "_sys" = .ok sys)
    (hid : getProp sys "kegId" = .ok innerId)
    (htype : getProp sys "type" = .ok innerType)
    (hdiff : innerId ≠ idValue keg.kegId ∨ innerType ≠ .str k.type) :
    (∃ field, (k.loadFromKeg env hooks keg).outcome = .error (.antiTamper field)) ∧
    (k.loadFromKeg env hooks keg).deserialized = [] ∧
    (env.socket.get { collectionId := k.db.id, kegId := k.id } = .ok keg →
      (∃ field, (k.load env hooks).outcome = .error (.antiTamper field)) ∧
      (k.load env hooks).deserialized = []) := by
  obtain ⟨field, hfield⟩ := detectTampering_mismatch (k.rehydrate keg)
    payload sys innerId innerType hsys hid htype hdiff
  have hkey : (k.rehydrate keg).key = k.key := rfl
  have hplain2 : (k.rehydrate keg).plaintext = false := hplain
  have hdecode : (k.rehydrate keg).decodePayload env wire = .ok payload := by
    simp [Keg.decodePayload, hplain2, hkey, hdecrypt, hparse, bind, Except.bind]
  have hres : k.loadFromKeg env hooks keg =
      { keg := k.rehydrate keg, outcome := .error (.antiTamper field), deserialized := [] } := by
    rw [hpayload] at htruthy
    simp [Keg.loadFromKeg, rehydrate_guard_false k keg hguard, hpayload, htruthy, hdecode,
      hplain2, hfield]
  refine ⟨⟨field, by rw [hres]⟩, by rw [hres], ?_⟩
  intro hget
  have hload : k.load env hooks = k.loadFromKeg env hooks keg := by
    simp [Keg.load, hget]
  rw [hload]
  exact ⟨⟨field, by rw [hres]⟩, by rw [hres]⟩

/-- C1 (amended) at a concrete record: keg `keg1` loads a record filed under
`keg1` whose payload is stamped `keg9`. -/
theorem loadFromKeg_antiTamper_witness :
    (∃ field, (storedKeg.loadFromKeg acceptingEnv Keg.baseHooks swappedRecord).outcome
      = .error (.antiTamper field)) ∧
    (storedKeg.loadFromKeg acceptingEnv Keg.baseHooks swappedRecord).deserialized = [] :=
  have h := loadFromKeg_antiTamper acceptingEnv Keg.baseHooks storedKeg swappedRecord
    (.binary (.sealed (.json (.obj (.cons "_sys"
      (.obj (.cons "kegId" (.str "keg9") (.cons "type" (.str "chat_head") .nil))) .nil)))
      [1, 2, 3]))
    (.json (.obj (.cons "_sys"
      (.obj (.cons "kegId" (.str "keg9") (.cons "type" (.str "chat_head") .nil))) .nil)))
    (.obj (.cons "_sys"
      (.obj (.cons "kegId" (.str "keg9") (.cons "type" (.str "chat_head") .nil))) .nil))
    (.obj (.cons "kegId" (.str "keg9") (.cons "type" (.str "chat_head") .nil)))
    (.str "keg9") (.str "chat_head")
    rfl (Or.inr rfl) rfl rfl rfl rfl rfl rfl rfl (Or.inl (by decide))
  ⟨h.1, h.2.1⟩

/-- The shape of `_internalSave` once the payload is prepared. -/
theorem internalSave_prepared (env : Env) (hooks : Hooks) (k : Keg) (payload : WirePayload)
    (hprep : k.preparePayload env hooks = .ok payload) :
    k._internalSave env hooks =
      match env.socket.update (k.bumpVersion.updateRequest payload) with
      | .error err =>
        { keg := k.bumpVersion, outcome := .error err,
          sent := [.update (k.bumpVersion.updateRequest payload)] }
      | .ok resp =>
        { keg := { k.bumpVersion with collectionVersion := resp.collectionVersion },
          outcome := .ok (),
          sent := [.update (k.bumpVersion.updateRequest payload)] } := by
  simp only [Keg._internalSave, hprep]

/-- A save that fails while the payload is prepared sends nothing and leaves
the keg as it was. -/
theorem internalSave_unprepared (env : Env) (hooks : Hooks) (k : Keg) (err : JsError)
    (hprep : k.preparePayload env hooks = .error err) :
    k._internalSave env hooks = { keg := k, outcome := .error err, sent := [] } := by
  simp only [Keg._internalSave, hprep]

/-- C2: a successful `_internalSave` of a keg at version `v` has sent exactly
one update request, carrying version `v + 1` and the keg's id; afterwards the
keg's version is `v + 1` and its `collectionVersion` is the one of the
store's response to that request. -/
theorem internalSave_success (env : Env) (hooks : Hooks) (k : Keg)
    (hok : (k._internalSave env hooks).outcome = .ok ()) :
    ∃ req resp,
      (k._internalSave env hooks).sent = [.update req] ∧
      req.kegId = k.id ∧
      req.version = k.version + 1 ∧
      env.socket.update req = .ok resp ∧
      (k._internalSave env hooks).keg.version = k.version + 1 ∧
      (k._internalSave env hooks).keg.collectionVersion = resp.collectionVersion := by
  cases hprep : k.preparePayload env hooks with
  | error err =>
    rw [internalSave_unprepared env hooks k err hprep] at hok
    cases hok
  | ok payload =>
    rw [internalSave_prepared env hooks k payload hprep] at hok ⊢
    cases hupd : env.socket.update (k.bumpVersion.updateRequest payload) with
    | error err =>
      rw [hupd] at hok
      cases hok
    | ok resp =>
      exact ⟨_, resp, rfl, rfl, rfl, hupd, rfl, rfl⟩

/-- C2 at a concrete keg: `keg1` at version 1 saved to the accepting store. -/
theorem internalSave_success_witness :
    ∃ req resp,
      (storedKeg._internalSave acceptingEnv plainHooks).sent = [.update req] ∧
      req.kegId = storedKeg.id ∧
      req.version = storedKeg.version + 1 ∧
      acceptingEnv.socket.update req = .ok resp ∧
      (storedKeg._internalSave acceptingEnv plainHooks).keg.version = storedKeg.version + 1 ∧
      (storedKeg._internalSave acceptingEnv plainHooks).keg.collectionVersion
        = resp.collectionVersion :=
  internalSave_success acceptingEnv plainHooks storedKeg rfl

/-- Once the payload is prepared, a rejected update leaves the keg one version
ahead: the increment made while the request was built is not undone. -/
theorem internalSave_rejected_version (env : Env) (hooks : Hooks) (k : Keg)
    (payload : WirePayload) (err : JsError)
    (hprep : k.preparePayload env hooks = .ok payload)
    (hrejected : env.socket.update (k.bumpVersion.updateRequest payload) = .error err) :
    (k._internalSave env hooks).outcome = .error err ∧
    (k._internalSave env hooks).keg.version = k.version + 1 := by
  rw [internalSave_prepared env hooks k payload hprep, hrejected]
  exact ⟨rfl, rfl⟩

/-- C3 fails on the code: `keg1` at version 1 is saved to a store that refuses
the update; the promise is rejected, yet the keg is left at version 2. -/
theorem internalSave_refused_bumps_version :
    storedKeg.version = 1 ∧
    (storedKeg._internalSave refusingEnv plainHooks).outcome
      = .error (.external "VersionConflict") ∧
    (storedKeg._internalSave refusingEnv plainHooks).keg.version = 2 := by
  refine ⟨rfl, rfl, rfl⟩

/-- The method `_internalSave` never touches the id. -/
theorem internalSave_id (env : Env) (hooks : Hooks) (k : Keg) :
    (k._internalSave env hooks).keg.id = k.id := by
  cases hprep : k.preparePayload env hooks with
  | error err => rw [internalSave_unprepared env hooks k err hprep]
  | ok payload =>
    rw [internalSave_prepared env hooks k payload hprep]
    cases env.socket.update (k.bumpVersion.updateRequest payload) <;> rfl

/-- A successful `_internalSave` raises the version by one. -/
theorem internalSave_version (env : Env) (hooks : Hooks) (k : Keg)
    (hok : (k._internalSave env hooks).outcome = .ok ()) :
    (k._internalSave env hooks).keg.version = k.version + 1 := by
  cases hprep : k.preparePayload env hooks with
  | error err =>
    rw [internalSave_unprepared env hooks k err hprep] at hok
    cases hok
  | ok payload =>
    rw [internalSave_prepared env hooks k payload hprep] at hok ⊢
    cases hupd : env.socket.update (k.bumpVersion.updateRequest payload) with
    | error err =>
      rw [hupd] at hok
      cases hok
    | ok resp => rfl

/-- With an id assigned, `saveToServer` is `_internalSave`. -/
theorem saveToServer_assigned (env : Env) (hooks : Hooks) (k : Keg)
    (hid : idTruthy k.id = true) :
    k.saveToServer env hooks = k._internalSave env hooks := by
  simp [Keg.saveToServer, hid]

/-- Saves of a keg with an id keep the id and add one to the version each. -/
theorem saveAll_assigned (saves : List (Env × Hooks)) :
    ∀ (k k2 : Keg), idTruthy k.id = true → Keg.saveAll saves k = some k2 →
      k2.id = k.id ∧ k2.version = k.version + saves.length := by
  induction saves with
  | nil =>
    intro k k2 _ h
    simp only [Keg.saveAll, Option.some.injEq] at h
    subst h
    simp
  | cons save rest ih =>
    intro k k2 hid h
    obtain ⟨env, hooks⟩ := save
    simp only [Keg.saveAll] at h
    cases hout : (k.saveToServer env hooks).outcome with
    | error err =>
      rw [hout] at h
      cases h
    | ok u =>
      rw [hout] at h
      have hsave := saveToServer_assigned env hooks k hid
      have hid2 : (k.saveToServer env hooks).keg.id = k.id := by
        rw [hsave]
        exact internalSave_id env hooks k
      have hv2 : (k.saveToServer env hooks).keg.version = k.version + 1 := by
        rw [hsave] at hout ⊢
        exact internalSave_version env hooks k hout
      have hnext := ih (k.saveToServer env hooks).keg k2 (by rw [hid2]; exact hid) h
      refine ⟨by rw [hnext.1, hid2], ?_⟩
      rw [hnext.2, hv2, List.length_cons]
      omega

/-- C4 (as stated) fails: a keg without an id, saved to a store that creates
kegs at version 1, ends its first save with the id of the store and version
2, not 1; two further saves take it to version 4, not 3. -/
theorem saveToServer_first_save_version_two :
    freshKeg.id = none ∧
    acceptingSocket.create { collectionId := "SELF", type := "chat_head" }
      = .ok { kegId := some "keg1", version := 1, collectionVersion := 10 } ∧
    (freshKeg.saveToServer acceptingEnv plainHooks).outcome = .ok () ∧
    (freshKeg.saveToServer acceptingEnv plainHooks).keg.id = some "keg1" ∧
    (freshKeg.saveToServer acceptingEnv plainHooks).keg.version = 2 ∧
    (Keg.saveAll [(acceptingEnv, plainHooks), (acceptingEnv, plainHooks)]
      (freshKeg.saveToServer acceptingEnv plainHooks).keg).map Keg.version = some 4 := by
  refine ⟨rfl, rfl, rfl, rfl, rfl, rfl⟩

/-- C4 (amended): a keg without an id, saved with `saveToServer` to a store
that creates kegs at version 1 under a non-empty id, ends that first save,
when it succeeds, with the id of the store and version 2 (the store's 1,
plus one for the update that `saveToServer` sends right after the creation);
after `n` further successful saves its id is the same and its version is
`2 + n`. -/
theorem saveToServer_scenario (env : Env) (hooks : Hooks) (k k2 : Keg) (resp : CreateResponse)
    (saves : List (Env × Hooks))
    (hnew : idTruthy k.id = false)
    (hcreate : env.socket.create { collectionId := k.db.id, type := k.type } = .ok resp)
    (hone : resp.version = 1)
    (hassigned : idTruthy resp.kegId = true)
    (hfirst : (k.saveToServer env hooks).outcome = .ok ())
    (hrest : Keg.saveAll saves (k.saveToServer env hooks).keg = some k2) :
    (k.saveToServer env hooks).keg.id = resp.kegId ∧
    (k.saveToServer env hooks).keg.version = 2 ∧
    k2.id = resp.kegId ∧
    k2.version = 2 + saves.length := by
  have hshape : k.saveToServer env hooks =
      { (k.assign resp)._internalSave env hooks with
        sent := .create { collectionId := k.db.id, type := k.type } ::
          ((k.assign resp)._internalSave env hooks).sent } := by
    simp [Keg.saveToServer, hnew, hcreate]
  have hid1 : (k.saveToServer env hooks).keg.id = resp.kegId := by
    rw [hshape]
    exact internalSave_id env hooks _
  have hv1 : (k.saveToServer env hooks).keg.version = 2 := by
    rw [hshape] at hfirst ⊢
    have hv := internalSave_version env hooks (k.assign resp) hfirst
    have hassign : (k.assign resp).version = 1 := hone
    rw [hassign] at hv
    exact hv
  have hall := saveAll_assigned saves (k.saveToServer env hooks).keg k2
    (by rw [hid1]; exact hassigned) hrest
  refine ⟨hid1, hv1, by rw [hall.1, hid1], ?_⟩
  rw [hall.2, hv1]

/-- C4 (amended) at a concrete run: the fresh keg, saved three times to the
accepting store. -/
theorem saveToServer_scenario_witness :
    (freshKeg.saveToServer acceptingEnv plainHooks).keg.id = some "keg1" ∧
    (freshKeg.saveToServer acceptingEnv plainHooks).keg.version = 2 ∧
    ∃ k2, Keg.saveAll [(acceptingEnv, plainHooks), (acceptingEnv, plainHooks)]
        (freshKeg.saveToServer acceptingEnv plainHooks).keg = some k2 ∧
      k2.id = some "keg1" ∧ k2.version = 2 + 2 :=
  have h := saveToServer_scenario acceptingEnv plainHooks freshKeg
    thriceSavedKeg
    { kegId := some "keg1", version := 1, collectionVersion := 10 }
    [(acceptingEnv, plainHooks), (acceptingEnv, plainHooks)]
    rfl rfl rfl rfl rfl rfl
  ⟨h.1, h.2.1, _, rfl, h.2.2.1, h.2.2.2⟩

/-- A property that was just assigned reads back. -/
theorem JsFields.get_set : ∀ (fields : JsFields) (key : String) (v : JsVal),
    (fields.set key v).get key = v
  | .nil, key, v => by simp [JsFields.set, JsFields.get]
  | .cons k w rest, key, v => by
    by_cases h : k = key
    · simp [JsFields.set, JsFields.get, h]
    · simp [JsFields.set, JsFields.get, h, JsFields.get_set rest key v]

/-- What `preparePayload` does for an encrypted keg. -/
theorem preparePayload_encrypted (env : Env) (hooks : Hooks) (k : Keg) (o : JsFields)
    (hplain : k.plaintext = false) (hser : hooks.serializeKegPayload k = .ok o) :
    k.preparePayload env hooks =
      (env.secret.encryptString (jsonStringify (o.set "_sys" k.stamp)) k.key).map
        WirePayload.binary := by
  simp only [Keg.preparePayload, hser, hplain, bind, Except.bind, Except.map, Bool.not_false,
    if_true, pure, Except.pure]

/-- The ideal cipher decrypts what it encrypted. -/
theorem idealSecret_inverts (text : Text) (key : Key) (buffer : Buffer)
    (h : idealSecret.encryptString text key = .ok buffer) :
    idealSecret.decryptString buffer key = .ok text := by
  simp only [idealSecret, Except.ok.injEq] at h
  subst h
  simp [idealSecret]

/-- C5 (as stated) fails: a chat head outside a space serializes
`{ chatName: 'lobby', spaceId: undefined }`. Under the ideal cipher, which
decrypts whatever it encrypted, the saved payload passes tamper detection on
load, but the deserialize hook receives `{ chatName, _sys }` without the
property `spaceId`, not the serialized object extended with the stamp. -/
theorem roundTrip_drops_undefined :
    (∀ text key buffer, idealSecret.encryptString text key = .ok buffer →
      idealSecret.decryptString buffer key = .ok text) ∧
    chatHeadHooks.serializeKegPayload storedKeg
      = .ok (.cons "chatName" (.str "lobby") (.cons "spaceId" .undefined .nil)) ∧
    (storedKeg._internalSave acceptingEnv chatHeadHooks).sent
      = [.update (storedKeg.bumpVersion.updateRequest (.binary (.sealed (.json (.obj
          (.cons "chatName" (.str "lobby") (.cons "_sys" sampleStamp .nil)))) [1, 2, 3])))] ∧
    (storedKeg.loadFromKeg acceptingEnv chatHeadHooks
        { kegId := some "keg1", version := 2, collectionVersion := 12, props := .obj .nil
          payload := some (.binary (.sealed (.json (.obj
            (.cons "chatName" (.str "lobby") (.cons "_sys" sampleStamp .nil)))) [1, 2, 3])) }).outcome
      = .ok () ∧
    (storedKeg.loadFromKeg acceptingEnv chatHeadHooks
        { kegId := some "keg1", version := 2, collectionVersion := 12, props := .obj .nil
          payload := some (.binary (.sealed (.json (.obj
            (.cons "chatName" (.str "lobby") (.cons "_sys" sampleStamp .nil)))) [1, 2, 3])) }).deserialized
      = [.obj (.cons "chatName" (.str "lobby") (.cons "_sys" sampleStamp .nil))] ∧
    JsVal.obj (.cons "chatName" (.str "lobby") (.cons "_sys" sampleStamp .nil))
      ≠ .obj (JsFields.set (.cons "chatName" (.str "lobby") (.cons "spaceId" .undefined .nil))
          "_sys" storedKeg.stamp) := by
  exact ⟨idealSecret_inverts, rfl, rfl, rfl, rfl, by decide⟩

/-- C5 (amended): let a keg that is not plaintext serialize to an object `o`
such that `o` with the stamp `_sys = { kegId: id, type }` is what
`JSON.stringify` followed by `JSON.parse` gives back (no `undefined` inside),
and let `decryptString` invert `encryptString` under the same key. Then
`_internalSave` sends the encryption, under `overrideKey` when set and
`db.key` otherwise, of that stamped object; and `loadFromKeg`, applied by a
keg of the same id, type and key to a record of that id carrying that
payload, passes tamper detection and hands the deserialize hook exactly the
stamped object, decrypting under `overrideKey` when set and `db.key`
otherwise. -/
theorem save_load_roundTrip (env : Env) (hooks loadHooks : Hooks) (k loader : Keg)
    (o : JsFields) (buffer : Buffer) (keg : RawKeg)
    (hplain : k.plaintext = false)
    (hser : hooks.serializeKegPayload k = .ok o)
    (hjson : jsonFields (o.set "_sys" k.stamp) = o.set "_sys" k.stamp)
    (hinv : ∀ text key b, env.secret.encryptString text key = .ok b →
      env.secret.decryptString b key = .ok text)
    (henc : env.secret.encryptString (jsonStringify (o.set "_sys" k.stamp))
      (k.overrideKey.getD k.db.key) = .ok buffer)
    (hloaderPlain : loader.plaintext = false)
    (hloaderId : loader.id = k.id)
    (hloaderType : loader.type = k.type)
    (hloaderKey : loader.overrideKey.getD loader.db.key = k.overrideKey.getD k.db.key)
    (hkegId : keg.kegId = k.id)
    (hkegPayload : keg.payload = some (.binary buffer)) :
    (k._internalSave env hooks).sent
      = [.update (k.bumpVersion.updateRequest (.binary buffer))] ∧
    (loader.loadFromKeg env loadHooks keg).deserialized = [.obj (o.set "_sys" k.stamp)] ∧
    (loader.loadFromKeg env loadHooks keg).outcome
      = loadHooks.deserializeKegPayload (.obj (o.set "_sys" k.stamp)) := by
  constructor
  · have hprep : k.preparePayload env hooks = .ok (.binary buffer) := by
      rw [preparePayload_encrypted env hooks k o hplain hser]
      have henc2 : env.secret.encryptString (jsonStringify (o.set "_sys" k.stamp)) k.key
          = .ok buffer := henc
      rw [henc2]
      rfl
    rw [internalSave_prepared env hooks k _ hprep]
    cases env.socket.update (k.bumpVersion.updateRequest (.binary buffer)) <;> rfl
  · have hdec : env.secret.decryptString buffer (loader.rehydrate keg).key
        = .ok (jsonStringify (o.set "_sys" k.stamp)) := by
      have hkey : (loader.rehydrate keg).key = k.overrideKey.getD k.db.key := hloaderKey
      rw [hkey]
      exact hinv _ _ _ henc
    have hplain2 : (loader.rehydrate keg).plaintext = false := hloaderPlain
    have hdecode : (loader.rehydrate keg).decodePayload env (.binary buffer)
        = .ok (.obj (o.set "_sys" k.stamp)) := by
      simp [Keg.decodePayload, hplain2, toUint8Array, hdec, bind, Except.bind, jsonStringify,
        jsonParse, hjson]
    have hid2 : (loader.rehydrate keg).id = k.id := hkegId
    have htype2 : (loader.rehydrate keg).type = k.type := hloaderType
    have htamper : (loader.rehydrate keg).detectTampering (.obj (o.set "_sys" k.stamp))
        = .ok () := by
      apply detectTampering_match _ _ k.stamp
      · simp [getProp, JsFields.get_set]
      · rw [hid2]
        simp [getProp, Keg.stamp, JsFields.get]
      · rw [htype2]
        simp [getProp, Keg.stamp, JsFields.get]
    have hguard : (idTruthy loader.id && loader.id != keg.kegId) = false :=
      rehydrate_guard_false loader keg (Or.inr (by rw [hloaderId, hkegId]))
    have hres : loader.loadFromKeg env loadHooks keg =
        { keg := loader.rehydrate keg,
          outcome := loadHooks.deserializeKegPayload (.obj (o.set "_sys" k.stamp)),
          deserialized := [.obj (o.set "_sys" k.stamp)] } := by
      simp [Keg.loadFromKeg, hguard, hkegPayload, payloadTruthy, hdecode, hplain2, htamper]
    rw [hres]
    exact ⟨rfl, rfl⟩

/-- C5 (amended) at a concrete keg: `keg1` serializes `{ a: 1 }`, saves it
under the ideal cipher and loads the stored record back. -/
theorem save_load_roundTrip_witness :
    (storedKeg._internalSave acceptingEnv plainHooks).sent
      = [.update (storedKeg.bumpVersion.updateRequest (.binary (.sealed (.json (.obj
          (.cons "a" (.num 1) (.cons "_sys" sampleStamp .nil)))) [1, 2, 3])))] ∧
    (storedKeg.loadFromKeg acceptingEnv Keg.baseHooks
        { kegId := some "keg1", version := 2, collectionVersion := 12, props := .obj .nil
          payload := some (.binary (.sealed (.json (.obj
            (.cons "a" (.num 1) (.cons "_sys" sampleStamp .nil)))) [1, 2, 3])) }).deserialized
      = [.obj (.cons "a" (.num 1) (.cons "_sys" sampleStamp .nil))] :=
  have h := save_load_roundTrip acceptingEnv plainHooks Keg.baseHooks storedKeg storedKeg
    (.cons "a" (.num 1) .nil)
    (.sealed (.json (.obj (.cons "a" (.num 1) (.cons "_sys" sampleStamp .nil)))) [1, 2, 3])
    { kegId := some "keg1", version := 2, collectionVersion := 12, props := .obj .nil
      payload := some (.binary (.sealed (.json (.obj
        (.cons "a" (.num 1) (.cons "_sys" sampleStamp .nil)))) [1, 2, 3])) }
    rfl rfl rfl idealSecret_inverts rfl rfl rfl rfl rfl rfl rfl
  ⟨h.1, h.2.1⟩

/-- The method `loadFromKeg` leaves an assigned id as it is, whatever the
record. -/
theorem loadFromKeg_id (env : Env) (hooks : Hooks) (k : Keg) (keg : RawKeg)
    (hid : idTruthy k.id = true) :
    (k.loadFromKeg env hooks keg).keg.id = k.id := by
  by_cases hsame : k.id = keg.kegId
  · have hguard := rehydrate_guard_false k keg (Or.inr hsame)
    have hre : (k.rehydrate keg).id = k.id := hsame.symm
    unfold Keg.loadFromKeg
    rw [hguard]
    simp only [Bool.false_eq_true, if_false]
    split
    · exact hre
    · split
      · exact hre
      · split
        · exact hre
        · split
          · exact hre
          · exact hre
  · have hne : (k.id != keg.kegId) = true := by simpa using hsame
    simp [Keg.loadFromKeg, hid, hne]

/-- C6: for a keg whose id is assigned, `saveToServer`, `_internalSave` and
`loadFromKeg` all leave the id as it is, whether they succeed or fail; and
`loadFromKeg` with a record whose `kegId` differs from the keg's id throws
with the keg (id, version, collectionVersion, props) untouched and the
deserialize hook not invoked. -/
theorem id_immutable (env : Env) (hooks : Hooks) (k : Keg) (keg : RawKeg)
    (hid : idTruthy k.id = true) :
    (k.saveToServer env hooks).keg.id = k.id ∧
    (k._internalSave env hooks).keg.id = k.id ∧
    (k.loadFromKeg env hooks keg).keg.id = k.id ∧
    (keg.kegId ≠ k.id →
      (∃ err, (k.loadFromKeg env hooks keg).outcome = .error err) ∧
      (k.loadFromKeg env hooks keg).keg = k ∧
      (k.loadFromKeg env hooks keg).deserialized = []) := by
  refine ⟨?_, internalSave_id env hooks k, loadFromKeg_id env hooks k keg hid, ?_⟩
  · rw [saveToServer_assigned env hooks k hid]
    exact internalSave_id env hooks k
  · intro hdiff
    have hne : (k.id != keg.kegId) = true := by
      simpa using fun h : k.id = keg.kegId => hdiff h.symm
    simp [Keg.loadFromKeg, hid, hne]

/-- C6 at a concrete keg: `keg1` and a record filed under `keg2`. -/
theorem id_immutable_witness :
    (storedKeg.saveToServer acceptingEnv plainHooks).keg.id = some "keg1" ∧
    (storedKeg._internalSave acceptingEnv plainHooks).keg.id = some "keg1" ∧
    (storedKeg.loadFromKeg acceptingEnv plainHooks relabelledRecord).keg.id = some "keg1" ∧
    (storedKeg.loadFromKeg acceptingEnv plainHooks relabelledRecord).keg = storedKeg :=
  have h := id_immutable acceptingEnv plainHooks storedKeg relabelledRecord rfl
  ⟨h.1, h.2.1, h.2.2.1, (h.2.2.2 (by decide)).2.1⟩

/-! ## Properties of the task queue -/

/-- The method `onTaskComplete` keeps `parallelism` and lowers `runningTasks`
by one. -/
theorem onTaskComplete_fields (q : Queue) :
    q.onTaskComplete.parallelism = q.parallelism ∧
    q.onTaskComplete.runningTasks = q.runningTasks - 1 ∧
    q.onTaskComplete.tasks = q.tasks ∧
    q.onTaskComplete.started = q.started ∧
    q.onTaskComplete.timers = q.timers + ((q.parallelism : Int) - (q.runningTasks - 1)).toNat :=
  ⟨rfl, rfl, rfl, rfl, rfl⟩

/-- What `runTask` does when its guard lets it through and the backlog starts
with `t`: the three ways the `try` block can go. -/
theorem runTask_dispatch (q : Queue) (t : Task) (rest : List Task)
    (hroom : q.runningTasks < q.parallelism) (htasks : q.tasks = t :: rest) :
    q.runTask =
      match t.task with
      | .throws err =>
        (Queue.onTaskComplete
          { q with runningTasks := q.runningTasks + 1, tasks := rest,
                   started := q.started ++ [t], logged := q.logged ++ [err] }, none)
      | .promise =>
        ({ q with runningTasks := q.runningTasks + 1, tasks := rest,
                  started := q.started ++ [t], pending := q.pending ++ [t] }, none)
      | .returns =>
        match t.onFinish with
        | some (.throws err) =>
          (Queue.onTaskComplete
            { q with runningTasks := q.runningTasks + 1, tasks := rest,
                     started := q.started ++ [t], logged := q.logged ++ [err] }, none)
        | _ =>
          (Queue.onTaskComplete
            { q with runningTasks := q.runningTasks + 1, tasks := rest,
                     started := q.started ++ [t] }, none) := by
  have hguard : ¬ ((q.parallelism : Int) ≤ q.runningTasks ∨ q.tasks.length = 0) := by
    rw [htasks]
    simp only [List.length_cons, Nat.add_one_ne_zero, or_false, not_le]
    exact hroom
  unfold Queue.runTask
  rw [if_neg hguard]
  simp only [Queue.tryDispatch, htasks]
  cases htask : t.task with
  | throws err => rfl
  | promise => rfl
  | returns =>
    cases hfin : t.onFinish with
    | none => rfl
    | some cb =>
      cases cb with
      | returns => rfl
      | throws err => rfl

/-- What `runTask` does when its guard stops it: nothing. -/
theorem runTask_blocked (q : Queue)
    (h : (q.parallelism : Int) ≤ q.runningTasks ∨ q.tasks = []) :
    q.runTask = (q, none) := by
  have hguard : (q.parallelism : Int) ≤ q.runningTasks ∨ q.tasks.length = 0 := by
    rcases h with h | h
    · exact Or.inl h
    · exact Or.inr (by rw [h]; rfl)
  unfold Queue.runTask
  rw [if_pos hguard]

/-- The method `runTask` keeps `parallelism`, and keeps `runningTasks` within
it. -/
theorem runTask_bounded (q : Queue) (h : q.runningTasks ≤ q.parallelism) :
    q.runTask.1.parallelism = q.parallelism ∧
    q.runTask.1.runningTasks ≤ q.parallelism := by
  by_cases hblocked : (q.parallelism : Int) ≤ q.runningTasks ∨ q.tasks = []
  · rw [runTask_blocked q hblocked]
    exact ⟨rfl, h⟩
  · have hroom : q.runningTasks < q.parallelism := by
      by_contra hc
      exact hblocked (Or.inl (not_lt.mp hc))
    cases htasks : q.tasks with
    | nil => exact absurd (Or.inr htasks) hblocked
    | cons t rest =>
      rw [runTask_dispatch q t rest hroom htasks]
      cases t.task with
      | throws err =>
        refine ⟨rfl, ?_⟩
        show q.runningTasks + 1 - 1 ≤ (q.parallelism : Int)
        omega
      | promise =>
        refine ⟨rfl, ?_⟩
        show q.runningTasks + 1 ≤ (q.parallelism : Int)
        omega
      | returns =>
        cases t.onFinish with
        | none =>
          refine ⟨rfl, ?_⟩
          show q.runningTasks + 1 - 1 ≤ (q.parallelism : Int)
          omega
        | some cb =>
          cases cb with
          | returns =>
            refine ⟨rfl, ?_⟩
            show q.runningTasks + 1 - 1 ≤ (q.parallelism : Int)
            omega
          | throws err =>
            refine ⟨rfl, ?_⟩
            show q.runningTasks + 1 - 1 ≤ (q.parallelism : Int)
            omega

/-- Every event keeps `parallelism`, and keeps `runningTasks` within it. -/
theorem step_bounded (q : Queue) (e : QueueEvent) (h : q.runningTasks ≤ q.parallelism) :
    (q.step e).parallelism = q.parallelism ∧
    (q.step e).runningTasks ≤ q.parallelism := by
  cases e with
  | addTask t => exact ⟨rfl, h⟩
  | runTask => exact runTask_bounded q h
  | timer =>
    by_cases ht : q.timers = 0
    · have hs : q.step .timer = q := by simp [Queue.step, ht]
      rw [hs]
      exact ⟨rfl, h⟩
    · have hs : q.step .timer = (Queue.runTask { q with timers := q.timers - 1 }).1 := by
        simp [Queue.step, ht]
      rw [hs]
      exact runTask_bounded { q with timers := q.timers - 1 } h
  | settle i =>
    by_cases hi : i < q.pending.length
    · have hs : q.step (.settle i)
          = Queue.onTaskComplete { q with pending := q.pending.eraseIdx i } := by
        simp [Queue.step, hi]
      rw [hs]
      refine ⟨rfl, ?_⟩
      show q.runningTasks - 1 ≤ (q.parallelism : Int)
      omega
    · have hs : q.step (.settle i) = q := by simp [Queue.step, hi]
      rw [hs]
      exact ⟨rfl, h⟩

/-- A run keeps `parallelism`, and keeps `runningTasks` within it. -/
theorem run_bounded (events : List QueueEvent) :
    ∀ q : Queue, q.runningTasks ≤ q.parallelism →
      (q.run events).parallelism = q.parallelism ∧
      (q.run events).runningTasks ≤ q.parallelism := by
  induction events with
  | nil =>
    intro q h
    exact ⟨rfl, h⟩
  | cons e rest ih =>
    intro q h
    have hstep := step_bounded q e h
    have hrest := ih (q.step e) (by rw [hstep.1]; exact hstep.2)
    simp only [Queue.run, List.foldl_cons] at hrest ⊢
    rw [hstep.1] at hrest
    exact hrest

/-- C7: in every state that a new queue of parallelism `N ≥ 1` reaches by
calls of `addTask`, calls of `runTask`, scheduled `runTask`s firing and task
promises settling, in any order, `parallelism` is `N` and `runningTasks` is
at most `N`. -/
theorem queue_running_le_parallelism (N throttle : Nat) (hN : 1 ≤ N)
    (events : List QueueEvent) :
    ((Queue.new N throttle).run events).parallelism = N ∧
    ((Queue.new N throttle).run events).runningTasks ≤ N := by
  have hpar : (Queue.new N throttle).parallelism = N := by
    have hne : N ≠ 0 := by omega
    simp [Queue.new, hne]
  have hinit : (Queue.new N throttle).runningTasks ≤ (Queue.new N throttle).parallelism := by
    show (0 : Int) ≤ ((Queue.new N throttle).parallelism : Int)
    omega
  have h := run_bounded events (Queue.new N throttle) hinit
  rw [hpar] at h
  exact h

/-- C7 at a concrete run: three promise tasks on a queue of parallelism 2. -/
theorem queue_running_le_parallelism_witness :
    ((Queue.new 2 0).run
      [.addTask { id := 1, task := .promise, onFinish := none },
       .addTask { id := 2, task := .promise, onFinish := none },
       .addTask { id := 3, task := .promise, onFinish := none },
       .timer, .timer, .timer]).runningTasks ≤ 2 :=
  (queue_running_le_parallelism 2 0 (by decide)
    [.addTask { id := 1, task := .promise, onFinish := none },
     .addTask { id := 2, task := .promise, onFinish := none },
     .addTask { id := 3, task := .promise, onFinish := none },
     .timer, .timer, .timer]).2

/-- C8: when `runTask` dispatches a task that throws (its guard lets it
through and the oldest task of the backlog throws when called), the call
lets no exception through, `runningTasks` is what it was before the call,
the task is gone from the backlog, the exception is logged, and at least one
more `runTask` is scheduled. -/
theorem runTask_throwing_task (q : Queue) (t : Task) (rest : List Task) (err : JsError)
    (hroom : q.runningTasks < q.parallelism)
    (htasks : q.tasks = t :: rest)
    (hthrows : t.task = .throws err) :
    q.runTask.2 = none ∧
    q.runTask.1.runningTasks = q.runningTasks ∧
    q.runTask.1.tasks = rest ∧
    q.runTask.1.logged = q.logged ++ [err] ∧
    q.timers + 1 ≤ q.runTask.1.timers := by
  rw [runTask_dispatch q t rest hroom htasks, hthrows]
  refine ⟨rfl, ?_, rfl, rfl, ?_⟩
  · show q.runningTasks + 1 - 1 = q.runningTasks
    omega
  · show q.timers + 1 ≤ q.timers + ((q.parallelism : Int) - (q.runningTasks + 1 - 1)).toNat
    omega

/-- C8 at a concrete queue: parallelism 2, one task running, a throwing task
first in the backlog. -/
theorem runTask_throwing_task_witness :
    (Queue.runTask
      { parallelism := 2, throttle := 0,
        tasks := [{ id := 7, task := .throws (.error "boom"), onFinish := none },
                  { id := 8, task := .returns, onFinish := none }],
        runningTasks := 1, timers := 0, pending := [], started := [], logged := [] }).1.runningTasks
      = 1 :=
  (runTask_throwing_task
    { parallelism := 2, throttle := 0,
      tasks := [{ id := 7, task := .throws (.error "boom"), onFinish := none },
                { id := 8, task := .returns, onFinish := none }],
      runningTasks := 1, timers := 0, pending := [], started := [], logged := [] }
    { id := 7, task := .throws (.error "boom"), onFinish := none }
    [{ id := 8, task := .returns, onFinish := none }]
    (.error "boom") (by decide) rfl rfl).2.1

/-- The method `runTask` either starts nothing or starts the oldest task of
the backlog. -/
theorem runTask_takes_oldest (q : Queue) :
    (q.runTask.1.started = q.started ∧ q.runTask.1.tasks = q.tasks) ∨
    ∃ t rest, q.tasks = t :: rest ∧
      q.runTask.1.started = q.started ++ [t] ∧ q.runTask.1.tasks = rest := by
  by_cases hblocked : (q.parallelism : Int) ≤ q.runningTasks ∨ q.tasks = []
  · rw [runTask_blocked q hblocked]
    exact Or.inl ⟨rfl, rfl⟩
  · have hroom : q.runningTasks < q.parallelism := by
      by_contra hc
      exact hblocked (Or.inl (not_lt.mp hc))
    cases htasks : q.tasks with
    | nil => exact absurd (Or.inr htasks) hblocked
    | cons t rest =>
      refine Or.inr ⟨t, rest, rfl, ?_⟩
      rw [runTask_dispatch q t rest hroom htasks]
      cases t.task with
      | throws err => exact ⟨rfl, rfl⟩
      | promise => exact ⟨rfl, rfl⟩
      | returns =>
        cases t.onFinish with
        | none => exact ⟨rfl, rfl⟩
        | some cb =>
          cases cb with
          | returns => exact ⟨rfl, rfl⟩
          | throws err => exact ⟨rfl, rfl⟩

/-- The method `runTask` moves tasks from the front of the backlog to the end
of the started ones, and nowhere else. -/
theorem runTask_order (q : Queue) :
    q.runTask.1.started ++ q.runTask.1.tasks = q.started ++ q.tasks := by
  rcases runTask_takes_oldest q with ⟨hs, ht⟩ | ⟨t, rest, htasks, hs, ht⟩
  · rw [hs, ht]
  · rw [hs, ht, htasks, List.append_assoc, List.singleton_append]

/-- Every event keeps the started tasks followed by the backlog equal to the
tasks added so far. -/
theorem step_order (q : Queue) (e : QueueEvent) :
    (q.step e).started ++ (q.step e).tasks = q.started ++ q.tasks ++ addedTasks [e] := by
  cases e with
  | addTask t =>
    show q.started ++ (q.tasks ++ [t]) = q.started ++ q.tasks ++ [t]
    rw [List.append_assoc]
  | runTask =>
    show q.runTask.1.started ++ q.runTask.1.tasks = q.started ++ q.tasks ++ []
    rw [List.append_nil]
    exact runTask_order q
  | timer =>
    show (q.step .timer).started ++ (q.step .timer).tasks = q.started ++ q.tasks ++ []
    rw [List.append_nil]
    by_cases ht : q.timers = 0
    · have hs : q.step .timer = q := by simp [Queue.step, ht]
      rw [hs]
    · have hs : q.step .timer = (Queue.runTask { q with timers := q.timers - 1 }).1 := by
        simp [Queue.step, ht]
      rw [hs]
      exact runTask_order { q with timers := q.timers - 1 }
  | settle i =>
    show (q.step (.settle i)).started ++ (q.step (.settle i)).tasks = q.started ++ q.tasks ++ []
    rw [List.append_nil]
    by_cases hi : i < q.pending.length
    · have hs : q.step (.settle i)
          = Queue.onTaskComplete { q with pending := q.pending.eraseIdx i } := by
        simp [Queue.step, hi]
      rw [hs]
      rfl
    · have hs : q.step (.settle i) = q := by simp [Queue.step, hi]
      rw [hs]

/-- The tasks added during a run that starts with `e`. -/
theorem addedTasks_cons (e : QueueEvent) (rest : List QueueEvent) :
    addedTasks (e :: rest) = addedTasks [e] ++ addedTasks rest := by
  cases e <;> rfl

/-- A run keeps the started tasks followed by the backlog equal to what they
were, followed by the tasks added during the run. -/
theorem run_order (events : List QueueEvent) :
    ∀ q : Queue, (q.run events).started ++ (q.run events).tasks
      = q.started ++ q.tasks ++ addedTasks events := by
  induction events with
  | nil =>
    intro q
    show q.started ++ q.tasks = q.started ++ q.tasks ++ []
    rw [List.append_nil]
  | cons e rest ih =>
    intro q
    have hrest := ih (q.step e)
    rw [step_order q e] at hrest
    simp only [Queue.run, List.foldl_cons] at hrest ⊢
    rw [hrest, addedTasks_cons e rest, List.append_assoc]

/-- C9: in every state that a new queue reaches, the tasks started so far,
in the order they were started, followed by the backlog, are exactly the
tasks passed to `addTask`, in call order; so the started tasks are an
initial segment of the added ones. Every call of `runTask` that finds fewer
than `parallelism` tasks running and a backlog that is not empty starts the
oldest task of the backlog: it takes the task off the front of the backlog
and puts it at the end of the started ones; every other call of `runTask`
does nothing. -/
theorem queue_fifo (N throttle : Nat) (events : List QueueEvent) :
    ((Queue.new N throttle).run events).started ++ ((Queue.new N throttle).run events).tasks
      = addedTasks events ∧
    ((Queue.new N throttle).run events).started <+: addedTasks events ∧
    ∀ q : Queue,
      (∀ t rest, q.runningTasks < q.parallelism → q.tasks = t :: rest →
        q.runTask.1.started = q.started ++ [t] ∧ q.runTask.1.tasks = rest) ∧
      ((q.parallelism : Int) ≤ q.runningTasks ∨ q.tasks = [] → q.runTask = (q, none)) ∧
      ((q.runTask.1.started = q.started ∧ q.runTask.1.tasks = q.tasks) ∨
        ∃ t rest, q.tasks = t :: rest ∧
          q.runTask.1.started = q.started ++ [t] ∧ q.runTask.1.tasks = rest) := by
  have h := run_order events (Queue.new N throttle)
  have hnew : (Queue.new N throttle).started ++ (Queue.new N throttle).tasks = [] := rfl
  rw [hnew, List.nil_append] at h
  refine ⟨h, ⟨_, h⟩, fun q => ⟨?_, runTask_blocked q, runTask_takes_oldest q⟩⟩
  intro t rest hroom htasks
  rw [runTask_dispatch q t rest hroom htasks]
  cases t.task with
  | throws err => exact ⟨rfl, rfl⟩
  | promise => exact ⟨rfl, rfl⟩
  | returns =>
    cases t.onFinish with
    | none => exact ⟨rfl, rfl⟩
    | some cb =>
      cases cb with
      | returns => exact ⟨rfl, rfl⟩
      | throws err => exact ⟨rfl, rfl⟩

/-- C9 at a concrete run: three tasks are added to a queue that runs one
task at a time; the first two timers start the first two, in the order in
which they were added, and the third waits in the backlog. A call of
`runTask` on a queue with room takes the oldest task of its backlog. -/
theorem queue_fifo_witness :
    ((Queue.new 1 0).run
      [.addTask { id := 7, task := .returns, onFinish := none },
       .addTask { id := 8, task := .returns, onFinish := none },
       .addTask { id := 9, task := .promise, onFinish := none },
       .timer, .timer]).started
      = [{ id := 7, task := .returns, onFinish := none },
         { id := 8, task := .returns, onFinish := none }] ∧
    ((Queue.new 1 0).run
      [.addTask { id := 7, task := .returns, onFinish := none },
       .addTask { id := 8, task := .returns, onFinish := none },
       .addTask { id := 9, task := .promise, onFinish := none },
       .timer, .timer]).tasks
      = [{ id := 9, task := .promise, onFinish := none }] ∧
    (Queue.runTask ((Queue.new 1 0).run
      [.addTask { id := 7, task := .returns, onFinish := none },
       .addTask { id := 8, task := .promise, onFinish := none }])).1.started
      = [] ++ [{ id := 7, task := .returns, onFinish := none }] ∧
    (Queue.runTask ((Queue.new 1 0).run
      [.addTask { id := 7, task := .returns, onFinish := none },
       .addTask { id := 8, task := .promise, onFinish := none }])).1.tasks
      = [{ id := 8, task := .promise, onFinish := none }] :=
  have h := ((queue_fifo 1 0
    [.addTask { id := 7, task := .returns, onFinish := none },
     .addTask { id := 8, task := .returns, onFinish := none },
     .addTask { id := 9, task := .promise, onFinish := none },
     .timer, .timer]).2.2
    ((Queue.new 1 0).run
      [.addTask { id := 7, task := .returns, onFinish := none },
       .addTask { id := 8, task := .promise, onFinish := none }])).1
    { id := 7, task := .returns, onFinish := none }
    [{ id := 8, task := .promise, onFinish := none }] (by decide) rfl
  ⟨by decide, by decide, h.1, h.2⟩

/-! ## Properties of the file processor -/

/-- Once the process is finished, a call changes nothing and lets nothing
through. -/
theorem call_after_finish (p : FileProcessor) (c : FinishCall)
    (h : p.processFinished = true) : p.call c = (p, none) := by
  cases c <;> simp [FileProcessor.call, FileProcessor._error, FileProcessor.cancel,
    FileProcessor._finishProcess, h]

/-- Once the process is finished, no sequence of calls changes anything. -/
theorem calls_after_finish (cs : List FinishCall) :
    ∀ p : FileProcessor, p.processFinished = true → p.calls cs = p := by
  induction cs with
  | nil =>
    intro p _
    rfl
  | cons c rest ih =>
    intro p h
    simp only [FileProcessor.calls, List.foldl_cons, call_after_finish p c h]
    exact ih p h

/-- The first `_finishProcess` of a started process closes the stream, calls
`cleanup` and settles the promise, in this order. -/
theorem finishProcess_first (p : FileProcessor) (err : Thrown)
    (hstarted : p.hasPromise = true) (hfresh : p.processFinished = false) :
    p._finishProcess err =
      ({ p with processFinished := true, stopped := true,
                events := p.events ++ [.streamClose, .cleanup,
                  if err ≠ .falsy then .reject (normalize err none) else .resolve] }, none) := by
  by_cases herr : err = .falsy
  · simp [FileProcessor._finishProcess, FileProcessor.closeStream, hstarted, hfresh, herr]
  · simp [FileProcessor._finishProcess, FileProcessor.closeStream, hstarted, hfresh, herr]

/-- The first call of a started process closes the stream, calls `cleanup`
and settles the promise, once each, and finishes the process. -/
theorem call_first (p : FileProcessor) (c : FinishCall)
    (hstarted : p.hasPromise = true) (hfresh : p.processFinished = false) :
    ∃ settle, settle.isSettle = true ∧
      (p.call c).1.events = p.events ++ [.streamClose, .cleanup, settle] ∧
      (p.call c).1.processFinished = true ∧
      (p.call c).1.stopped = true ∧
      (p.call c).2 = none := by
  cases c with
  | finishProcess err =>
    have hcall : p.call (.finishProcess err) = p._finishProcess err := rfl
    rw [hcall, finishProcess_first p err hstarted hfresh]
    by_cases herr : err = .falsy
    · exact ⟨.resolve, rfl, by simp [herr], rfl, rfl, rfl⟩
    · exact ⟨.reject (normalize err none), rfl, by simp [herr], rfl, rfl, rfl⟩
  | error err =>
    have hcall : p.call (.error err) = p._finishProcess
        (if err ≠ .falsy then err else .error (.error (p.processType ++ " failed"))) := rfl
    rw [hcall, finishProcess_first p _ hstarted hfresh]
    by_cases herr : err = .falsy
    · exact ⟨.reject (.error (p.processType ++ " failed")), rfl,
        by simp [herr, normalize], rfl, rfl, rfl⟩
    · exact ⟨.reject (normalize err none), rfl, by simp [herr], rfl, rfl, rfl⟩
  | cancel =>
    have hcall : p.call .cancel
        = p._finishProcess (.error (.error (p.processType ++ " cancelled"))) := rfl
    rw [hcall, finishProcess_first p _ hstarted hfresh]
    exact ⟨.reject (.error (p.processType ++ " cancelled")), rfl,
      by simp [normalize], rfl, rfl, rfl⟩

/-- C10: for a process that has been started and is not finished, in every
sequence of calls of `_finishProcess` (with or without an error), `_error`
and `cancel`, only the first call has an effect: the processor after the
whole sequence is the processor after the first call, and during the
sequence `stream.close` is called once, then `cleanup` once, then exactly one
of `resolve` and `reject`, once. -/
theorem finish_settles_once (p : FileProcessor) (c : FinishCall) (cs : List FinishCall)
    (hstarted : p.hasPromise = true) (hfresh : p.processFinished = false) :
    p.calls (c :: cs) = (p.call c).1 ∧
    ∃ settle, settle.isSettle = true ∧
      (p.calls (c :: cs)).events = p.events ++ [.streamClose, .cleanup, settle] := by
  obtain ⟨settle, hsettle, hevents, hfinished, _, _⟩ := call_first p c hstarted hfresh
  have hall : p.calls (c :: cs) = (p.call c).1 := by
    simp only [FileProcessor.calls, List.foldl_cons]
    exact calls_after_finish cs (p.call c).1 hfinished
  refine ⟨hall, settle, hsettle, ?_⟩
  rw [hall]
  exact hevents

/-- C10 at a concrete run: a started download that fails, is cancelled and
is told to finish. -/
theorem finish_settles_once_witness :
    ((FileProcessor.new "download" true).start id).calls
        [.error .falsy, .cancel, .finishProcess .falsy]
      = (((FileProcessor.new "download" true).start id).call (.error .falsy)).1 ∧
    (((FileProcessor.new "download" true).start id).calls
        [.error .falsy, .cancel, .finishProcess .falsy]).events
      = [.streamClose, .cleanup, .reject (.error "download failed")] :=
  ⟨(finish_settles_once ((FileProcessor.new "download" true).start id) (.error .falsy)
      [.cancel, .finishProcess .falsy] rfl rfl).1, rfl⟩

/-! ## Properties of the file downloader -/

/-- C11: the first `_finishProcess` of a started process, with or without an
error, calls `stream.close`, then `cleanup`, then settles the promise:
`reject` with the normalized error when a (truthy) error was given,
`resolve` otherwise. No exception gets out of the call, also when
`stream.close` throws one. -/
theorem finishProcess_release_order (p : FileProcessor) (err : Thrown)
    (hstarted : p.hasPromise = true) (hfresh : p.processFinished = false) :
    (p._finishProcess err).1.events
      = p.events ++ [.streamClose, .cleanup,
          if err ≠ .falsy then .reject (normalize err none) else .resolve] ∧
    (p._finishProcess err).2 = none ∧
    (p.streamCloseThrows = true → ∃ ex, p.closeStream.2 = some ex) := by
  rw [finishProcess_first p err hstarted hfresh]
  refine ⟨rfl, rfl, ?_⟩
  intro hthrows
  exact ⟨.external "stream.close", by simp [FileProcessor.closeStream, hthrows]⟩

/-- C11 at a concrete process: a started download whose `stream.close`
throws, finished with an error. -/
theorem finishProcess_release_order_witness :
    (((FileProcessor.new "download" true).start id)._finishProcess
        (.error (.error "disk full"))).1.events
      = [.streamClose, .cleanup, .reject (.error "disk full")] ∧
    (((FileProcessor.new "download" true).start id)._finishProcess
        (.error (.error "disk full"))).2 = none :=
  have h := finishProcess_release_order ((FileProcessor.new "download" true).start id)
    (.error (.error "disk full")) rfl rfl
  ⟨h.1, h.2.1⟩

/-- The inherited `_finishProcess` of a downloader that is finished does
nothing. -/
theorem downloader_finish_finished (d : FileDownloader) (err : Thrown)
    (h : d.core.processFinished = true) : d._finishProcess err = d := by
  simp [FileDownloader._finishProcess, h]

/-- The inherited `_finishProcess` of a downloader that is not finished:
the inherited steps on `core`, and `abort()` on every open request. -/
theorem downloader_finish_first (d : FileDownloader) (err : Thrown)
    (h : d.core.processFinished = false) :
    d._finishProcess err =
      { d with core := (d.core._finishProcess err).1, aborted := d.aborted ++ d.currentXhrs } := by
  simp [FileDownloader._finishProcess, h, FileDownloader.cleanup, FileDownloader._abortXhr]

/-- The method `_tick` of a finished downloader does nothing. -/
theorem tick_finished (d : FileDownloader) (h : d.core.processFinished = true) :
    d._tick = d := by
  simp [FileDownloader._tick, h]

/-- The method `_downloadChunk` leaves the inherited fields alone. -/
theorem downloadChunk_core (d : FileDownloader) : d._downloadChunk.core = d.core := by
  unfold FileDownloader._downloadChunk
  split
  · rfl
  · split
    · rfl
    · simp only []
      split <;> rfl

/-- The method `_decryptChunk` leaves the inherited fields alone. -/
theorem decryptChunk_core (env : DownloadEnv) (d : FileDownloader) :
    (d._decryptChunk env).1.core = d.core := by
  unfold FileDownloader._decryptChunk
  split
  · rfl
  · split
    · rfl
    · simp only []
      split
      · rfl
      · split
        · split <;> rfl
        · rfl

/-- The method `_decryptChunk` of a stopped downloader does nothing. -/
theorem decryptChunk_stopped (env : DownloadEnv) (d : FileDownloader)
    (h : d.core.stopped = true) : d._decryptChunk env = (d, none) := by
  simp [FileDownloader._decryptChunk, h]

/-- The method `_downloadChunk` of a stopped downloader does nothing. -/
theorem downloadChunk_stopped (d : FileDownloader) (h : d.core.stopped = true) :
    d._downloadChunk = d := by
  simp [FileDownloader._downloadChunk, h]
/-- The inherited `_error` of a finished downloader does nothing. -/
theorem downloader_error_finished (d : FileDownloader) (err : Thrown)
    (h : d.core.processFinished = true) : d._error err = d := by
  unfold FileDownloader._error
  exact downloader_finish_finished d _ h

/-- The callback of `_tick` leaves the inherited fields of a finished
downloader alone. -/
theorem onTimer_core_finished (env : DownloadEnv) (d : FileDownloader)
    (h : d.core.processFinished = true) : (d.onTimer env).core = d.core := by
  have hcore : (d._downloadChunk._decryptChunk env).1.core = d.core := by
    rw [decryptChunk_core, downloadChunk_core]
  unfold FileDownloader.onTimer
  cases hres : d._downloadChunk._decryptChunk env with
  | mk d1 ex =>
    rw [hres] at hcore
    cases ex with
    | none => exact hcore
    | some err =>
      have hfin : d1.core.processFinished = true := by
        have : d1.core = d.core := hcore
        rw [this]
        exact h
      show (d1._error (.error err)).core = d.core
      rw [downloader_error_finished d1 _ hfin]
      exact hcore

/-- The three ways the continuation of a chunk request can go. -/
theorem afterChunk_eq (d : FileDownloader) (dlChunk : Bytes) :
    d.afterChunk dlChunk =
      if d.core.stopped then d
      else if dlChunk.length = 0 then d._error (.error (.error "Unexpected zero-length chunk"))
      else FileDownloader._tick
        { d with decryptQueue := d.decryptQueue ++ splitChunks d.chunkSizeWithOverhead dlChunk
                 activeDownloads := d.activeDownloads - 1 } := by
  unfold FileDownloader.afterChunk FileDownloader.onChunk
  split <;> rename_i hres <;> split at hres <;> try split at hres
  all_goals simp_all

/-- The inherited `_error` leaves the inherited fields of a finished
downloader alone. -/
theorem error_core_finished (d : FileDownloader) (err : Thrown)
    (h : d.core.processFinished = true) : (d._error err).core = d.core := by
  rw [downloader_error_finished d err h]

/-- The method `_tick` leaves the inherited fields of a finished downloader
alone. -/
theorem tick_core_finished (d : FileDownloader)
    (h : d.core.processFinished = true) : d._tick.core = d.core := by
  rw [tick_finished d h]

/-- No event changes the inherited fields of a finished downloader. -/
theorem step_core_finished (env : DownloadEnv) (d : FileDownloader) (e : DownloadEvent)
    (h : d.core.processFinished = true) : (d.step env e).core = d.core := by
  cases e with
  | timer =>
    by_cases ht : d.timers = 0
    · simp [FileDownloader.step, ht]
    · simp only [FileDownloader.step, ht, if_false]
      exact onTimer_core_finished env { d with timers := d.timers - 1 } h
  | xhrLoading =>
    by_cases hx : d.currentXhrs.length = 0
    · simp [FileDownloader.step, hx]
    · simp only [FileDownloader.step, hx, if_false]
      exact tick_core_finished d h
  | fetched dlChunk =>
    simp only [FileDownloader.step]
    split
    · split
      · rw [afterChunk_eq]
        split
        · rfl
        · split
          · exact error_core_finished _ _ h
          · exact tick_core_finished _ h
      · rfl
    · rfl
  | fetchFailed err =>
    simp only [FileDownloader.step]
    split
    · exact error_core_finished _ _ h
    · rfl
  | chainEof =>
    simp only [FileDownloader.step]
    split
    · exact tick_core_finished _ h
    · rfl
  | writeEnd =>
    by_cases hw : d.writesInFlight = 0
    · simp [FileDownloader.step, hw]
    · simp only [FileDownloader.step, hw, if_false, FileDownloader._onWriteEnd]
      exact tick_core_finished _ h
  | writeFailed err =>
    by_cases hw : d.writesInFlight = 0
    · simp [FileDownloader.step, hw]
    · simp only [FileDownloader.step, hw, if_false]
      exact error_core_finished _ _ h
  | cancel =>
    show d.cancel.core = d.core
    unfold FileDownloader.cancel
    rw [downloader_finish_finished d _ h]
  | xhrOpened xhr => rfl
  | xhrClosed xhr => rfl

/-- No run changes the inherited fields of a finished downloader. -/
theorem run_core_finished (env : DownloadEnv) (events : List DownloadEvent) :
    ∀ d : FileDownloader, d.core.processFinished = true → (d.run env events).core = d.core := by
  induction events with
  | nil => intro d _; rfl
  | cons e rest ih =>
    intro d h
    have hstep := step_core_finished env d e h
    have hrest := ih (d.step env e) (by rw [hstep]; exact h)
    simp only [FileDownloader.run, List.foldl_cons] at hrest ⊢
    rw [hrest, hstep]

/-- C12: `cancel()` on a downloader that is started and not finished sets
`stopped` and `processFinished`, calls `abort()` on every request in
`currentXhrs`, and closes the stream, cleans up and rejects the promise with
the `Error` whose message is the process type followed by ` cancelled`; and
whatever happens afterwards, no further call of `resolve` or `reject` is
made, so the result is never resolved. -/
theorem cancel_rejects (env : DownloadEnv) (d : FileDownloader) (events : List DownloadEvent)
    (hstarted : d.core.hasPromise = true) (hfresh : d.core.processFinished = false) :
    d.cancel.core.stopped = true ∧
    d.cancel.core.processFinished = true ∧
    d.cancel.aborted = d.aborted ++ d.currentXhrs ∧
    d.cancel.core.events = d.core.events ++
      [.streamClose, .cleanup, .reject (.error (d.core.processType ++ " cancelled"))] ∧
    (d.cancel.run env events).core.events = d.core.events ++
      [.streamClose, .cleanup, .reject (.error (d.core.processType ++ " cancelled"))] := by
  have hcancel : d.cancel =
      { d with core := (d.core._finishProcess
                 (.error (.error (d.core.processType ++ " cancelled")))).1
               aborted := d.aborted ++ d.currentXhrs } := by
    unfold FileDownloader.cancel
    exact downloader_finish_first d _ hfresh
  have hcore := finishProcess_first d.core
    (.error (.error (d.core.processType ++ " cancelled"))) hstarted hfresh
  have hfin : d.cancel.core.processFinished = true := by
    rw [hcancel]
    show (d.core._finishProcess _).1.processFinished = true
    rw [hcore]
  have hevents : d.cancel.core.events = d.core.events ++
      [.streamClose, .cleanup, .reject (.error (d.core.processType ++ " cancelled"))] := by
    rw [hcancel]
    show (d.core._finishProcess _).1.events = _
    rw [hcore]
    simp [normalize]
  refine ⟨?_, hfin, ?_, hevents, ?_⟩
  · rw [hcancel]
    show (d.core._finishProcess _).1.stopped = true
    rw [hcore]
  · rw [hcancel]
  · rw [run_core_finished env events d.cancel hfin]
    exact hevents
/-- C12 at a concrete download: the small download with two requests open
is cancelled, and a late response arrives afterwards. -/
theorem cancel_rejects_witness :
    ((smallDownload.run stripEnv [.timer, .xhrOpened 1, .xhrOpened 2]).cancel).aborted = [1, 2] ∧
    (((smallDownload.run stripEnv [.timer, .xhrOpened 1, .xhrOpened 2]).cancel).run stripEnv
        [.fetched [10, 11, 12, 13, 14, 15, 16, 17], .timer]).core.events
      = [.streamClose, .cleanup, .reject (.error "download cancelled")] :=
  have h := cancel_rejects stripEnv
    (smallDownload.run stripEnv [.timer, .xhrOpened 1, .xhrOpened 2])
    [.fetched [10, 11, 12, 13, 14, 15, 16, 17], .timer] rfl rfl
  ⟨h.2.2.1, h.2.2.2.2⟩

/-- C13: when the chunk size with overhead `c` is positive, the
`downloadChunkSize` that the constructor computes from the configured
maximum `M` is `k * c` for the `k` with `k * c ≤ M < (k + 1) * c`: the
largest multiple of `c` that does not exceed `M`. -/
theorem downloadChunkSize_largest_multiple (config : DownloadConfig) (file : FileInfo)
    (streamCloseThrows : Bool) (chunkId : Nat) (resumeParams : Option ResumeParams)
    (hc : 0 < file.chunkSize + config.chunkOverhead) :
    (FileDownloader.new config file streamCloseThrows chunkId resumeParams).chunkSizeWithOverhead
      = file.chunkSize + config.chunkOverhead ∧
    ∃ k : Nat,
      (FileDownloader.new config file streamCloseThrows chunkId resumeParams).downloadChunkSize
        = k * (file.chunkSize + config.chunkOverhead) ∧
      k * (file.chunkSize + config.chunkOverhead) ≤ config.maxDownloadChunkSize ∧
      config.maxDownloadChunkSize < (k + 1) * (file.chunkSize + config.chunkOverhead) := by
  have hsize : (FileDownloader.new config file streamCloseThrows chunkId
      resumeParams).downloadChunkSize
      = config.maxDownloadChunkSize / (file.chunkSize + config.chunkOverhead)
        * (file.chunkSize + config.chunkOverhead) := by
    cases resumeParams <;> rfl
  have hchunk : (FileDownloader.new config file streamCloseThrows chunkId
      resumeParams).chunkSizeWithOverhead = file.chunkSize + config.chunkOverhead := by
    cases resumeParams <;> rfl
  refine ⟨hchunk, config.maxDownloadChunkSize / (file.chunkSize + config.chunkOverhead),
    hsize, Nat.div_mul_le_self _ _, ?_⟩
  have hlt := Nat.lt_div_mul_add (a := config.maxDownloadChunkSize) hc
  rw [Nat.add_mul, Nat.one_mul]
  exact hlt

/-- C13 at the values of Scenario B: a maximum of 150000 bytes and chunks of
65536 bytes give batches of 131072 bytes. -/
theorem downloadChunkSize_largest_multiple_witness :
    ∃ k : Nat,
      (FileDownloader.new
        { chunkOverhead := 32, maxDownloadChunkSize := 150000,
          maxDecryptBufferSize := 3145728, parallelism := 3 }
        { sizeWithOverhead := 250000, chunkSize := 65504, progress := 0 }
        false 0 none).downloadChunkSize = k * (65504 + 32) ∧
      k * (65504 + 32) ≤ 150000 ∧ 150000 < (k + 1) * (65504 + 32) :=
  (downloadChunkSize_largest_multiple
    { chunkOverhead := 32, maxDownloadChunkSize := 150000,
      maxDecryptBufferSize := 3145728, parallelism := 3 }
    { sizeWithOverhead := 250000, chunkSize := 65504, progress := 0 }
    false 0 none (by decide)).2

/-- C16 (as stated) fails: after the first batch of the small download has
arrived, 8 bytes wait in the decrypt queue, and 8 × (4 + 1) exceeds the
buffer of 6 bytes times 2; yet the queue is not reported full (it holds 2
chunks, and 2 × (4 + 1) does not exceed 12), and `_downloadChunk` issues
the next request. -/
theorem decryptQueue_full_counts_chunks :
    (smallDownload.run stripEnv
      [.timer, .xhrOpened 1, .fetched [10, 11, 12, 13, 14, 15, 16, 17]]).queuedBytes = 8 ∧
    (smallDownload.run stripEnv
      [.timer, .xhrOpened 1, .fetched [10, 11, 12, 13, 14, 15, 16, 17]]).queuedBytes
        * (4 + 1) > 6 * 2 ∧
    (smallDownload.run stripEnv
      [.timer, .xhrOpened 1, .fetched [10, 11, 12, 13, 14, 15, 16, 17]])._isDecryptQueueFull
        = false ∧
    (smallDownload.run stripEnv
      [.timer, .xhrOpened 1, .fetched [10, 11, 12, 13, 14, 15, 16, 17]]).requested = [(0, 7)] ∧
    (smallDownload.run stripEnv
      [.timer, .xhrOpened 1, .fetched [10, 11, 12, 13, 14, 15, 16, 17]])._downloadChunk.requested
        = [(0, 7), (8, 9)] := by
  refine ⟨rfl, by decide, rfl, rfl, rfl⟩

/-- C16 (amended): the decrypt queue is reported full exactly when the number
of chunks in it, times `chunkSizeWithOverhead + 1`, exceeds
`maxDecryptBufferSize × parallelism`; and in a state where the queue is full
`_downloadChunk` does nothing: it issues no request. -/
theorem decryptQueue_full_iff (d : FileDownloader) :
    (d._isDecryptQueueFull = true ↔
      d.decryptQueue.length * (d.chunkSizeWithOverhead + 1)
        > d.config.maxDecryptBufferSize * d.config.parallelism) ∧
    (d._isDecryptQueueFull = true → d._downloadChunk = d) := by
  constructor
  · simp [FileDownloader._isDecryptQueueFull]
  · intro hfull
    simp [FileDownloader._downloadChunk, hfull]

/-- C16 (amended) at a concrete state: both batches of the small download
have arrived and 3 chunks wait in the queue. -/
theorem decryptQueue_full_iff_witness :
    (smallDownload.run stripEnv
      [.timer, .xhrOpened 1, .xhrLoading, .timer, .fetched [10, 11, 12, 13, 14, 15, 16, 17],
       .fetched [18, 19]])._downloadChunk
      = smallDownload.run stripEnv
        [.timer, .xhrOpened 1, .xhrLoading, .timer, .fetched [10, 11, 12, 13, 14, 15, 16, 17],
         .fetched [18, 19]] :=
  (decryptQueue_full_iff (smallDownload.run stripEnv
    [.timer, .xhrOpened 1, .xhrLoading, .timer, .fetched [10, 11, 12, 13, 14, 15, 16, 17],
     .fetched [18, 19]])).2 rfl

/-- The two ways `_tick` can go for a downloader that is not finished. -/
theorem tick_eq (d : FileDownloader) (h : d.core.processFinished = false) :
    d._tick =
      if d.downloadEof = true ∧ d.decryptQueue = [] ∧ d.writing = false then
        d._finishProcess .falsy
      else { d with timers := d.timers + 1 } := by
  unfold FileDownloader._tick FileDownloader._checkIfFinished
  rw [h]
  by_cases h1 : d.downloadEof = true
  · by_cases h2 : d.decryptQueue = []
    · by_cases h3 : d.writing = false
      · simp [h1, h2, h3]
      · simp [h1, h2, h3]
    · simp [h1, h2]
  · simp [h1]

/-- A failing `_finishProcess` keeps a downloader sound. -/
theorem sound_fail (d : FileDownloader) (err : Thrown) (h : d.Sound) (herr : err ≠ .falsy) :
    (d._finishProcess err).Sound := by
  by_cases hfin : d.core.processFinished = true
  · rw [downloader_finish_finished d err hfin]
    exact h
  · have hfin2 : d.core.processFinished = false := by simpa using hfin
    rw [downloader_finish_first d err hfin2]
    have hcore := finishProcess_first d.core err h.started hfin2
    have hev := h.quiet hfin2
    refine ⟨?_, ?_, h.write_le, h.write_flag, ?_, ?_⟩
    · show (d.core._finishProcess err).1.stopped = (d.core._finishProcess err).1.processFinished
      rw [hcore]
    · show (d.core._finishProcess err).1.hasPromise = true
      rw [hcore]
      exact h.started
    · show (d.core._finishProcess err).1.processFinished = false → _
      rw [hcore]
      intro hc
      cases hc
    · show ProcessEvent.resolve ∈ (d.core._finishProcess err).1.events → _
      rw [hcore]
      intro hc
      simp [hev, herr] at hc

/-- The inherited `_error` keeps a downloader sound. -/
theorem sound_error (d : FileDownloader) (err : Thrown) (h : d.Sound) : (d._error err).Sound := by
  unfold FileDownloader._error
  apply sound_fail d _ h
  by_cases herr : err = .falsy
  · simp [herr]
  · simp [herr]

/-- The inherited `cancel` keeps a downloader sound. -/
theorem sound_cancel (d : FileDownloader) (h : d.Sound) : d.cancel.Sound := by
  unfold FileDownloader.cancel
  exact sound_fail d _ h (by simp)

/-- A successful `_finishProcess` at the end of the data, with an empty
queue and no write pending, keeps a downloader sound. -/
theorem sound_succeed (d : FileDownloader) (h : d.Sound)
    (heof : d.downloadEof = true) (hqueue : d.decryptQueue = []) (hwriting : d.writing = false) :
    (d._finishProcess .falsy).Sound := by
  by_cases hfin : d.core.processFinished = true
  · rw [downloader_finish_finished d _ hfin]
    exact h
  · have hfin2 : d.core.processFinished = false := by simpa using hfin
    rw [downloader_finish_first d _ hfin2]
    have hcore := finishProcess_first d.core .falsy h.started hfin2
    have hflight : d.writesInFlight = 0 := by
      have hle := h.write_le
      by_contra hne
      have hone : d.writesInFlight = 1 := by omega
      have := h.write_flag hone
      rw [hwriting] at this
      cases this
    refine ⟨?_, ?_, h.write_le, h.write_flag, ?_, ?_⟩
    · show (d.core._finishProcess .falsy).1.stopped = (d.core._finishProcess .falsy).1.processFinished
      rw [hcore]
    · show (d.core._finishProcess .falsy).1.hasPromise = true
      rw [hcore]
      exact h.started
    · show (d.core._finishProcess .falsy).1.processFinished = false → _
      rw [hcore]
      intro hc
      cases hc
    · intro _
      exact ⟨heof, hqueue, hwriting, hflight⟩

/-- The method `_tick` keeps a downloader sound. -/
theorem sound_tick (d : FileDownloader) (h : d.Sound) : d._tick.Sound := by
  by_cases hfin : d.core.processFinished = true
  · rw [tick_finished d hfin]
    exact h
  · have hfin2 : d.core.processFinished = false := by simpa using hfin
    rw [tick_eq d hfin2]
    split
    · rename_i hcond
      exact sound_succeed d h hcond.1 hcond.2.1 hcond.2.2
    · exact ⟨h.stopped_eq, h.started, h.write_le, h.write_flag, h.quiet, h.resolved⟩
/-- When `resolve` was called on a sound downloader, it is stopped. -/
theorem sound_resolved_stopped (d : FileDownloader) (h : d.Sound)
    (hres : ProcessEvent.resolve ∈ d.core.events) : d.core.stopped = true := by
  rw [h.stopped_eq]
  by_contra hfin
  have hfin2 : d.core.processFinished = false := by simpa using hfin
  rw [h.quiet hfin2] at hres
  cases hres

/-- The fields that `_downloadChunk` leaves alone. -/
theorem downloadChunk_frame (d : FileDownloader) :
    d._downloadChunk.core = d.core ∧
    d._downloadChunk.downloadEof = d.downloadEof ∧
    d._downloadChunk.decryptQueue = d.decryptQueue ∧
    d._downloadChunk.writing = d.writing ∧
    d._downloadChunk.writesInFlight = d.writesInFlight ∧
    d._downloadChunk.chunkId = d.chunkId ∧
    d._downloadChunk.decrypted = d.decrypted ∧
    d._downloadChunk.written = d.written ∧
    d._downloadChunk.partialChunkSize = d.partialChunkSize ∧
    d._downloadChunk.config = d.config ∧
    d._downloadChunk.sizeWithOverhead = d.sizeWithOverhead ∧
    d._downloadChunk.chunkSizeWithOverhead = d.chunkSizeWithOverhead ∧
    d._downloadChunk.downloadChunkSize = d.downloadChunkSize := by
  unfold FileDownloader._downloadChunk
  split
  · exact ⟨rfl, rfl, rfl, rfl, rfl, rfl, rfl, rfl, rfl, rfl, rfl, rfl, rfl⟩
  · split
    · exact ⟨rfl, rfl, rfl, rfl, rfl, rfl, rfl, rfl, rfl, rfl, rfl, rfl, rfl⟩
    · simp only []
      split <;> exact ⟨rfl, rfl, rfl, rfl, rfl, rfl, rfl, rfl, rfl, rfl, rfl, rfl, rfl⟩

/-- The method `_downloadChunk` keeps a downloader sound. -/
theorem sound_downloadChunk (d : FileDownloader) (h : d.Sound) : d._downloadChunk.Sound := by
  obtain ⟨hcore, heof, hq, hw, hf, _⟩ := downloadChunk_frame d
  refine ⟨?_, ?_, ?_, ?_, ?_, ?_⟩
  · rw [hcore]; exact h.stopped_eq
  · rw [hcore]; exact h.started
  · rw [hf]; exact h.write_le
  · rw [hf, hw]; exact h.write_flag
  · rw [hcore]; exact h.quiet
  · rw [hcore, heof, hq, hw, hf]; exact h.resolved

/-- What `_decryptChunk` does when its guard lets it through: the chunk at
the head of the queue is taken off and handed to `secret.decrypt` with the
nonce of index `chunkId`; when that returns, the plain chunk, without its
first `partialChunkSize` bytes, is handed to `stream.write`. -/
theorem decryptChunk_eq (env : DownloadEnv) (d : FileDownloader) (chunk : Bytes)
    (rest : List Bytes) (hstopped : d.core.stopped = false) (hwriting : d.writing = false)
    (hqueue : d.decryptQueue = chunk :: rest) :
    d._decryptChunk env =
      match env.decrypt chunk d.chunkId with
      | .error err =>
        ({ d with decryptQueue := rest, chunkId := d.chunkId + 1
                  decrypted := d.decrypted ++ [(d.chunkId, chunk)] }, some err)
      | .ok plain =>
        if d.partialChunkSize ≠ 0 then
          if d.partialChunkSize ≤ plain.length then
            ({ d with decryptQueue := rest, chunkId := d.chunkId + 1
                      decrypted := d.decrypted ++ [(d.chunkId, chunk)]
                      writing := true, partialChunkSize := 0
                      written := d.written ++ [plain.drop d.partialChunkSize]
                      writesInFlight := d.writesInFlight + 1 }, none)
          else
            ({ d with decryptQueue := rest, chunkId := d.chunkId + 1
                      decrypted := d.decrypted ++ [(d.chunkId, chunk)]
                      writing := true }, some (.external "RangeError"))
        else
          ({ d with decryptQueue := rest, chunkId := d.chunkId + 1
                    decrypted := d.decrypted ++ [(d.chunkId, chunk)]
                    writing := true
                    written := d.written ++ [plain]
                    writesInFlight := d.writesInFlight + 1 }, none) := by
  unfold FileDownloader._decryptChunk
  simp only [hstopped, hwriting, hqueue, List.length_cons, Bool.or_self, Bool.false_or]
  cases env.decrypt chunk d.chunkId with
  | error err => simp
  | ok plain =>
    by_cases hp : d.partialChunkSize = 0
    · simp [hp]
    · by_cases hlen : d.partialChunkSize ≤ plain.length
      · simp [hp, hlen]
      · simp [hp, hlen]

/-- What `_decryptChunk` does when its guard stops it: nothing. -/
theorem decryptChunk_blocked (env : DownloadEnv) (d : FileDownloader)
    (h : d.core.stopped = true ∨ d.writing = true ∨ d.decryptQueue = []) :
    d._decryptChunk env = (d, none) := by
  unfold FileDownloader._decryptChunk
  rcases h with h | h | h
  · simp [h]
  · simp [h]
  · simp [h]

/-- The method `_decryptChunk` keeps a downloader sound. -/
theorem sound_decryptChunk (env : DownloadEnv) (d : FileDownloader) (h : d.Sound) :
    (d._decryptChunk env).1.Sound := by
  by_cases hblocked : d.core.stopped = true ∨ d.writing = true ∨ d.decryptQueue = []
  · rw [decryptChunk_blocked env d hblocked]
    exact h
  · have hstopped : d.core.stopped = false := by
      by_contra hc
      exact hblocked (Or.inl (by simpa using hc))
    have hwriting : d.writing = false := by
      by_contra hc
      exact hblocked (Or.inr (Or.inl (by simpa using hc)))
    have hflight : d.writesInFlight = 0 := by
      have hle := h.write_le
      by_contra hne
      have hone : d.writesInFlight = 1 := by omega
      have := h.write_flag hone
      rw [hwriting] at this
      cases this
    have hnores : ProcessEvent.resolve ∉ d.core.events := by
      intro hres
      have := sound_resolved_stopped d h hres
      rw [hstopped] at this
      cases this
    cases hqueue : d.decryptQueue with
    | nil => exact absurd (Or.inr (Or.inr hqueue)) hblocked
    | cons chunk rest =>
      rw [decryptChunk_eq env d chunk rest hstopped hwriting hqueue]
      cases env.decrypt chunk d.chunkId with
      | error err =>
        exact ⟨h.stopped_eq, h.started, h.write_le, h.write_flag, h.quiet,
          fun hres => absurd hres hnores⟩
      | ok plain =>
        simp only []
        split
        · split
          · refine ⟨h.stopped_eq, h.started, ?_, fun _ => rfl, h.quiet,
              fun hres => absurd hres hnores⟩
            show d.writesInFlight + 1 ≤ 1
            omega
          · refine ⟨h.stopped_eq, h.started, h.write_le, fun _ => rfl, h.quiet,
              fun hres => absurd hres hnores⟩
        · refine ⟨h.stopped_eq, h.started, ?_, fun _ => rfl, h.quiet,
            fun hres => absurd hres hnores⟩
          show d.writesInFlight + 1 ≤ 1
          omega

/-- The callback of `_tick` keeps a downloader sound. -/
theorem sound_onTimer (env : DownloadEnv) (d : FileDownloader) (h : d.Sound) :
    (d.onTimer env).Sound := by
  have h2 := sound_decryptChunk env d._downloadChunk (sound_downloadChunk d h)
  unfold FileDownloader.onTimer
  cases hres : d._downloadChunk._decryptChunk env with
  | mk d1 ex =>
    rw [hres] at h2
    cases ex with
    | none => exact h2
    | some err => exact sound_error d1 _ h2
/-- Every event keeps a downloader sound. -/
theorem sound_step (env : DownloadEnv) (d : FileDownloader) (e : DownloadEvent) (h : d.Sound) :
    (d.step env e).Sound := by
  cases e with
  | timer =>
    by_cases ht : d.timers = 0
    · simp only [FileDownloader.step, ht, if_true]
      exact h
    · simp only [FileDownloader.step, ht, if_false]
      exact sound_onTimer env _
        ⟨h.stopped_eq, h.started, h.write_le, h.write_flag, h.quiet, h.resolved⟩
  | xhrLoading =>
    by_cases hx : d.currentXhrs.length = 0
    · simp only [FileDownloader.step, hx, if_true]
      exact h
    · simp only [FileDownloader.step, hx, if_false]
      exact sound_tick d h
  | fetched dlChunk =>
    simp only [FileDownloader.step]
    split
    · rename_i pos size rest hchain
      have hpop : FileDownloader.Sound { d with downloadChain := rest } :=
        ⟨h.stopped_eq, h.started, h.write_le, h.write_flag, h.quiet, h.resolved⟩
      split
      · rw [afterChunk_eq]
        split
        · exact hpop
        · rename_i hstopped
          split
          · exact sound_error _ _ hpop
          · apply sound_tick
            refine ⟨h.stopped_eq, h.started, h.write_le, h.write_flag, h.quiet, ?_⟩
            intro hres
            exact absurd (sound_resolved_stopped d h hres) hstopped
      · exact h
    · exact h
  | fetchFailed err =>
    simp only [FileDownloader.step]
    split
    · exact sound_error _ _
        ⟨h.stopped_eq, h.started, h.write_le, h.write_flag, h.quiet, h.resolved⟩
    · exact h
  | chainEof =>
    simp only [FileDownloader.step]
    split
    · apply sound_tick
      refine ⟨h.stopped_eq, h.started, h.write_le, h.write_flag, h.quiet, ?_⟩
      intro hres
      exact ⟨rfl, (h.resolved hres).2⟩
    · exact h
  | writeEnd =>
    by_cases hw : d.writesInFlight = 0
    · simp only [FileDownloader.step, hw, if_true]
      exact h
    · simp only [FileDownloader.step, hw, if_false, FileDownloader._onWriteEnd]
      apply sound_tick
      have hle := h.write_le
      refine ⟨h.stopped_eq, h.started, ?_, ?_, h.quiet, ?_⟩
      · show d.writesInFlight - 1 ≤ 1
        omega
      · intro hone
        have hone2 : d.writesInFlight - 1 = 1 := hone
        omega
      · intro hres
        exact absurd (h.resolved hres).2.2.2 hw
  | writeFailed err =>
    by_cases hw : d.writesInFlight = 0
    · simp only [FileDownloader.step, hw, if_true]
      exact h
    · simp only [FileDownloader.step, hw, if_false]
      apply sound_error
      have hle := h.write_le
      refine ⟨h.stopped_eq, h.started, ?_, ?_, h.quiet, ?_⟩
      · show d.writesInFlight - 1 ≤ 1
        omega
      · intro hone
        have hone2 : d.writesInFlight - 1 = 1 := hone
        omega
      · intro hres
        exact absurd (h.resolved hres).2.2.2 hw
  | cancel => exact sound_cancel d h
  | xhrOpened xhr =>
    exact ⟨h.stopped_eq, h.started, h.write_le, h.write_flag, h.quiet, h.resolved⟩
  | xhrClosed xhr =>
    exact ⟨h.stopped_eq, h.started, h.write_le, h.write_flag, h.quiet, h.resolved⟩

/-- Every run keeps a downloader sound. -/
theorem sound_run (env : DownloadEnv) (events : List DownloadEvent) :
    ∀ d : FileDownloader, d.Sound → (d.run env events).Sound := by
  induction events with
  | nil => intro d h; exact h
  | cons e rest ih =>
    intro d h
    exact ih (d.step env e) (sound_step env d e h)

/-- A downloader that was just constructed and started is sound. -/
theorem sound_start (config : DownloadConfig) (file : FileInfo) (streamCloseThrows : Bool)
    (chunkId : Nat) (resumeParams : Option ResumeParams) :
    (FileDownloader.new config file streamCloseThrows chunkId resumeParams).start.Sound := by
  cases resumeParams with
  | none =>
    refine ⟨rfl, rfl, ?_, ?_, fun _ => rfl, ?_⟩
    · show (0 : Nat) ≤ 1
      omega
    · intro hc
      cases hc
    · intro hc
      cases hc
  | some r =>
    refine ⟨rfl, rfl, ?_, ?_, fun _ => rfl, ?_⟩
    · show (0 : Nat) ≤ 1
      omega
    · intro hc
      cases hc
    · intro hc
      cases hc
/-- C20: (1) when `_downloadChunk` passes its guards and computes a request
size of 0, it sets `noMoreChunks`, queues the end-of-data continuation and
issues no request; (2) `_checkIfFinished` returns `true`, and calls
`_finishProcess()` without an error, exactly when `downloadEof` is set, the
decrypt queue is empty and `writing` is clear, and otherwise does nothing;
for a started, unfinished downloader that call closes the stream, cleans up
and resolves the promise; (3) in every state that a started downloader
reaches, if `resolve` was called then `downloadEof` is set, the decrypt queue
is empty, `writing` is clear and no write is in flight. -/
theorem end_of_data (env : DownloadEnv) (d : FileDownloader)
    (config : DownloadConfig) (file : FileInfo) (streamCloseThrows : Bool) (chunkId : Nat)
    (resumeParams : Option ResumeParams) (events : List DownloadEvent) :
    (d.core.stopped = false → d.noMoreChunks = false → d.downloadEof = false →
      d._isDecryptQueueFull = false → d.activeDownloads < d.config.parallelism →
      min (d.downloadChunkSize : Int) ((d.sizeWithOverhead : Int) - d.downloadPos) = 0 →
      d._downloadChunk
        = { d with noMoreChunks := true, downloadChain := d.downloadChain ++ [.eof] }) ∧
    (d._checkIfFinished.2 = true ↔
      d.downloadEof = true ∧ d.decryptQueue = [] ∧ d.writing = false) ∧
    (d._checkIfFinished.1 =
      if d.downloadEof = true ∧ d.decryptQueue = [] ∧ d.writing = false then
        d._finishProcess .falsy
      else d) ∧
    (d.core.hasPromise = true → d.core.processFinished = false →
      (d._finishProcess .falsy).core.events
        = d.core.events ++ [.streamClose, .cleanup, .resolve]) ∧
    (ProcessEvent.resolve ∈
        ((FileDownloader.new config file streamCloseThrows chunkId resumeParams).start.run
          env events).core.events →
      ((FileDownloader.new config file streamCloseThrows chunkId resumeParams).start.run
          env events).downloadEof = true ∧
      ((FileDownloader.new config file streamCloseThrows chunkId resumeParams).start.run
          env events).decryptQueue = [] ∧
      ((FileDownloader.new config file streamCloseThrows chunkId resumeParams).start.run
          env events).writing = false ∧
      ((FileDownloader.new config file streamCloseThrows chunkId resumeParams).start.run
          env events).writesInFlight = 0) := by
  refine ⟨?_, ?_, ?_, ?_, ?_⟩
  · intro hstopped hmore heof hfull hactive hsize
    have hactive2 : ¬ (d.activeDownloads ≥ (d.config.parallelism : Int)) := not_le.mpr hactive
    simp [FileDownloader._downloadChunk, hstopped, hmore, heof, hfull, hactive2, hsize]
  · unfold FileDownloader._checkIfFinished
    by_cases h1 : d.downloadEof = true
    · by_cases h2 : d.decryptQueue = []
      · by_cases h3 : d.writing = false
        · simp [h1, h2, h3]
        · simp [h1, h2, h3]
      · simp [h1, h2]
    · simp [h1]
  · unfold FileDownloader._checkIfFinished
    by_cases h1 : d.downloadEof = true
    · by_cases h2 : d.decryptQueue = []
      · by_cases h3 : d.writing = false
        · simp [h1, h2, h3]
        · simp [h1, h2, h3]
      · simp [h1, h2]
    · simp [h1]
  · intro hstarted hfresh
    rw [downloader_finish_first d _ hfresh]
    show (d.core._finishProcess .falsy).1.events = _
    rw [finishProcess_first d.core .falsy hstarted hfresh]
    simp
  · exact (sound_run env events _
      (sound_start config file streamCloseThrows chunkId resumeParams)).resolved

/-- C20 at a concrete run: the complete run of the small download. -/
theorem end_of_data_witness :
    ProcessEvent.resolve ∈ (smallDownload.run stripEnv smallRun).core.events ∧
    (smallDownload.run stripEnv smallRun).downloadEof = true ∧
    (smallDownload.run stripEnv smallRun).decryptQueue = [] ∧
    (smallDownload.run stripEnv smallRun).writing = false ∧
    (smallDownload.run stripEnv smallRun).writesInFlight = 0 :=
  ⟨by decide,
   (end_of_data stripEnv smallDownload smallConfig smallFile false 0 none smallRun).2.2.2.2
     (by decide)⟩

/-- The method `_tick` is made of moves. -/
theorem tick_moves (env : DownloadEnv) (served : Int → Int → Bytes → Prop)
    (d : FileDownloader) :
    Relation.ReflTransGen (FileDownloader.Move env served) d d._tick := by
  by_cases hfin : d.core.processFinished = true
  · rw [tick_finished d hfin]
  · have hfin2 : d.core.processFinished = false := by simpa using hfin
    rw [tick_eq d hfin2]
    split
    · rename_i hcond
      exact .single (.succeed d hcond.1 hcond.2.1 hcond.2.2)
    · exact .single (.schedule d)

/-- The inherited `_error` is a move. -/
theorem error_moves (env : DownloadEnv) (served : Int → Int → Bytes → Prop)
    (d : FileDownloader) (err : Thrown) :
    Relation.ReflTransGen (FileDownloader.Move env served) d (d._error err) := by
  unfold FileDownloader._error
  apply Relation.ReflTransGen.single
  apply FileDownloader.Move.fail
  by_cases herr : err = .falsy
  · simp [herr]
  · simp [herr]

/-- The callback of `_tick` is made of moves. -/
theorem onTimer_moves (env : DownloadEnv) (served : Int → Int → Bytes → Prop)
    (d : FileDownloader) :
    Relation.ReflTransGen (FileDownloader.Move env served) d (d.onTimer env) := by
  unfold FileDownloader.onTimer
  cases hres : d._downloadChunk._decryptChunk env with
  | mk d1 ex =>
    cases ex with
    | none =>
      exact (Relation.ReflTransGen.single (.download d)).tail (.decrypt _ d1 hres)
    | some err =>
      exact (Relation.ReflTransGen.single (.download d)).tail (.decryptFail _ d1 err hres)

/-- Every event that `served` allows is made of moves. -/
theorem step_moves (env : DownloadEnv) (served : Int → Int → Bytes → Prop)
    (d : FileDownloader) (e : DownloadEvent) (hallowed : d.Allowed served e) :
    Relation.ReflTransGen (FileDownloader.Move env served) d (d.step env e) := by
  cases e with
  | timer =>
    by_cases ht : d.timers = 0
    · simp only [FileDownloader.step, ht, if_true]
      exact .refl
    · simp only [FileDownloader.step, ht, if_false]
      exact (Relation.ReflTransGen.single (.timerPop d)).trans (onTimer_moves env served _)
  | xhrLoading =>
    by_cases hx : d.currentXhrs.length = 0
    · simp only [FileDownloader.step, hx, if_true]
      exact .refl
    · simp only [FileDownloader.step, hx, if_false]
      exact tick_moves env served d
  | fetched dlChunk =>
    cases hchain : d.downloadChain with
    | nil =>
      simp only [FileDownloader.step, hchain]
      exact .refl
    | cons item rest =>
      cases item with
      | eof =>
        simp only [FileDownloader.step, hchain]
        exact .refl
      | fetch pos size =>
        have hserved : served pos size dlChunk := by
          simpa [FileDownloader.Allowed, hchain] using hallowed
        simp only [FileDownloader.step, hchain]
        split
        · rename_i hsize
          rw [afterChunk_eq]
          split
          · rename_i hstopped
            exact .single (.skip d pos size rest hchain hstopped)
          · rename_i hstopped
            have hstopped2 : d.core.stopped = false := by simpa using hstopped
            split
            · exact .single (.dropFail d pos size rest _ hchain (by simp))
            · rename_i hlen
              exact (Relation.ReflTransGen.single
                (.land d pos size rest dlChunk hchain hsize hstopped2 hlen hserved)).trans
                (tick_moves env served _)
        · exact .refl
  | fetchFailed err =>
    cases hchain : d.downloadChain with
    | nil =>
      simp only [FileDownloader.step, hchain]
      exact .refl
    | cons item rest =>
      cases item with
      | eof =>
        simp only [FileDownloader.step, hchain]
        exact .refl
      | fetch pos size =>
        simp only [FileDownloader.step, hchain]
        unfold FileDownloader._error
        apply Relation.ReflTransGen.single
        apply FileDownloader.Move.dropFail d pos size rest _ hchain
        by_cases herr : err = .falsy
        · simp [herr]
        · simp [herr]
  | chainEof =>
    cases hchain : d.downloadChain with
    | nil =>
      simp only [FileDownloader.step, hchain]
      exact .refl
    | cons item rest =>
      cases item with
      | fetch pos size =>
        simp only [FileDownloader.step, hchain]
        exact .refl
      | eof =>
        simp only [FileDownloader.step, hchain]
        exact (Relation.ReflTransGen.single (.eof d rest hchain)).trans (tick_moves env served _)
  | writeEnd =>
    by_cases hw : d.writesInFlight = 0
    · simp only [FileDownloader.step, hw, if_true]
      exact .refl
    · simp only [FileDownloader.step, hw, if_false, FileDownloader._onWriteEnd]
      exact (Relation.ReflTransGen.single (.writeEnd d hw)).trans (tick_moves env served _)
  | writeFailed err =>
    by_cases hw : d.writesInFlight = 0
    · simp only [FileDownloader.step, hw, if_true]
      exact .refl
    · simp only [FileDownloader.step, hw, if_false]
      exact (Relation.ReflTransGen.single (.writeFail d hw)).trans (error_moves env served _ err)
  | cancel =>
    show Relation.ReflTransGen _ d d.cancel
    unfold FileDownloader.cancel
    exact .single (.fail d _ (by simp))
  | xhrOpened xhr => exact .single (.xhrs d _)
  | xhrClosed xhr => exact .single (.xhrs d _)

/-- Every move keeps a downloader sound. -/
theorem sound_move (env : DownloadEnv) (served : Int → Int → Bytes → Prop)
    (d d2 : FileDownloader) (h : d.Sound) (hmove : FileDownloader.Move env served d d2) :
    d2.Sound := by
  cases hmove with
  | fail err herr => exact sound_fail d err h herr
  | succeed heof hqueue hwriting => exact sound_succeed d h heof hqueue hwriting
  | schedule => exact ⟨h.stopped_eq, h.started, h.write_le, h.write_flag, h.quiet, h.resolved⟩
  | timerPop => exact ⟨h.stopped_eq, h.started, h.write_le, h.write_flag, h.quiet, h.resolved⟩
  | download => exact sound_downloadChunk d h
  | decrypt _ hres =>
    have := sound_decryptChunk env d h
    rw [hres] at this
    exact this
  | decryptFail d1 err hres =>
    have := sound_decryptChunk env d h
    rw [hres] at this
    exact sound_error d1 _ this
  | land pos size rest dlChunk hchain hsize hstopped hlen hserved =>
    refine ⟨h.stopped_eq, h.started, h.write_le, h.write_flag, h.quiet, ?_⟩
    intro hres
    have := sound_resolved_stopped d h hres
    rw [hstopped] at this
    cases this
  | skip pos size rest hchain hstopped =>
    exact ⟨h.stopped_eq, h.started, h.write_le, h.write_flag, h.quiet, h.resolved⟩
  | dropFail pos size rest err hchain herr =>
    exact sound_fail _ err
      ⟨h.stopped_eq, h.started, h.write_le, h.write_flag, h.quiet, h.resolved⟩ herr
  | eof rest hchain =>
    refine ⟨h.stopped_eq, h.started, h.write_le, h.write_flag, h.quiet, ?_⟩
    intro hres
    exact ⟨rfl, (h.resolved hres).2⟩
  | writeEnd hflight =>
    have hle := h.write_le
    refine ⟨h.stopped_eq, h.started, ?_, ?_, h.quiet, ?_⟩
    · show d.writesInFlight - 1 ≤ 1
      omega
    · intro hone
      have hone2 : d.writesInFlight - 1 = 1 := hone
      omega
    · intro hres
      exact absurd (h.resolved hres).2.2.2 hflight
  | writeFail hflight =>
    have hle := h.write_le
    refine ⟨h.stopped_eq, h.started, ?_, ?_, h.quiet, ?_⟩
    · show d.writesInFlight - 1 ≤ 1
      omega
    · intro hone
      have hone2 : d.writesInFlight - 1 = 1 := hone
      omega
    · intro hres
      exact absurd (h.resolved hres).2.2.2 hflight
  | xhrs open_ =>
    exact ⟨h.stopped_eq, h.started, h.write_le, h.write_flag, h.quiet, h.resolved⟩

/-- A property that every move keeps, on sound downloaders, holds after
every sequence of moves. -/
theorem moves_invariant (env : DownloadEnv) (served : Int → Int → Bytes → Prop)
    (good : FileDownloader → Prop)
    (hmove : ∀ d d2, d.Sound → good d → FileDownloader.Move env served d d2 → good d2)
    (d d2 : FileDownloader) (hsound : d.Sound) (hgood : good d)
    (hmoves : Relation.ReflTransGen (FileDownloader.Move env served) d d2) :
    d2.Sound ∧ good d2 := by
  induction hmoves with
  | refl => exact ⟨hsound, hgood⟩
  | tail _ hlast ih =>
    exact ⟨sound_move env served _ _ ih.1 hlast, hmove _ _ ih.1 ih.2 hlast⟩

/-- A property that every move keeps, on sound downloaders, holds after
every run whose events `served` allows. -/
theorem run_invariant (env : DownloadEnv) (served : Int → Int → Bytes → Prop)
    (good : FileDownloader → Prop)
    (hmove : ∀ d d2, d.Sound → good d → FileDownloader.Move env served d d2 → good d2)
    (events : List DownloadEvent) :
    ∀ d : FileDownloader, d.Sound → good d → d.AllowedRun env served events →
      (d.run env events).Sound ∧ good (d.run env events) := by
  induction events with
  | nil =>
    intro d hsound hgood _
    exact ⟨hsound, hgood⟩
  | cons e rest ih =>
    intro d hsound hgood hallowed
    have hstep := moves_invariant env served good hmove d (d.step env e) hsound hgood
      (step_moves env served d e hallowed.1)
    exact ih (d.step env e) hstep.1 hstep.2 hallowed.2

/-- Every run is allowed when every response is. -/
theorem allowedRun_any (env : DownloadEnv) (events : List DownloadEvent) :
    ∀ d : FileDownloader, d.AllowedRun env (fun _ _ _ => True) events := by
  induction events with
  | nil => intro d; trivial
  | cons e rest ih =>
    intro d
    refine ⟨?_, ih _⟩
    cases e <;> simp [FileDownloader.Allowed]
    split <;> trivial

/-- The inherited `_finishProcess` changes the inherited fields and the list
of aborted requests, and nothing else. -/
theorem finish_frame (d : FileDownloader) (err : Thrown) :
    ∃ core aborted, d._finishProcess err = { d with core := core, aborted := aborted } := by
  by_cases hfin : d.core.processFinished = true
  · exact ⟨d.core, d.aborted, by rw [downloader_finish_finished d err hfin]⟩
  · have hfin2 : d.core.processFinished = false := by simpa using hfin
    exact ⟨_, _, downloader_finish_first d err hfin2⟩

/-- The inherited `_error` changes the inherited fields and the list of
aborted requests, and nothing else. -/
theorem error_frame (d : FileDownloader) (err : Thrown) :
    ∃ core aborted, d._error err = { d with core := core, aborted := aborted } := by
  unfold FileDownloader._error
  exact finish_frame d _

/-- The fields that `_decryptChunk` leaves alone. -/
theorem decryptChunk_frame (env : DownloadEnv) (d : FileDownloader) :
    (d._decryptChunk env).1.core = d.core ∧
    (d._decryptChunk env).1.config = d.config ∧
    (d._decryptChunk env).1.sizeWithOverhead = d.sizeWithOverhead ∧
    (d._decryptChunk env).1.chunkSizeWithOverhead = d.chunkSizeWithOverhead ∧
    (d._decryptChunk env).1.downloadChunkSize = d.downloadChunkSize ∧
    (d._decryptChunk env).1.activeDownloads = d.activeDownloads ∧
    (d._decryptChunk env).1.downloadChain = d.downloadChain ∧
    (d._decryptChunk env).1.downloadPos = d.downloadPos ∧
    (d._decryptChunk env).1.noMoreChunks = d.noMoreChunks ∧
    (d._decryptChunk env).1.downloadEof = d.downloadEof ∧
    (d._decryptChunk env).1.requested = d.requested := by
  by_cases hblocked : d.core.stopped = true ∨ d.writing = true ∨ d.decryptQueue = []
  · rw [decryptChunk_blocked env d hblocked]
    exact ⟨rfl, rfl, rfl, rfl, rfl, rfl, rfl, rfl, rfl, rfl, rfl⟩
  · have hstopped : d.core.stopped = false := by
      by_contra hc
      exact hblocked (Or.inl (by simpa using hc))
    have hwriting : d.writing = false := by
      by_contra hc
      exact hblocked (Or.inr (Or.inl (by simpa using hc)))
    cases hqueue : d.decryptQueue with
    | nil => exact absurd (Or.inr (Or.inr hqueue)) hblocked
    | cons chunk rest =>
      rw [decryptChunk_eq env d chunk rest hstopped hwriting hqueue]
      cases env.decrypt chunk d.chunkId with
      | error err => exact ⟨rfl, rfl, rfl, rfl, rfl, rfl, rfl, rfl, rfl, rfl, rfl⟩
      | ok plain =>
        simp only []
        split
        · split <;> exact ⟨rfl, rfl, rfl, rfl, rfl, rfl, rfl, rfl, rfl, rfl, rfl⟩
        · exact ⟨rfl, rfl, rfl, rfl, rfl, rfl, rfl, rfl, rfl, rfl, rfl⟩

/-- The length of the fetch plan is `ceil(s / b)`. -/
theorem fetchPlan_length (s b : Nat) : (fetchPlan s b).length = (s + b - 1) / b := by
  simp [fetchPlan]

/-- The `n`-th request of the fetch plan. -/
theorem fetchPlan_get (s b n : Nat) (hn : n < (s + b - 1) / b) :
    (fetchPlan s b)[n]? =
      some (((n * b : Nat) : Int), ((min ((n + 1) * b) s : Nat) : Int) - 1) := by
  simp [fetchPlan, List.getElem?_map, List.getElem?_range hn]

/-- The method `_downloadChunk` keeps a download from scratch on its plan. -/
theorem planned_downloadChunk (s b : Nat) (hb : 0 < b) (d : FileDownloader)
    (h : d.Planned s b) : d._downloadChunk.Planned s b := by
  obtain ⟨hs, hbs, ⟨n, hreq, hpos⟩, hmore⟩ := h
  unfold FileDownloader._downloadChunk
  split
  · exact ⟨hs, hbs, ⟨n, hreq, hpos⟩, hmore⟩
  · split
    · exact ⟨hs, hbs, ⟨n, hreq, hpos⟩, hmore⟩
    · simp only []
      split
      · rename_i hsize
        refine ⟨hs, hbs, ⟨n, hreq, hpos⟩, ?_⟩
        intro _
        show d.downloadPos = (s : Int)
        rw [hs, hbs] at hsize
        rw [hpos] at hsize ⊢
        omega
      · rename_i hsize
        rw [hs, hbs, hpos] at hsize
        have hlt : n * b < s := by
          by_contra hc
          apply hsize
          omega
        have hn : n < (s + b - 1) / b := by
          have hmul : (n + 1) * b = n * b + b := by ring
          have : n + 1 ≤ (s + b - 1) / b := by
            rw [Nat.le_div_iff_mul_le hb, hmul]
            omega
          omega
        refine ⟨hs, hbs, ⟨n + 1, ?_, ?_⟩, ?_⟩
        · show d.requested ++ [(d.downloadPos, d.downloadPos
            + min (d.downloadChunkSize : Int) ((d.sizeWithOverhead : Int) - d.downloadPos) - 1)]
            = (fetchPlan s b).take (n + 1)
          rw [List.take_succ, fetchPlan_get s b n hn, hreq, hs, hbs, hpos]
          have hmul : (n + 1) * b = n * b + b := by ring
          have h1 : ((min (n * b) s : Nat) : Int) = ((n * b : Nat) : Int) := by
            have : min (n * b) s = n * b := by omega
            rw [this]
          have h2 : ((n * b : Nat) : Int) + min (b : Int) ((s : Int) - ((n * b : Nat) : Int)) - 1
              = ((min ((n + 1) * b) s : Nat) : Int) - 1 := by
            rw [hmul]
            omega
          simp only [Option.toList_some]
          rw [h1, h2]
        · show d.downloadPos
            + min (d.downloadChunkSize : Int) ((d.sizeWithOverhead : Int) - d.downloadPos)
            = ((min ((n + 1) * b) s : Nat) : Int)
          rw [hs, hbs, hpos]
          have hmul : (n + 1) * b = n * b + b := by ring
          rw [hmul]
          omega
        · intro hc
          have hnm : d.noMoreChunks = false := by
            rename_i hguard _
            simp only [Bool.or_eq_true, not_or, Bool.not_eq_true] at hguard
            exact hguard.1.1.2
          have hc2 : d.noMoreChunks = true := hc
          rw [hnm] at hc2
          cases hc2
/-- The method `_decryptChunk` keeps a download from scratch on its plan. -/
theorem planned_decryptChunk (env : DownloadEnv) (s b : Nat) (d : FileDownloader)
    (h : d.Planned s b) : (d._decryptChunk env).1.Planned s b := by
  obtain ⟨_, _, hs, _, hb, _, _, hpos, hmore, _, hreq⟩ := decryptChunk_frame env d
  unfold FileDownloader.Planned
  rw [hs, hb, hpos, hmore, hreq]
  exact h

/-- Every move keeps a download from scratch on its plan. -/
theorem planned_move (env : DownloadEnv) (served : Int → Int → Bytes → Prop) (s b : Nat)
    (hb : 0 < b) (d d2 : FileDownloader) (h : d.Planned s b)
    (hmove : FileDownloader.Move env served d d2) : d2.Planned s b := by
  cases hmove with
  | fail err herr =>
    obtain ⟨core, aborted, heq⟩ := finish_frame d err
    rw [heq]
    exact h
  | succeed heof hqueue hwriting =>
    obtain ⟨core, aborted, heq⟩ := finish_frame d .falsy
    rw [heq]
    exact h
  | schedule => exact h
  | timerPop => exact h
  | download => exact planned_downloadChunk s b hb d h
  | decrypt _ hres =>
    have := planned_decryptChunk env s b d h
    rw [hres] at this
    exact this
  | decryptFail d1 err hres =>
    have := planned_decryptChunk env s b d h
    rw [hres] at this
    obtain ⟨core, aborted, heq⟩ := error_frame d1 (.error err)
    rw [heq]
    exact this
  | land pos size rest dlChunk hchain hsize hstopped hlen hserved => exact h
  | skip pos size rest hchain hstopped => exact h
  | dropFail pos size rest err hchain herr =>
    obtain ⟨core, aborted, heq⟩ := finish_frame { d with downloadChain := rest } err
    rw [heq]
    exact h
  | eof rest hchain => exact h
  | writeEnd hflight => exact h
  | writeFail hflight => exact h
  | xhrs open_ => exact h

/-- A plan that was followed to the end of the stored bytes was followed
whole. -/
theorem fetchPlan_take_all (s b n : Nat) (hb : 0 < b) (h : min (n * b) s = s) :
    (fetchPlan s b).take n = fetchPlan s b := by
  apply List.take_of_length_le
  rw [fetchPlan_length]
  have hle : s ≤ n * b := by omega
  have : (s + b - 1) / b < n + 1 := by
    rw [Nat.div_lt_iff_lt_mul hb]
    have hmul : (n + 1) * b = n * b + b := by ring
    rw [hmul]
    omega
  omega

/-- C14: in a download from scratch of `s` stored bytes with batches of
`b > 0` bytes, in every state the ranges requested so far are an initial
segment of the fetch plan, and once `noMoreChunks` is set they are the whole
plan: `ceil(s / b)` requests, the `i`-th (from 0) for the bytes from `i * b`
to `min((i + 1) * b, s) - 1`. Each range starts on a chunk boundary and where
the range before it ended, the first at 0, and the last ends at `s - 1`. -/
theorem fetch_plan_followed (env : DownloadEnv) (config : DownloadConfig) (file : FileInfo)
    (streamCloseThrows : Bool) (chunkId : Nat) (events : List DownloadEvent)
    (hb : 0 < (FileDownloader.new config file streamCloseThrows chunkId none).downloadChunkSize) :
    (∃ n, ((FileDownloader.new config file streamCloseThrows chunkId none).start.run
        env events).requested
      = (fetchPlan file.sizeWithOverhead
          (FileDownloader.new config file streamCloseThrows chunkId none).downloadChunkSize).take
          n) ∧
    (((FileDownloader.new config file streamCloseThrows chunkId none).start.run
        env events).noMoreChunks = true →
      ((FileDownloader.new config file streamCloseThrows chunkId none).start.run
        env events).requested
      = fetchPlan file.sizeWithOverhead
          (FileDownloader.new config file streamCloseThrows chunkId none).downloadChunkSize) ∧
    (∀ s b : Nat,
      (fetchPlan s b).length = (s + b - 1) / b ∧
      (∀ i, i < (s + b - 1) / b →
        (fetchPlan s b)[i]? = some (((i * b : Nat) : Int), ((min ((i + 1) * b) s : Nat) : Int) - 1) ∧
        (i + 1 < (s + b - 1) / b → ((min ((i + 1) * b) s : Nat) : Int) - 1 + 1
          = (((i + 1) * b : Nat) : Int)) ∧
        (0 < b → i + 1 = (s + b - 1) / b → ((min ((i + 1) * b) s : Nat) : Int) - 1
          = (s : Int) - 1))) ∧
    (∀ i, (file.chunkSize + config.chunkOverhead) ∣
      i * (FileDownloader.new config file streamCloseThrows chunkId none).downloadChunkSize) := by
  have hinit : ((FileDownloader.new config file streamCloseThrows chunkId none).start).Planned
      file.sizeWithOverhead
      (FileDownloader.new config file streamCloseThrows chunkId none).downloadChunkSize := by
    refine ⟨rfl, rfl, ⟨0, ?_, ?_⟩, ?_⟩
    · simp [FileDownloader.new, FileDownloader.fresh, FileDownloader.start,
        FileDownloader._tick, FileDownloader._checkIfFinished, FileProcessor.new]
    · simp [FileDownloader.new, FileDownloader.fresh, FileDownloader.start,
        FileDownloader._tick, FileDownloader._checkIfFinished, FileProcessor.new]
    · intro hc
      simp [FileDownloader.new, FileDownloader.fresh, FileDownloader.start,
        FileDownloader._tick, FileDownloader._checkIfFinished, FileProcessor.new] at hc
  have hrun := (run_invariant env (fun _ _ _ => True)
    (FileDownloader.Planned file.sizeWithOverhead
      (FileDownloader.new config file streamCloseThrows chunkId none).downloadChunkSize)
    (fun d d2 _ hgood hmove => planned_move env _ _ _ hb d d2 hgood hmove)
    events _ (sound_start config file streamCloseThrows chunkId none) hinit
    (allowedRun_any env events _)).2
  obtain ⟨_, _, ⟨n, hreq, hpos⟩, hmore⟩ := hrun
  refine ⟨⟨n, hreq⟩, ?_, ?_, ?_⟩
  · intro hdone
    have hend := hmore hdone
    rw [hpos] at hend
    rw [hreq]
    exact fetchPlan_take_all _ _ n hb (by omega)
  · intro s b
    refine ⟨fetchPlan_length s b, ?_⟩
    intro i hi
    refine ⟨fetchPlan_get s b i hi, ?_, ?_⟩
    · intro hnext
      by_cases hb0 : b = 0
      · subst hb0
        simp at hnext
      · have hle : i + 1 + 1 ≤ (s + b - 1) / b := hnext
        rw [Nat.le_div_iff_mul_le (Nat.pos_of_ne_zero hb0)] at hle
        have hmul2 : (i + 1 + 1) * b = (i + 1) * b + b := by ring
        rw [hmul2] at hle
        have hmin : min ((i + 1) * b) s = (i + 1) * b := by omega
        rw [hmin]
        omega
    · intro hb0 hlast
      have hge : s ≤ (i + 1) * b := by
        have : (s + b - 1) / b < i + 1 + 1 := by omega
        rw [Nat.div_lt_iff_lt_mul hb0] at this
        have hmul2 : (i + 1 + 1) * b = (i + 1) * b + b := by ring
        omega
      have : min ((i + 1) * b) s = s := by omega
      rw [this]
  · intro i
    have hsize : (FileDownloader.new config file streamCloseThrows chunkId none).downloadChunkSize
        = config.maxDownloadChunkSize / (file.chunkSize + config.chunkOverhead)
          * (file.chunkSize + config.chunkOverhead) := rfl
    rw [hsize]
    exact Dvd.dvd.mul_left (Dvd.intro_left _ rfl) i
/-- C14 at Scenario B: 250000 stored bytes in batches of 131072 bytes are
requested in 2 ranges before `noMoreChunks` is set. -/
theorem fetch_plan_followed_witness :
    (scenarioB.run stripEnv
      [.timer, .xhrOpened 1, .xhrLoading, .timer, .xhrLoading, .timer]).noMoreChunks = true ∧
    (scenarioB.run stripEnv
      [.timer, .xhrOpened 1, .xhrLoading, .timer, .xhrLoading, .timer]).requested
      = fetchPlan 250000 131072 ∧
    fetchPlan 250000 131072 = [(0, 131071), (131072, 249999)] :=
  ⟨rfl,
   (fetch_plan_followed stripEnv
      { chunkOverhead := 32, maxDownloadChunkSize := 131072,
        maxDecryptBufferSize := 3145728, parallelism := 3 }
      { sizeWithOverhead := 250000, chunkSize := 65504, progress := 0 } false 0
      [.timer, .xhrOpened 1, .xhrLoading, .timer, .xhrLoading, .timer] (by decide)).2.1 rfl,
   by decide⟩

/-- What the inherited `_finishProcess` does to a sound downloader: nothing
when it is stopped; otherwise it stops it, and closes the stream, cleans up
and settles the promise. -/
theorem finish_cases (d : FileDownloader) (err : Thrown) (h : d.Sound) :
    (d._finishProcess err = d ∧ d.core.stopped = true) ∨
    (d.core.stopped = false ∧ ∃ core aborted,
      d._finishProcess err = { d with core := core, aborted := aborted } ∧
      core.stopped = true ∧
      core.events = [.streamClose, .cleanup,
        if err ≠ .falsy then .reject (normalize err none) else .resolve]) := by
  by_cases hfin : d.core.processFinished = true
  · left
    exact ⟨downloader_finish_finished d err hfin, by rw [h.stopped_eq]; exact hfin⟩
  · have hfin2 : d.core.processFinished = false := by simpa using hfin
    right
    refine ⟨by rw [h.stopped_eq]; exact hfin2, _, _, downloader_finish_first d err hfin2, ?_, ?_⟩
    · rw [finishProcess_first d.core err h.started hfin2]
    · rw [finishProcess_first d.core err h.started hfin2]
      show d.core.events ++ _ = _
      rw [h.quiet hfin2]
      rfl

/-- The expected writes of a log that is not empty, with one more call. -/
theorem expectedWrites_append (env : DownloadEnv) (p : Nat) (log : List (Nat × Bytes))
    (entry : Nat × Bytes) (hlog : log ≠ []) :
    expectedWrites env p (log ++ [entry]) = expectedWrites env p log ++ [env.plain entry] := by
  cases log with
  | nil => exact absurd rfl hlog
  | cons first rest => simp [expectedWrites]

/-- The expected writes have the length of the log. -/
theorem expectedWrites_length (env : DownloadEnv) (p : Nat) (log : List (Nat × Bytes)) :
    (expectedWrites env p log).length = log.length := by
  cases log with
  | nil => rfl
  | cons first rest => simp [expectedWrites]

/-- One more call in the log does not change the expected writes before it. -/
theorem expectedWrites_take (env : DownloadEnv) (p : Nat) (log : List (Nat × Bytes))
    (entry : Nat × Bytes) (k : Nat) (hk : k ≤ log.length) :
    (expectedWrites env p (log ++ [entry])).take k = (expectedWrites env p log).take k := by
  cases log with
  | nil =>
    have : k = 0 := by simpa using hk
    subst this
    rfl
  | cons first rest =>
    rw [expectedWrites_append env p _ entry (by simp)]
    apply List.take_append_of_le_length
    rw [expectedWrites_length]
    exact hk
/-- A stopping `_finishProcess` keeps the relation between chunks written and
chunks decrypted, provided all decrypted chunks were written when it
resolves. -/
theorem writes_finish (env : DownloadEnv) (p : Nat) (d : FileDownloader) (err : Thrown)
    (hs : d.Sound) (h : d.Writes env p)
    (hall : err = .falsy → d.core.stopped = false → d.written.length = d.decrypted.length) :
    (d._finishProcess err).Writes env p := by
  rcases finish_cases d err hs with ⟨heq, _⟩ | ⟨hstopped, core, aborted, heq, hcore, hevents⟩
  · rw [heq]
    exact h
  · rw [heq]
    refine ⟨h.untouched, fun _ => Or.inl hcore, h.cleared_written, Or.inl hcore, h.written_le,
      h.written_eq, ?_⟩
    intro hres
    have hres2 : ProcessEvent.resolve ∈ core.events := hres
    rw [hevents] at hres2
    by_cases herr : err = .falsy
    · exact hall herr hstopped
    · simp [herr] at hres2

/-- The method `_decryptChunk`, when it returns, keeps the relation between
chunks written and chunks decrypted. -/
theorem writes_decrypt (env : DownloadEnv) (p : Nat) (d d1 : FileDownloader)
    (hs : d.Sound) (h : d.Writes env p) (hres : d._decryptChunk env = (d1, none)) :
    d1.Writes env p := by
  by_cases hblocked : d.core.stopped = true ∨ d.writing = true ∨ d.decryptQueue = []
  · rw [decryptChunk_blocked env d hblocked] at hres
    have : d = d1 := (Prod.mk.inj hres).1
    rw [← this]
    exact h
  · have hstopped : d.core.stopped = false := by
      by_contra hc
      exact hblocked (Or.inl (by simpa using hc))
    have hwriting : d.writing = false := by
      by_contra hc
      exact hblocked (Or.inr (Or.inl (by simpa using hc)))
    have hlen : d.written.length = d.decrypted.length := by
      rcases h.all_written with hc | hc
      · rw [hstopped] at hc
        cases hc
      · exact hc
    have hnores : ProcessEvent.resolve ∉ d.core.events := by
      intro hc
      have := sound_resolved_stopped d hs hc
      rw [hstopped] at this
      cases this
    cases hqueue : d.decryptQueue with
    | nil => exact absurd (Or.inr (Or.inr hqueue)) hblocked
    | cons chunk rest =>
      rw [decryptChunk_eq env d chunk rest hstopped hwriting hqueue] at hres
      cases hdec : env.decrypt chunk d.chunkId with
      | error err =>
        rw [hdec] at hres
        cases (Prod.mk.inj hres).2
      | ok plain =>
        have hplain : env.plain (d.chunkId, chunk) = some plain := by
          simp [DownloadEnv.plain, hdec]
        rw [hdec] at hres
        simp only [] at hres
        by_cases hp : d.partialChunkSize = 0
        · simp only [hp, ne_eq, not_true_eq_false, if_false] at hres
          have hd1 := (Prod.mk.inj hres).1
          rw [← hd1]
          refine ⟨?_, fun _ => Or.inr rfl, fun _ => rfl, Or.inr ?_, ?_, ?_,
            fun hc => absurd hc hnores⟩
          · intro hc
            simp at hc
          · simp [hlen]
          · simp [hlen]
          · show (d.written ++ [plain]).map some
              = (expectedWrites env p (d.decrypted ++ [(d.chunkId, chunk)])).take
                  (d.written ++ [plain]).length
            by_cases hlog : d.decrypted = []
            · have hw : d.written = [] := by
                have := h.written_le
                rw [hlog] at this
                exact List.length_eq_zero.mp (by simpa using this)
              have hp0 : p = 0 := by
                have := h.untouched hlog
                rw [hp] at this
                exact this.symm
              rw [hlog, hw, hp0]
              simp [expectedWrites, hplain]
            · rw [expectedWrites_append env p _ _ hlog, List.map_append, h.written_eq, hlen,
                List.length_append, ← hlen]
              have hfull : (expectedWrites env p d.decrypted).take d.written.length
                  = expectedWrites env p d.decrypted := by
                apply List.take_of_length_le
                rw [expectedWrites_length, hlen]
              rw [hfull, hplain]
              have hlen2 : d.written.length + [plain].length
                  = (expectedWrites env p d.decrypted ++ [some plain]).length := by
                simp [expectedWrites_length, hlen]
              rw [hlen2, List.take_length]
              rfl
        · have hlog : d.decrypted = [] := by
            by_contra hc
            rcases h.cleared hc with hc2 | hc2
            · rw [hstopped] at hc2
              cases hc2
            · exact hp hc2
          have hw : d.written = [] := by
            have := h.written_le
            rw [hlog] at this
            exact List.length_eq_zero.mp (by simpa using this)
          have hp0 : d.partialChunkSize = p := h.untouched hlog
          by_cases hfit : d.partialChunkSize ≤ plain.length
          · simp only [hp, ne_eq, not_false_eq_true, if_true, hfit] at hres
            have hd1 := (Prod.mk.inj hres).1
            rw [← hd1]
            refine ⟨?_, fun _ => Or.inr rfl, fun _ => rfl, Or.inr ?_, ?_, ?_,
              fun hc => absurd hc hnores⟩
            · intro hc
              simp at hc
            · simp [hlen]
            · simp [hlen]
            · show (d.written ++ [plain.drop d.partialChunkSize]).map some
                = (expectedWrites env p (d.decrypted ++ [(d.chunkId, chunk)])).take
                    (d.written ++ [plain.drop d.partialChunkSize]).length
              rw [hlog, hw, hp0]
              simp [expectedWrites, hplain]
          · simp only [hp, ne_eq, not_false_eq_true, if_true, hfit, if_false] at hres
            cases (Prod.mk.inj hres).2

/-- The method `_decryptChunk`, when it throws and `_error` is called, keeps
the relation between chunks written and chunks decrypted. -/
theorem writes_decryptFail (env : DownloadEnv) (p : Nat) (d d1 : FileDownloader) (err : JsError)
    (hs : d.Sound) (h : d.Writes env p) (hres : d._decryptChunk env = (d1, some err)) :
    (d1._error (.error err)).Writes env p := by
  have hs1 : d1.Sound := by
    have := sound_decryptChunk env d hs
    rw [hres] at this
    exact this
  by_cases hblocked : d.core.stopped = true ∨ d.writing = true ∨ d.decryptQueue = []
  · rw [decryptChunk_blocked env d hblocked] at hres
    cases (Prod.mk.inj hres).2
  · have hstopped : d.core.stopped = false := by
      by_contra hc
      exact hblocked (Or.inl (by simpa using hc))
    have hwriting : d.writing = false := by
      by_contra hc
      exact hblocked (Or.inr (Or.inl (by simpa using hc)))
    have hnores : ProcessEvent.resolve ∉ d.core.events := by
      intro hc
      have := sound_resolved_stopped d hs hc
      rw [hstopped] at this
      cases this
    have hcore : d1.core = d.core := by
      have := (decryptChunk_frame env d).1
      rw [hres] at this
      exact this
    have hstopped1 : d1.core.stopped = false := by rw [hcore]; exact hstopped
    -- the state that `_decryptChunk` leaves behind has one more logged call and no new write
    have hleft : d1.written = d.written ∧ d1.partialChunkSize = d.partialChunkSize ∧
        ∃ entry, d1.decrypted = d.decrypted ++ [entry] := by
      cases hqueue : d.decryptQueue with
      | nil => exact absurd (Or.inr (Or.inr hqueue)) hblocked
      | cons chunk rest =>
        rw [decryptChunk_eq env d chunk rest hstopped hwriting hqueue] at hres
        cases hdec : env.decrypt chunk d.chunkId with
        | error e =>
          rw [hdec] at hres
          have hd1 := (Prod.mk.inj hres).1
          rw [← hd1]
          exact ⟨rfl, rfl, _, rfl⟩
        | ok plain =>
          rw [hdec] at hres
          simp only [] at hres
          by_cases hp : d.partialChunkSize = 0
          · simp only [hp, ne_eq, not_true_eq_false, if_false] at hres
            cases (Prod.mk.inj hres).2
          · by_cases hfit : d.partialChunkSize ≤ plain.length
            · simp only [hp, ne_eq, not_false_eq_true, if_true, hfit] at hres
              cases (Prod.mk.inj hres).2
            · simp only [hp, ne_eq, not_false_eq_true, if_true, hfit, if_false] at hres
              have hd1 := (Prod.mk.inj hres).1
              rw [← hd1]
              exact ⟨rfl, rfl, _, rfl⟩
    obtain ⟨hw, hpart, entry, hlog⟩ := hleft
    unfold FileDownloader._error
    rcases finish_cases d1 (if Thrown.error err ≠ .falsy then Thrown.error err
        else .error (.error (d1.core.processType ++ " failed"))) hs1
      with ⟨_, hc⟩ | ⟨_, core, aborted, heq, hcore2, hevents⟩
    · rw [hstopped1] at hc
      cases hc
    · rw [heq]
      refine ⟨?_, fun _ => Or.inl hcore2, ?_, Or.inl hcore2, ?_, ?_, ?_⟩
      · intro hc
        have hc2 : d1.decrypted = [] := hc
        rw [hlog] at hc2
        simp at hc2
      · intro hc
        have hc2 : d1.written ≠ [] := hc
        rw [hw] at hc2
        show d1.partialChunkSize = 0
        rw [hpart]
        exact h.cleared_written hc2
      · show d1.written.length ≤ d1.decrypted.length
        rw [hw, hlog, List.length_append]
        have := h.written_le
        omega
      · show d1.written.map some = (expectedWrites env p d1.decrypted).take d1.written.length
        rw [hw, hlog, expectedWrites_take env p _ entry _ h.written_le]
        exact h.written_eq
      · intro hc
        have hc2 : ProcessEvent.resolve ∈ core.events := hc
        rw [hevents] at hc2
        simp at hc2
/-- Every move keeps the relation between chunks written and chunks
decrypted. -/
theorem writes_move (env : DownloadEnv) (served : Int → Int → Bytes → Prop) (p : Nat)
    (d d2 : FileDownloader) (hs : d.Sound) (h : d.Writes env p)
    (hmove : FileDownloader.Move env served d d2) : d2.Writes env p := by
  cases hmove with
  | fail err herr =>
    exact writes_finish env p d err hs h (fun hc => absurd hc herr)
  | succeed heof hqueue hwriting =>
    apply writes_finish env p d .falsy hs h
    intro _ hstopped
    rcases h.all_written with hc | hc
    · rw [hstopped] at hc
      cases hc
    · exact hc
  | schedule =>
    exact ⟨h.untouched, h.cleared, h.cleared_written, h.all_written, h.written_le, h.written_eq,
      h.resolved⟩
  | timerPop =>
    exact ⟨h.untouched, h.cleared, h.cleared_written, h.all_written, h.written_le, h.written_eq,
      h.resolved⟩
  | download =>
    obtain ⟨hcore, _, _, _, _, _, hdec, hw, hp, _⟩ := downloadChunk_frame d
    refine ⟨?_, ?_, ?_, ?_, ?_, ?_, ?_⟩
    · rw [hdec, hp]; exact h.untouched
    · rw [hdec, hp, hcore]; exact h.cleared
    · rw [hw, hp]; exact h.cleared_written
    · rw [hcore, hw, hdec]; exact h.all_written
    · rw [hw, hdec]; exact h.written_le
    · rw [hw, hdec]; exact h.written_eq
    · rw [hcore, hw, hdec]; exact h.resolved
  | decrypt _ hres => exact writes_decrypt env p d d2 hs h hres
  | decryptFail d1 err hres => exact writes_decryptFail env p d d1 err hs h hres
  | land pos size rest dlChunk hchain hsize hstopped hlen hserved =>
    exact ⟨h.untouched, h.cleared, h.cleared_written, h.all_written, h.written_le, h.written_eq,
      h.resolved⟩
  | skip pos size rest hchain hstopped =>
    exact ⟨h.untouched, h.cleared, h.cleared_written, h.all_written, h.written_le, h.written_eq,
      h.resolved⟩
  | dropFail pos size rest err hchain herr =>
    exact writes_finish env p _ err
      ⟨hs.stopped_eq, hs.started, hs.write_le, hs.write_flag, hs.quiet, hs.resolved⟩
      ⟨h.untouched, h.cleared, h.cleared_written, h.all_written, h.written_le, h.written_eq,
        h.resolved⟩
      (fun hc => absurd hc herr)
  | eof rest hchain =>
    exact ⟨h.untouched, h.cleared, h.cleared_written, h.all_written, h.written_le, h.written_eq,
      h.resolved⟩
  | writeEnd hflight =>
    exact ⟨h.untouched, h.cleared, h.cleared_written, h.all_written, h.written_le, h.written_eq,
      h.resolved⟩
  | writeFail hflight =>
    exact ⟨h.untouched, h.cleared, h.cleared_written, h.all_written, h.written_le, h.written_eq,
      h.resolved⟩
  | xhrs open_ =>
    exact ⟨h.untouched, h.cleared, h.cleared_written, h.all_written, h.written_le, h.written_eq,
      h.resolved⟩

/-- A downloader that was just constructed and started has written nothing
and decrypted nothing. -/
theorem writes_start (env : DownloadEnv) (config : DownloadConfig) (file : FileInfo)
    (streamCloseThrows : Bool) (chunkId : Nat) (resumeParams : Option ResumeParams) :
    (FileDownloader.new config file streamCloseThrows chunkId resumeParams).start.Writes env
      (startPartial resumeParams) := by
  cases resumeParams with
  | none =>
    refine ⟨fun _ => rfl, fun hc => absurd rfl hc, fun hc => absurd rfl hc, Or.inr rfl,
      Nat.le_refl _, rfl, fun _ => rfl⟩
  | some r =>
    refine ⟨fun _ => rfl, fun hc => absurd rfl hc, fun hc => absurd rfl hc, Or.inr rfl,
      Nat.le_refl _, rfl, fun _ => rfl⟩

/-- C18: in every state of a download resumed with `partialChunkSize = p`,
the chunks handed to `stream.write` are, in order, the plain chunks that
`secret.decrypt` returned, the first without its first `p` bytes and every
later one whole, and `partialChunkSize` is 0 once a chunk was written. When
`_decryptChunk` runs with `partialChunkSize` at most the length of the plain
chunk, it writes the plain chunk without its first `partialChunkSize` bytes
and sets `partialChunkSize` to 0. -/
theorem partial_chunk_discard (env : DownloadEnv) (config : DownloadConfig) (file : FileInfo)
    (streamCloseThrows : Bool) (chunkId : Nat) (r : ResumeParams)
    (events : List DownloadEvent)
    (d : FileDownloader) (chunk : Bytes) (rest : List Bytes) (plain : Bytes) :
    ((FileDownloader.new config file streamCloseThrows chunkId (some r)).start.run
        env events).written.map some
      = (expectedWrites env r.partialChunkSize
          ((FileDownloader.new config file streamCloseThrows chunkId (some r)).start.run
            env events).decrypted).take
          ((FileDownloader.new config file streamCloseThrows chunkId (some r)).start.run
            env events).written.length ∧
    (((FileDownloader.new config file streamCloseThrows chunkId (some r)).start.run
        env events).written ≠ [] →
      ((FileDownloader.new config file streamCloseThrows chunkId (some r)).start.run
        env events).partialChunkSize = 0) ∧
    (d.core.stopped = false → d.writing = false → d.decryptQueue = chunk :: rest →
      env.decrypt chunk d.chunkId = .ok plain → d.partialChunkSize ≤ plain.length →
      (d._decryptChunk env).2 = none ∧
      (d._decryptChunk env).1.written = d.written ++ [plain.drop d.partialChunkSize] ∧
      (d._decryptChunk env).1.partialChunkSize = 0) := by
  have hrun := (run_invariant env (fun _ _ _ => True)
    (FileDownloader.Writes env r.partialChunkSize)
    (fun d d2 hs hgood hmove => writes_move env _ _ d d2 hs hgood hmove)
    events _ (sound_start config file streamCloseThrows chunkId (some r))
    (writes_start env config file streamCloseThrows chunkId (some r))
    (allowedRun_any env events _)).2
  refine ⟨hrun.written_eq, hrun.cleared_written, ?_⟩
  intro hstopped hwriting hqueue hdec hfit
  rw [decryptChunk_eq env d chunk rest hstopped hwriting hqueue, hdec]
  by_cases hp : d.partialChunkSize = 0
  · simp [hp]
  · simp [hp, hfit]

/-- C18 at a concrete run: the small download resumed after one chunk with 2
bytes of the next chunk already on disk. Of the plain chunks `[15, 16, 17]`
and `[19]`, the first is written without its first 2 bytes. -/
theorem partial_chunk_discard_witness :
    (partialDownload.run stripEnv resumedRun).written = [[17], [19]] ∧
    (partialDownload.run stripEnv resumedRun).written.map some
      = (expectedWrites stripEnv 2 (partialDownload.run stripEnv resumedRun).decrypted).take 2 ∧
    (partialDownload.run stripEnv resumedRun).partialChunkSize = 0 :=
  have h := partial_chunk_discard stripEnv smallConfig smallFile false 0
    { partialChunkSize := 2, wholeChunks := 1 } resumedRun
    (partialDownload.run stripEnv [.timer, .xhrOpened 1, .fetched [14, 15, 16, 17, 18, 19]])
    [14, 15, 16, 17] [[18, 19]] [15, 16, 17]
  ⟨rfl, h.1, h.2.1 (by decide)⟩

/-- No chunk that lines 133-140 push is longer than `c`. -/
theorem chunksOf_le (c : Nat) : ∀ (rounds : Nat) (data : Bytes),
    ∀ chunk ∈ chunksOf c rounds data, chunk.length ≤ c
  | 0, _ => by
    intro chunk hc
    simp [chunksOf] at hc
  | rounds + 1, data => by
    intro chunk hc
    unfold chunksOf at hc
    split at hc
    · simp at hc
    · rcases List.mem_cons.mp hc with h | h
      · rw [h, List.length_take]
        exact Nat.min_le_left _ _
      · exact chunksOf_le c rounds _ chunk h

/-- Lines 133-140 push at most `k` chunks for `k * c` bytes. -/
theorem chunksOf_length (c : Nat) (hc : 0 < c) : ∀ (rounds : Nat) (data : Bytes) (k : Nat),
    data.length ≤ k * c → (chunksOf c rounds data).length ≤ k
  | 0, _, _ => by
    intro _
    simp [chunksOf]
  | rounds + 1, data, k => by
    intro hlen
    unfold chunksOf
    split
    · simp
    · rename_i hne
      cases k with
      | zero =>
        simp at hlen
        rw [hlen] at hne
        exact absurd rfl hne
      | succ k =>
        have hrest : (data.drop c).length ≤ k * c := by
          rw [List.length_drop]
          have : (k + 1) * c = k * c + c := by ring
          omega
        have := chunksOf_length c hc rounds (data.drop c) k hrest
        simp only [List.length_cons]
        omega

/-- The method `_decryptChunk` leaves the decrypt queue as it is or takes
its first chunk off. -/
theorem decryptChunk_queue (env : DownloadEnv) (d : FileDownloader) :
    (d._decryptChunk env).1.decryptQueue = d.decryptQueue ∨
    ∃ chunk, d.decryptQueue = chunk :: (d._decryptChunk env).1.decryptQueue := by
  by_cases hblocked : d.core.stopped = true ∨ d.writing = true ∨ d.decryptQueue = []
  · rw [decryptChunk_blocked env d hblocked]
    exact Or.inl rfl
  · have hstopped : d.core.stopped = false := by
      by_contra hc
      exact hblocked (Or.inl (by simpa using hc))
    have hwriting : d.writing = false := by
      by_contra hc
      exact hblocked (Or.inr (Or.inl (by simpa using hc)))
    cases hqueue : d.decryptQueue with
    | nil => exact absurd (Or.inr (Or.inr hqueue)) hblocked
    | cons chunk rest =>
      right
      refine ⟨chunk, ?_⟩
      rw [decryptChunk_eq env d chunk rest hstopped hwriting hqueue]
      cases env.decrypt chunk d.chunkId with
      | error err => rfl
      | ok plain =>
        simp only []
        split
        · split <;> rfl
        · rfl

/-- The method `_decryptChunk` keeps the bounds. -/
theorem bounded_decryptChunk (env : DownloadEnv) (c b cap par : Nat) (d : FileDownloader)
    (h : d.Bounded c b cap par) : (d._decryptChunk env).1.Bounded c b cap par := by
  obtain ⟨_, hconfig, _, hchunk, hbatch, hactive, hchain, _⟩ := decryptChunk_frame env d
  have hroom := h.room
  refine ⟨by rw [hchunk]; exact h.chunk_eq, by rw [hbatch]; exact h.batch_eq,
    by rw [hconfig]; exact h.cap_eq, by rw [hconfig]; exact h.par_eq, ?_,
    by rw [hchain]; exact h.size_le, by rw [hchain, hactive]; exact h.active_ge, ?_⟩
  · rcases decryptChunk_queue env d with hq | ⟨chunk, hq⟩
    · rw [hq]
      exact h.chunk_le
    · intro ch hch
      apply h.chunk_le
      rw [hq]
      exact List.mem_cons_of_mem _ hch
  · rw [hactive]
    rcases decryptChunk_queue env d with hq | ⟨chunk, hq⟩
    · rw [hq]
      exact hroom
    · rw [hq, List.length_cons, Nat.cast_succ] at hroom
      omega

/-- The method `_downloadChunk` keeps the bounds. -/
theorem bounded_downloadChunk (c b cap par : Nat) (d : FileDownloader)
    (h : d.Bounded c b cap par) : d._downloadChunk.Bounded c b cap par := by
  unfold FileDownloader._downloadChunk
  split
  · exact h
  · rename_i hguard
    split
    · exact h
    · rename_i hactive
      have hnotfull : d._isDecryptQueueFull = false := by
        simp only [Bool.or_eq_true, not_or, Bool.not_eq_true] at hguard
        exact hguard.2
      have hlen : d.decryptQueue.length ≤ cap * par / (c + 1) := by
        rw [Nat.le_div_iff_mul_le (by omega)]
        have := hnotfull
        simp only [FileDownloader._isDecryptQueueFull, decide_eq_false_iff_not, not_lt,
          h.chunk_eq, h.cap_eq, h.par_eq, gt_iff_lt] at this
        exact this
      have hact : d.activeDownloads + 1 ≤ (par : Int) := by
        rw [h.par_eq] at hactive
        omega
      simp only []
      split
      · refine ⟨h.chunk_eq, h.batch_eq, h.cap_eq, h.par_eq, h.chunk_le, ?_, ?_, h.room⟩
        · intro pos size hmem
          have hmem2 : ChainItem.fetch pos size ∈ d.downloadChain ++ [.eof] := hmem
          rw [List.mem_append] at hmem2
          rcases hmem2 with hm | hm
          · exact h.size_le pos size hm
          · simp at hm
        · show (fetchCount (d.downloadChain ++ [.eof]) : Int) ≤ d.activeDownloads
          have : fetchCount (d.downloadChain ++ [.eof]) = fetchCount d.downloadChain := by
            induction d.downloadChain with
            | nil => rfl
            | cons item rest ih => cases item <;> simp [fetchCount, ih]
          rw [this]
          exact h.active_ge
      · refine ⟨h.chunk_eq, h.batch_eq, h.cap_eq, h.par_eq, h.chunk_le, ?_, ?_, ?_⟩
        · intro pos size hmem
          have hmem2 : ChainItem.fetch pos size ∈ d.downloadChain
              ++ [.fetch d.downloadPos (min (d.downloadChunkSize : Int)
                ((d.sizeWithOverhead : Int) - d.downloadPos))] := hmem
          rw [List.mem_append] at hmem2
          rcases hmem2 with hm | hm
          · exact h.size_le pos size hm
          · simp only [List.mem_singleton, ChainItem.fetch.injEq] at hm
            rw [hm.2, h.batch_eq]
            exact min_le_left _ _
        · show (fetchCount (d.downloadChain ++ [.fetch _ _]) : Int) ≤ d.activeDownloads + 1
          have : ∀ (chain : List ChainItem) (pos size : Int),
              fetchCount (chain ++ [.fetch pos size]) = fetchCount chain + 1 := by
            intro chain pos size
            induction chain with
            | nil => rfl
            | cons item rest ih => cases item <;> simp [fetchCount, ih]
          rw [this]
          have := h.active_ge
          push_cast
          omega
        · show (d.decryptQueue.length : Int) + ((b / c : Nat) : Int) * (d.activeDownloads + 1)
            ≤ ((cap * par / (c + 1) : Nat) : Int) + ((b / c : Nat) : Int) * (par : Int)
          have hmul : ((b / c : Nat) : Int) * (d.activeDownloads + 1)
              ≤ ((b / c : Nat) : Int) * (par : Int) :=
            Int.mul_le_mul_of_nonneg_left hact (Int.ofNat_nonneg _)
          have hlen2 : (d.decryptQueue.length : Int) ≤ ((cap * par / (c + 1) : Nat) : Int) := by
            exact_mod_cast hlen
          omega
/-- A stopping `_finishProcess` keeps the bounds. -/
theorem bounded_finish (c b cap par : Nat) (d : FileDownloader) (err : Thrown)
    (h : d.Bounded c b cap par) : (d._finishProcess err).Bounded c b cap par := by
  obtain ⟨core, aborted, heq⟩ := finish_frame d err
  rw [heq]
  exact ⟨h.chunk_eq, h.batch_eq, h.cap_eq, h.par_eq, h.chunk_le, h.size_le, h.active_ge, h.room⟩

/-- Taking a request off the chain keeps the bounds. -/
theorem bounded_pop (c b cap par : Nat) (d : FileDownloader) (pos size : Int)
    (rest : List ChainItem) (hchain : d.downloadChain = .fetch pos size :: rest)
    (h : d.Bounded c b cap par) :
    FileDownloader.Bounded c b cap par { d with downloadChain := rest } := by
  refine ⟨h.chunk_eq, h.batch_eq, h.cap_eq, h.par_eq, h.chunk_le, ?_, ?_, h.room⟩
  · intro p s hmem
    apply h.size_le p s
    rw [hchain]
    exact List.mem_cons_of_mem _ hmem
  · have := h.active_ge
    rw [hchain] at this
    show (fetchCount rest : Int) ≤ d.activeDownloads
    simp only [fetchCount, Nat.cast_succ] at this
    omega

/-- Every move keeps the bounds. -/
theorem bounded_move (env : DownloadEnv) (served : Int → Int → Bytes → Prop)
    (c b cap par : Nat) (hc : 0 < c) (hdvd : c ∣ b) (d d2 : FileDownloader)
    (h : d.Bounded c b cap par) (hmove : FileDownloader.Move env served d d2) :
    d2.Bounded c b cap par := by
  cases hmove with
  | fail err herr => exact bounded_finish c b cap par d err h
  | succeed heof hqueue hwriting => exact bounded_finish c b cap par d .falsy h
  | schedule =>
    exact ⟨h.chunk_eq, h.batch_eq, h.cap_eq, h.par_eq, h.chunk_le, h.size_le, h.active_ge, h.room⟩
  | timerPop =>
    exact ⟨h.chunk_eq, h.batch_eq, h.cap_eq, h.par_eq, h.chunk_le, h.size_le, h.active_ge, h.room⟩
  | download => exact bounded_downloadChunk c b cap par d h
  | decrypt _ hres =>
    have := bounded_decryptChunk env c b cap par d h
    rw [hres] at this
    exact this
  | decryptFail d1 err hres =>
    have := bounded_decryptChunk env c b cap par d h
    rw [hres] at this
    unfold FileDownloader._error
    exact bounded_finish c b cap par d1 _ this
  | land pos size rest dlChunk hchain hsize hstopped hlen hserved =>
    have hpop := bounded_pop c b cap par d pos size rest hchain h
    have hsz : size ≤ (b : Int) := h.size_le pos size (by rw [hchain]; exact List.mem_cons_self _ _)
    have hbytes : dlChunk.length ≤ b / c * c := by
      rw [Nat.div_mul_cancel hdvd]
      omega
    have hcount : (splitChunks d.chunkSizeWithOverhead dlChunk).length ≤ b / c := by
      rw [h.chunk_eq]
      exact chunksOf_length c hc _ _ _ hbytes
    refine ⟨h.chunk_eq, h.batch_eq, h.cap_eq, h.par_eq, ?_, hpop.size_le, ?_, ?_⟩
    · intro chunk hmem
      have hmem2 : chunk ∈ d.decryptQueue ++ splitChunks d.chunkSizeWithOverhead dlChunk := hmem
      rw [List.mem_append] at hmem2
      rcases hmem2 with hm | hm
      · exact h.chunk_le chunk hm
      · rw [h.chunk_eq] at hm
        exact chunksOf_le c _ _ chunk hm
    · have := h.active_ge
      rw [hchain] at this
      show (fetchCount rest : Int) ≤ d.activeDownloads - 1
      simp only [fetchCount, Nat.cast_succ] at this
      omega
    · show ((d.decryptQueue ++ splitChunks d.chunkSizeWithOverhead dlChunk).length : Int)
          + ((b / c : Nat) : Int) * (d.activeDownloads - 1)
        ≤ ((cap * par / (c + 1) : Nat) : Int) + ((b / c : Nat) : Int) * (par : Int)
      have hroom := h.room
      rw [List.length_append, Nat.cast_add, mul_sub, mul_one]
      have hcount2 : ((splitChunks d.chunkSizeWithOverhead dlChunk).length : Int)
          ≤ ((b / c : Nat) : Int) := by exact_mod_cast hcount
      omega
  | skip pos size rest hchain hstopped => exact bounded_pop c b cap par d pos size rest hchain h
  | dropFail pos size rest err hchain herr =>
    exact bounded_finish c b cap par _ err (bounded_pop c b cap par d pos size rest hchain h)
  | eof rest hchain =>
    refine ⟨h.chunk_eq, h.batch_eq, h.cap_eq, h.par_eq, h.chunk_le, ?_, ?_, h.room⟩
    · intro p s hmem
      apply h.size_le p s
      rw [hchain]
      exact List.mem_cons_of_mem _ hmem
    · have := h.active_ge
      rw [hchain] at this
      exact this
  | writeEnd hflight =>
    exact ⟨h.chunk_eq, h.batch_eq, h.cap_eq, h.par_eq, h.chunk_le, h.size_le, h.active_ge, h.room⟩
  | writeFail hflight =>
    exact ⟨h.chunk_eq, h.batch_eq, h.cap_eq, h.par_eq, h.chunk_le, h.size_le, h.active_ge, h.room⟩
  | xhrs open_ =>
    exact ⟨h.chunk_eq, h.batch_eq, h.cap_eq, h.par_eq, h.chunk_le, h.size_le, h.active_ge, h.room⟩

/-- A downloader that was just constructed and started is within the bounds. -/
theorem bounded_start (config : DownloadConfig) (file : FileInfo) (streamCloseThrows : Bool)
    (chunkId : Nat) (resumeParams : Option ResumeParams) :
    (FileDownloader.new config file streamCloseThrows chunkId resumeParams).start.Bounded
      (file.chunkSize + config.chunkOverhead)
      (config.maxDownloadChunkSize / (file.chunkSize + config.chunkOverhead)
        * (file.chunkSize + config.chunkOverhead))
      config.maxDecryptBufferSize config.parallelism := by
  cases resumeParams with
  | none =>
    refine ⟨rfl, rfl, rfl, rfl, ?_, ?_, ?_, ?_⟩
    · intro chunk hmem
      cases hmem
    · intro pos size hmem
      cases hmem
    · show ((0 : Nat) : Int) ≤ 0
      omega
    · show ((0 : Nat) : Int) + _ * (0 : Int) ≤ _
      have h1 := Int.ofNat_nonneg (config.maxDecryptBufferSize * config.parallelism
        / (file.chunkSize + config.chunkOverhead + 1))
      have h2 : (0 : Int) ≤ ((config.maxDownloadChunkSize
          / (file.chunkSize + config.chunkOverhead) * (file.chunkSize + config.chunkOverhead)
          / (file.chunkSize + config.chunkOverhead) : Nat) : Int)
          * (config.parallelism : Int) :=
        Int.mul_nonneg (Int.ofNat_nonneg _) (Int.ofNat_nonneg _)
      simp only [mul_zero, Nat.cast_zero, zero_add]
      omega
  | some r =>
    refine ⟨rfl, rfl, rfl, rfl, ?_, ?_, ?_, ?_⟩
    · intro chunk hmem
      cases hmem
    · intro pos size hmem
      cases hmem
    · show ((0 : Nat) : Int) ≤ 0
      omega
    · show ((0 : Nat) : Int) + _ * (0 : Int) ≤ _
      have h1 := Int.ofNat_nonneg (config.maxDecryptBufferSize * config.parallelism
        / (file.chunkSize + config.chunkOverhead + 1))
      have h2 : (0 : Int) ≤ ((config.maxDownloadChunkSize
          / (file.chunkSize + config.chunkOverhead) * (file.chunkSize + config.chunkOverhead)
          / (file.chunkSize + config.chunkOverhead) : Nat) : Int)
          * (config.parallelism : Int) :=
        Int.mul_nonneg (Int.ofNat_nonneg _) (Int.ofNat_nonneg _)
      simp only [mul_zero, Nat.cast_zero, zero_add]
      omega

/-- The bytes in a queue of chunks of at most `c` bytes. -/
theorem sum_lengths_le (c : Nat) (queue : List Bytes) (h : ∀ chunk ∈ queue, chunk.length ≤ c) :
    (queue.map List.length).sum ≤ c * queue.length := by
  induction queue with
  | nil => simp
  | cons chunk rest ih =>
    have h1 := h chunk (List.mem_cons_self _ _)
    have h2 := ih (fun ch hch => h ch (List.mem_cons_of_mem _ hch))
    simp only [List.map_cons, List.sum_cons, List.length_cons]
    have : c * (rest.length + 1) = c * rest.length + c := by ring
    omega
/-- C17 (as stated) fails: under a decrypt buffer of 1 byte and 1 request at
a time, with chunks of 4 bytes, the first batch of the small download puts 8
bytes in the decrypt queue, more than 1 × 1 plus one chunk of 4 bytes. -/
theorem decrypt_queue_exceeds_one_chunk :
    (tightDownload.run stripEnv
      [.timer, .xhrOpened 1, .fetched [10, 11, 12, 13, 14, 15, 16, 17]]).queuedBytes = 8 ∧
    (tightDownload.run stripEnv
      [.timer, .xhrOpened 1, .fetched [10, 11, 12, 13, 14, 15, 16, 17]]).chunkSizeWithOverhead
      = 4 ∧
    tightConfig.maxDecryptBufferSize * tightConfig.parallelism + 4 < 8 := by
  refine ⟨rfl, rfl, by decide⟩

/-- C17 (amended): when the chunk size with overhead is positive, in every
state of a download the number of bytes in the decrypt queue is at most
`maxDecryptBufferSize × parallelism` plus `parallelism` batches of
`downloadChunkSize` bytes. -/
theorem decrypt_queue_bound (env : DownloadEnv) (config : DownloadConfig) (file : FileInfo)
    (streamCloseThrows : Bool) (chunkId : Nat) (resumeParams : Option ResumeParams)
    (events : List DownloadEvent) (hc : 0 < file.chunkSize + config.chunkOverhead) :
    ((FileDownloader.new config file streamCloseThrows chunkId resumeParams).start.run
        env events).queuedBytes
      ≤ config.maxDecryptBufferSize * config.parallelism
        + config.parallelism
          * (FileDownloader.new config file streamCloseThrows chunkId
              resumeParams).downloadChunkSize := by
  have hsize : (FileDownloader.new config file streamCloseThrows chunkId
      resumeParams).downloadChunkSize
      = config.maxDownloadChunkSize / (file.chunkSize + config.chunkOverhead)
        * (file.chunkSize + config.chunkOverhead) := by
    cases resumeParams <;> rfl
  rw [hsize]
  generalize hcdef : file.chunkSize + config.chunkOverhead = c at hc ⊢
  generalize hbdef : config.maxDownloadChunkSize / c * c = b
  have hdvd : c ∣ b := by
    rw [← hbdef]
    exact Dvd.intro_left _ rfl
  have hstart := bounded_start config file streamCloseThrows chunkId resumeParams
  rw [hcdef, hbdef] at hstart
  have hrun := (run_invariant env (fun _ _ _ => True)
    (FileDownloader.Bounded c b config.maxDecryptBufferSize config.parallelism)
    (fun d d2 _ hgood hmove => bounded_move env _ c b _ _ hc hdvd d d2 hgood hmove)
    events _ (sound_start config file streamCloseThrows chunkId resumeParams) hstart
    (allowedRun_any env events _)).2
  generalize (FileDownloader.new config file streamCloseThrows chunkId resumeParams).start.run
    env events = d at hrun ⊢
  have hbytes := sum_lengths_le c d.decryptQueue hrun.chunk_le
  have hactive : (0 : Int) ≤ d.activeDownloads :=
    le_trans (Int.ofNat_nonneg _) hrun.active_ge
  have hprod : (0 : Int) ≤ ((b / c : Nat) : Int) * d.activeDownloads :=
    Int.mul_nonneg (Int.ofNat_nonneg _) hactive
  have hlen : d.decryptQueue.length
      ≤ config.maxDecryptBufferSize * config.parallelism / (c + 1)
        + b / c * config.parallelism := by
    have hroom := hrun.room
    have : (d.decryptQueue.length : Int)
        ≤ ((config.maxDecryptBufferSize * config.parallelism / (c + 1) : Nat) : Int)
          + ((b / c : Nat) : Int) * (config.parallelism : Int) := by omega
    exact_mod_cast this
  have h1 : c * (config.maxDecryptBufferSize * config.parallelism / (c + 1))
      ≤ config.maxDecryptBufferSize * config.parallelism :=
    le_trans (Nat.mul_le_mul_right _ (Nat.le_succ c)) (Nat.mul_div_le _ _)
  have h2 : c * (b / c * config.parallelism) = config.parallelism * b := by
    rw [← Nat.mul_assoc, Nat.mul_div_cancel' hdvd, Nat.mul_comm]
  show (d.decryptQueue.map List.length).sum ≤ _
  calc (d.decryptQueue.map List.length).sum
      ≤ c * d.decryptQueue.length := hbytes
    _ ≤ c * (config.maxDecryptBufferSize * config.parallelism / (c + 1)
          + b / c * config.parallelism) := Nat.mul_le_mul_left _ hlen
    _ = c * (config.maxDecryptBufferSize * config.parallelism / (c + 1))
          + c * (b / c * config.parallelism) := Nat.mul_add _ _ _
    _ ≤ config.maxDecryptBufferSize * config.parallelism + config.parallelism * b := by
        rw [h2]
        exact Nat.add_le_add_right h1 _

/-- C17 (amended) at the tight download: 8 queued bytes are within 1 × 1 plus
1 batch of 8 bytes. -/
theorem decrypt_queue_bound_witness :
    (tightDownload.run stripEnv
      [.timer, .xhrOpened 1, .fetched [10, 11, 12, 13, 14, 15, 16, 17]]).queuedBytes
      ≤ 1 * 1 + 1 * 8 :=
  decrypt_queue_bound stripEnv tightConfig smallFile false 0 none
    [.timer, .xhrOpened 1, .fetched [10, 11, 12, 13, 14, 15, 16, 17]] (by decide)

/-- More rounds than bytes do not change the chunks that are pushed. -/
theorem chunksOf_rounds (c : Nat) (hc : 0 < c) : ∀ (m n : Nat) (data : Bytes),
    data.length ≤ m → data.length ≤ n → chunksOf c m data = chunksOf c n data
  | 0, n, data => by
    intro hm _
    have hnil : data = [] := List.length_eq_zero.mp (by omega)
    subst hnil
    cases n <;> simp [chunksOf]
  | m + 1, 0, data => by
    intro _ hn
    have hnil : data = [] := List.length_eq_zero.mp (by omega)
    subst hnil
    simp [chunksOf]
  | m + 1, n + 1, data => by
    intro hm hn
    unfold chunksOf
    split
    · rfl
    · rename_i hne
      have hlen : (data.drop c).length = data.length - c := List.length_drop _ _
      rw [chunksOf_rounds c hc m n (data.drop c) (by omega) (by omega)]

/-- No bytes, no chunks. -/
theorem splitChunks_nil (c : Nat) : splitChunks c [] = [] := rfl

/-- The first chunk pushed for some bytes, and the chunks pushed for the
rest. -/
theorem splitChunks_cons (c : Nat) (hc : 0 < c) (data : Bytes) (hdata : data ≠ []) :
    splitChunks c data = data.take c :: splitChunks c (data.drop c) := by
  have hpos : 0 < data.length := List.length_pos.mpr hdata
  obtain ⟨m, hm⟩ : ∃ m, data.length = m + 1 := ⟨data.length - 1, by omega⟩
  have hlen : (data.drop c).length = data.length - c := List.length_drop _ _
  have hstep : chunksOf c (m + 1) data = data.take c :: chunksOf c m (data.drop c) := by
    rw [chunksOf, if_neg (by omega)]
  show chunksOf c data.length data = data.take c :: chunksOf c (data.drop c).length (data.drop c)
  rw [hm, hstep,
    chunksOf_rounds c hc m (data.drop c).length (data.drop c) (by omega) (Nat.le_refl _)]

/-- Only for no bytes are no chunks pushed. -/
theorem splitChunks_eq_nil (c : Nat) (data : Bytes) (h : splitChunks c data = []) :
    data = [] := by
  cases data with
  | nil => rfl
  | cons x rest =>
    unfold splitChunks at h
    simp [chunksOf] at h

/-- The chunks pushed for bytes that follow a whole number of chunks. -/
theorem splitChunks_append (c : Nat) (hc : 0 < c) : ∀ (q : Nat) (first second : Bytes),
    first.length = q * c →
      splitChunks c (first ++ second) = splitChunks c first ++ splitChunks c second
  | 0, first, second => by
    intro hlen
    have hnil : first = [] := List.length_eq_zero.mp (by simpa using hlen)
    subst hnil
    rfl
  | q + 1, first, second => by
    intro hlen
    have hmul : (q + 1) * c = q * c + c := by ring
    have hfirst : first ≠ [] := by
      intro hnil
      rw [hnil] at hlen
      simp at hlen
      omega
    have hboth : first ++ second ≠ [] := by
      intro hnil
      exact hfirst (List.append_eq_nil.mp hnil).1
    have hle : c ≤ first.length := by omega
    rw [splitChunks_cons c hc _ hboth, splitChunks_cons c hc _ hfirst,
      List.take_append_of_le_length hle, List.drop_append_of_le_length hle,
      splitChunks_append c hc q (first.drop c) second (by rw [List.length_drop]; omega)]
    rfl

/-- The bytes of a blob up to byte `p + n` are the bytes up to `p` and the
`n` bytes after them. -/
theorem take_add_drop (blob : Bytes) (p n : Nat) :
    blob.take (p + n) = blob.take p ++ (blob.drop p).take n := by
  rw [List.take_add]

/-- A chunk cut out of the bytes of a blob up to byte `p` is the chunk of the
blob, when it ends before `p` or `p` is at or after the end of the blob. -/
theorem take_drop_take (blob : Bytes) (p a c : Nat) (h : a + c ≤ p ∨ blob.length ≤ p) :
    ((blob.take p).drop a).take c = (blob.drop a).take c := by
  rcases h with h | h
  · rw [List.drop_take, List.take_take]
    congr 1
    omega
  · rw [List.take_of_length_le h]

/-- Taking a request off the chain keeps its end as it is. -/
theorem chained_pop (d : FileDownloader) (pos size : Int) (rest : List ChainItem)
    (hchain : d.downloadChain = .fetch pos size :: rest) (h : d.Chained) :
    FileDownloader.Chained { d with downloadChain := rest } := by
  refine ⟨?_, ?_, ?_, h.no_more⟩
  · intro hmore
    have := h.open_ended hmore
    rw [hchain] at this
    exact ⟨fun hmem => this.1 (List.mem_cons_of_mem _ hmem), this.2⟩
  · intro hmore heof
    obtain ⟨fetches, hf, hnot⟩ := h.closing hmore heof
    rw [hchain] at hf
    cases fetches with
    | nil => simp at hf
    | cons first others =>
      simp only [List.cons_append, List.cons.injEq] at hf
      exact ⟨others, hf.2, fun hmem => hnot (List.mem_cons_of_mem _ hmem)⟩
  · intro heof
    have := (h.closed heof).1
    rw [hchain] at this
    cases this

/-- A `_finishProcess` keeps the end of the chain as it is. -/
theorem chained_finish (d : FileDownloader) (err : Thrown) (h : d.Chained) :
    (d._finishProcess err).Chained := by
  obtain ⟨core, aborted, heq⟩ := finish_frame d err
  rw [heq]
  exact ⟨h.open_ended, h.closing, h.closed, h.no_more⟩

/-- The method `_downloadChunk` keeps the end of the chain in order. -/
theorem chained_downloadChunk (d : FileDownloader) (h : d.Chained) :
    d._downloadChunk.Chained := by
  unfold FileDownloader._downloadChunk
  split
  · exact h
  · rename_i hguard
    simp only [Bool.or_eq_true, not_or, Bool.not_eq_true] at hguard
    have hmore : d.noMoreChunks = false := hguard.1.1.2
    split
    · exact h
    · simp only []
      split
      · rename_i hsize
        refine ⟨?_, ?_, ?_, ?_⟩
        · intro hc
          cases hc
        · intro _ _
          exact ⟨d.downloadChain, rfl, (h.open_ended hmore).1⟩
        · intro heof
          have heof2 : d.downloadEof = true := heof
          rw [(h.open_ended hmore).2] at heof2
          cases heof2
        · intro _
          exact hsize
      · refine ⟨?_, ?_, ?_, ?_⟩
        · intro _
          refine ⟨?_, (h.open_ended hmore).2⟩
          intro hmem
          have hmem2 : ChainItem.eof ∈ d.downloadChain ++ [.fetch _ _] := hmem
          rw [List.mem_append] at hmem2
          rcases hmem2 with hm | hm
          · exact (h.open_ended hmore).1 hm
          · simp at hm
        · intro hc
          have hc2 : d.noMoreChunks = true := hc
          rw [hmore] at hc2
          cases hc2
        · intro heof
          have heof2 : d.downloadEof = true := heof
          rw [(h.open_ended hmore).2] at heof2
          cases heof2
        · intro hc
          have hc2 : d.noMoreChunks = true := hc
          rw [hmore] at hc2
          cases hc2

/-- The method `_decryptChunk` keeps the end of the chain as it is. -/
theorem chained_decryptChunk (env : DownloadEnv) (d : FileDownloader) (h : d.Chained) :
    (d._decryptChunk env).1.Chained := by
  obtain ⟨_, _, hs, _, hb, _, hchain, hpos, hmore, heof, _⟩ := decryptChunk_frame env d
  refine ⟨?_, ?_, ?_, ?_⟩
  · rw [hmore, hchain, heof]; exact h.open_ended
  · rw [hmore, hchain, heof]; exact h.closing
  · rw [hmore, hchain, heof]; exact h.closed
  · rw [hmore, hb, hs, hpos]; exact h.no_more

/-- Every move keeps the end of the chain in order. -/
theorem chained_move (env : DownloadEnv) (served : Int → Int → Bytes → Prop)
    (d d2 : FileDownloader) (h : d.Chained) (hmove : FileDownloader.Move env served d d2) :
    d2.Chained := by
  cases hmove with
  | fail err herr => exact chained_finish d err h
  | succeed heof hqueue hwriting => exact chained_finish d .falsy h
  | schedule => exact ⟨h.open_ended, h.closing, h.closed, h.no_more⟩
  | timerPop => exact ⟨h.open_ended, h.closing, h.closed, h.no_more⟩
  | download => exact chained_downloadChunk d h
  | decrypt _ hres =>
    have := chained_decryptChunk env d h
    rw [hres] at this
    exact this
  | decryptFail d1 err hres =>
    have := chained_decryptChunk env d h
    rw [hres] at this
    unfold FileDownloader._error
    exact chained_finish d1 _ this
  | land pos size rest dlChunk hchain hsize hstopped hlen hserved =>
    have := chained_pop d pos size rest hchain h
    exact ⟨this.open_ended, this.closing, this.closed, this.no_more⟩
  | skip pos size rest hchain hstopped => exact chained_pop d pos size rest hchain h
  | dropFail pos size rest err hchain herr =>
    exact chained_finish _ err (chained_pop d pos size rest hchain h)
  | eof rest hchain =>
    have hmore : d.noMoreChunks = true := by
      by_contra hc
      have hc2 : d.noMoreChunks = false := by simpa using hc
      have := (h.open_ended hc2).1
      rw [hchain] at this
      exact this (List.mem_cons_self _ _)
    have heof : d.downloadEof = false := by
      by_contra hc
      have hc2 : d.downloadEof = true := by simpa using hc
      have := (h.closed hc2).1
      rw [hchain] at this
      cases this
    obtain ⟨fetches, hf, hnot⟩ := h.closing hmore heof
    rw [hchain] at hf
    have hrest : rest = [] := by
      cases fetches with
      | nil =>
        simp only [List.nil_append, List.cons.injEq, true_and] at hf
        exact hf
      | cons first others =>
        simp only [List.cons_append, List.cons.injEq] at hf
        exact absurd (by rw [← hf.1]; exact List.mem_cons_self _ _) hnot
    refine ⟨?_, ?_, ?_, h.no_more⟩
    · intro hc
      have hc2 : d.noMoreChunks = false := hc
      rw [hmore] at hc2
      cases hc2
    · intro _ hc
      cases hc
    · intro _
      exact ⟨hrest, hmore⟩
  | writeEnd hflight => exact ⟨h.open_ended, h.closing, h.closed, h.no_more⟩
  | writeFail hflight => exact ⟨h.open_ended, h.closing, h.closed, h.no_more⟩
  | xhrs open_ => exact ⟨h.open_ended, h.closing, h.closed, h.no_more⟩

/-- The chain of a downloader that was just constructed and started is
empty and open. -/
theorem chained_start (config : DownloadConfig) (file : FileInfo) (streamCloseThrows : Bool)
    (chunkId : Nat) (resumeParams : Option ResumeParams) :
    (FileDownloader.new config file streamCloseThrows chunkId resumeParams).start.Chained := by
  cases resumeParams with
  | none =>
    refine ⟨fun _ => ⟨List.not_mem_nil _, rfl⟩, ?_, ?_, ?_⟩
    · intro hc
      cases hc
    · intro hc
      cases hc
    · intro hc
      cases hc
  | some r =>
    refine ⟨fun _ => ⟨List.not_mem_nil _, rfl⟩, ?_, ?_, ?_⟩
    · intro hc
      cases hc
    · intro hc
      cases hc
    · intro hc
      cases hc

/-- Where a well-formed chain ends: at `downloadPos`, which is a byte of the
blob on a chunk boundary, or at or after its end. -/
theorem chainOk_end (c s b : Nat) : ∀ (chain : List ChainItem) (p : Nat) (downloadPos : Int),
    ChainOk c s b p chain downloadPos → (c ∣ p ∨ s ≤ p) →
      ∃ e : Nat, downloadPos = (e : Int) ∧ (c ∣ e ∨ s ≤ e)
  | [], p, downloadPos => by
    intro h hp
    exact ⟨p, h, hp⟩
  | .eof :: rest, p, downloadPos => by
    intro h hp
    exact chainOk_end c s b rest p downloadPos h hp
  | .fetch pos size :: rest, p, downloadPos => by
    intro h _
    obtain ⟨_, _, p2, _, hp2, _, hrest⟩ := h
    exact chainOk_end c s b rest p2 downloadPos hrest hp2

/-- A well-formed chain stays so when the end-of-data continuation is
queued. -/
theorem chainOk_append_eof (c s b : Nat) : ∀ (chain : List ChainItem) (p : Nat)
    (downloadPos : Int), ChainOk c s b p chain downloadPos →
      ChainOk c s b p (chain ++ [.eof]) downloadPos
  | [], p, downloadPos => by
    intro h
    exact h
  | .eof :: rest, p, downloadPos => by
    intro h
    exact chainOk_append_eof c s b rest p downloadPos h
  | .fetch pos size :: rest, p, downloadPos => by
    intro h
    obtain ⟨h1, h2, p2, h3, h4, h5, hrest⟩ := h
    exact ⟨h1, h2, p2, h3, h4, h5, chainOk_append_eof c s b rest p2 downloadPos hrest⟩

/-- A well-formed chain stays so when a request for the bytes after
`downloadPos` is queued. -/
theorem chainOk_append_fetch (c s b : Nat) (e p2 : Nat) (size : Int)
    (hsize : size ≤ (b : Int)) (hp2 : (p2 : Int) = (e : Int) + size)
    (hgood : c ∣ p2 ∨ s ≤ p2) (hpos : 0 < size → c ∣ e ∧ p2 ≤ s) :
    ∀ (chain : List ChainItem) (p : Nat), ChainOk c s b p chain (e : Int) →
      ChainOk c s b p (chain ++ [.fetch (e : Int) size]) (p2 : Int)
  | [], p => by
    intro h
    have hep : e = p := by
      have : (e : Int) = (p : Int) := h
      exact_mod_cast this
    subst hep
    exact ⟨rfl, hsize, p2, hp2, hgood, hpos, rfl⟩
  | .eof :: rest, p => by
    intro h
    exact chainOk_append_fetch c s b e p2 size hsize hp2 hgood hpos rest p h
  | .fetch pos sz :: rest, p => by
    intro h
    obtain ⟨h1, h2, q, h3, h4, h5, hrest⟩ := h
    exact ⟨h1, h2, q, h3, h4, h5,
      chainOk_append_fetch c s b e p2 size hsize hp2 hgood hpos rest q hrest⟩

/-- What `_decryptChunk` does to the queue, the nonce counter and the log of
decrypt calls when its guard lets it through. -/
theorem decryptChunk_log (env : DownloadEnv) (d : FileDownloader) (chunk : Bytes)
    (rest : List Bytes) (hstopped : d.core.stopped = false) (hwriting : d.writing = false)
    (hqueue : d.decryptQueue = chunk :: rest) :
    (d._decryptChunk env).1.decryptQueue = rest ∧
    (d._decryptChunk env).1.chunkId = d.chunkId + 1 ∧
    (d._decryptChunk env).1.decrypted = d.decrypted ++ [(d.chunkId, chunk)] := by
  rw [decryptChunk_eq env d chunk rest hstopped hwriting hqueue]
  cases env.decrypt chunk d.chunkId with
  | error err => exact ⟨rfl, rfl, rfl⟩
  | ok plain =>
    simp only []
    split
    · split <;> exact ⟨rfl, rfl, rfl⟩
    · exact ⟨rfl, rfl, rfl⟩

/-- The method `_downloadChunk` keeps chunks and nonces aligned. -/
theorem aligned_downloadChunk (blob : Bytes) (c b w : Nat) (hdvd : c ∣ b) (d : FileDownloader)
    (h : d.Aligned blob c b w) : d._downloadChunk.Aligned blob c b w := by
  unfold FileDownloader._downloadChunk
  split
  · exact h
  · rename_i hguard
    simp only [Bool.or_eq_true, not_or, Bool.not_eq_true] at hguard
    have hstopped : d.core.stopped = false := hguard.1.1.1
    split
    · exact h
    · obtain ⟨p, hchain, hqueue, hgoodp, hlow⟩ : ∃ p : Nat,
          ChainOk c blob.length b p d.downloadChain d.downloadPos ∧
          d.decryptQueue = splitChunks c ((blob.take p).drop (d.chunkId * c)) ∧
          (c ∣ p ∨ blob.length ≤ p) ∧ (d.chunkId * c ≤ p ∨ blob.length ≤ p) := by
        rcases h.shape with hc | hc
        · rw [hstopped] at hc
          cases hc
        · exact hc
      obtain ⟨e, he, hgoode⟩ := chainOk_end c blob.length b _ p _ hchain hgoodp
      simp only []
      split
      · refine ⟨h.size_eq, h.chunk_eq, h.batch_eq, h.resumed, h.log, h.inside, h.idle, ?_,
          h.complete⟩
        right
        exact ⟨p, chainOk_append_eof c blob.length b _ p _ hchain, hqueue, hgoodp, hlow⟩
      · rename_i hsize
        refine ⟨h.size_eq, h.chunk_eq, h.batch_eq, h.resumed, h.log, h.inside, h.idle, ?_,
          h.complete⟩
        right
        refine ⟨p, ?_, hqueue, hgoodp, hlow⟩
        show ChainOk c blob.length b p
          (d.downloadChain ++ [.fetch d.downloadPos
            (min (d.downloadChunkSize : Int) ((d.sizeWithOverhead : Int) - d.downloadPos))])
          (d.downloadPos
            + min (d.downloadChunkSize : Int) ((d.sizeWithOverhead : Int) - d.downloadPos))
        rw [h.size_eq, h.batch_eq, he] at hsize ⊢
        rw [he] at hchain
        have hnonneg : (0 : Int) ≤ (e : Int) + min (b : Int) ((blob.length : Int) - e) := by
          omega
        have hcast : (((e : Int) + min (b : Int) ((blob.length : Int) - e)).toNat : Int)
            = (e : Int) + min (b : Int) ((blob.length : Int) - e) := Int.toNat_of_nonneg hnonneg
        rw [← hcast]
        apply chainOk_append_fetch c blob.length b e _ _ (min_le_left _ _) hcast _ _ _ p
        · exact hchain
        · by_cases hfit : (b : Int) ≤ (blob.length : Int) - e
          · left
            have hlt : ¬ blob.length ≤ e := by
              intro hc
              apply hsize
              omega
            have hce : c ∣ e := by
              rcases hgoode with hc | hc
              · exact hc
              · exact absurd hc hlt
            have : ((e : Int) + min (b : Int) ((blob.length : Int) - e)).toNat = e + b := by
              omega
            rw [this]
            exact Nat.dvd_add hce hdvd
          · right
            omega
        · intro hpos
          have hlt : ¬ blob.length ≤ e := by omega
          refine ⟨?_, by omega⟩
          rcases hgoode with hc | hc
          · exact hc
          · exact absurd hc hlt

/-- While an aligned downloader is not stopped, its queue and chain have the
shape that the alignment describes. -/
theorem aligned_shape (blob : Bytes) (c b w : Nat) (d : FileDownloader)
    (h : d.Aligned blob c b w) (hstopped : d.core.stopped = false) :
    ∃ p : Nat,
      ChainOk c blob.length b p d.downloadChain d.downloadPos ∧
      d.decryptQueue = splitChunks c ((blob.take p).drop (d.chunkId * c)) ∧
      (c ∣ p ∨ blob.length ≤ p) ∧ (d.chunkId * c ≤ p ∨ blob.length ≤ p) := by
  rcases h.shape with hc | hc
  · rw [hstopped] at hc
    cases hc
  · exact hc

/-- A downloader that is stopped stays aligned as long as the sizes, the
nonce counter, the log of decrypt calls and the queue stay as they are. -/
theorem aligned_stopped (blob : Bytes) (c b w : Nat) (d d2 : FileDownloader)
    (h : d.Aligned blob c b w)
    (hsize : d2.sizeWithOverhead = d.sizeWithOverhead)
    (hchunk : d2.chunkSizeWithOverhead = d.chunkSizeWithOverhead)
    (hbatch : d2.downloadChunkSize = d.downloadChunkSize)
    (hid : d2.chunkId = d.chunkId) (hlog : d2.decrypted = d.decrypted)
    (hqueue : d2.decryptQueue = d.decryptQueue) (hstopped : d2.core.stopped = true)
    (hres : ProcessEvent.resolve ∈ d2.core.events → b = 0 ∨ blob.length ≤ d.chunkId * c) :
    d2.Aligned blob c b w := by
  refine ⟨?_, ?_, ?_, ?_, ?_, ?_, ?_, Or.inl hstopped, ?_⟩
  · rw [hsize]; exact h.size_eq
  · rw [hchunk]; exact h.chunk_eq
  · rw [hbatch]; exact h.batch_eq
  · rw [hid]; exact h.resumed
  · rw [hid, hlog]; exact h.log
  · rw [hid]; exact h.inside
  · rw [hid, hqueue]; exact h.idle
  · rw [hid]; exact hres

/-- The method `_decryptChunk` keeps chunks and nonces aligned: the chunk
that it takes off the queue is the chunk of the blob whose number is the
index of the nonce. -/
theorem aligned_decryptChunk (env : DownloadEnv) (blob : Bytes) (c b w : Nat) (hc : 0 < c)
    (d : FileDownloader) (hs : d.Sound) (h : d.Aligned blob c b w) :
    (d._decryptChunk env).1.Aligned blob c b w := by
  by_cases hblocked : d.core.stopped = true ∨ d.writing = true ∨ d.decryptQueue = []
  · rw [decryptChunk_blocked env d hblocked]
    exact h
  · have hstopped : d.core.stopped = false := by
      by_contra hcon
      exact hblocked (Or.inl (by simpa using hcon))
    have hwriting : d.writing = false := by
      by_contra hcon
      exact hblocked (Or.inr (Or.inl (by simpa using hcon)))
    cases hqueue : d.decryptQueue with
    | nil => exact absurd (Or.inr (Or.inr hqueue)) hblocked
    | cons chunk rest =>
      obtain ⟨hq2, hid2, hlog2⟩ := decryptChunk_log env d chunk rest hstopped hwriting hqueue
      obtain ⟨hcore, _, hsz, hch, hb, _, hchain, hpos, _, _, _⟩ := decryptChunk_frame env d
      obtain ⟨p, hok, hsplit, hgoodp, hlow⟩ := aligned_shape blob c b w d h hstopped
      rw [hqueue] at hsplit
      have hX : (blob.take p).drop (d.chunkId * c) ≠ [] := by
        intro hnil
        rw [hnil, splitChunks_nil] at hsplit
        cases hsplit
      rw [splitChunks_cons c hc _ hX] at hsplit
      have hchunk : chunk = ((blob.take p).drop (d.chunkId * c)).take c := (List.cons.inj hsplit).1
      have hrest : rest = splitChunks c (((blob.take p).drop (d.chunkId * c)).drop c) :=
        (List.cons.inj hsplit).2
      have hXlen : 0 < ((blob.take p).drop (d.chunkId * c)).length := List.length_pos.mpr hX
      rw [List.length_drop, List.length_take] at hXlen
      have hlt1 : d.chunkId * c < p := by omega
      have hlt2 : d.chunkId * c < blob.length := by omega
      have hring : (d.chunkId + 1) * c = d.chunkId * c + c := by ring
      have hnext : d.chunkId * c + c ≤ p ∨ blob.length ≤ p := by
        rcases hgoodp with hdvd | hge
        · left
          obtain ⟨q, hq⟩ := hdvd
          have hnq : d.chunkId < q := by
            by_contra hcon
            have hle : q ≤ d.chunkId := by omega
            have := Nat.mul_le_mul_left c hle
            rw [Nat.mul_comm c d.chunkId] at this
            omega
          have := Nat.mul_le_mul_left c (Nat.succ_le_of_lt hnq)
          rw [Nat.succ_eq_add_one, Nat.mul_comm c (d.chunkId + 1)] at this
          omega
        · right
          exact hge
      have hchunk2 : chunk = blobChunk blob c d.chunkId := by
        rw [hchunk]
        exact take_drop_take blob p _ c hnext
      have hw := h.resumed
      refine ⟨?_, ?_, ?_, ?_, ?_, ?_, ?_, ?_, ?_⟩
      · rw [hsz]; exact h.size_eq
      · rw [hch]; exact h.chunk_eq
      · rw [hb]; exact h.batch_eq
      · rw [hid2]; omega
      · rw [hlog2, hid2, h.log, hchunk2]
        have hsucc : d.chunkId + 1 - w = (d.chunkId - w) + 1 := by omega
        have hsum : w + 1 * (d.chunkId - w) = d.chunkId := by omega
        rw [hsucc, List.range'_concat, List.map_append, List.map_singleton, hsum]
      · intro _
        rw [hid2, Nat.add_sub_cancel]
        exact hlt2
      · intro hb0
        have := (h.idle hb0).2
        rw [hqueue] at this
        cases this
      · right
        refine ⟨p, ?_, ?_, hgoodp, ?_⟩
        · rw [hchain, hpos]
          exact hok
        · rw [hq2, hid2, hrest, List.drop_drop, hring]
        · rw [hid2, hring]
          exact hnext
      · intro hres
        rw [hcore] at hres
        have := sound_resolved_stopped d hs hres
        rw [hstopped] at this
        cases this

/-- A response with the bytes of the blob that were asked for keeps chunks
and nonces aligned: the chunks pushed on the queue continue the chunks of
the blob that are waiting there. -/
theorem aligned_land (blob : Bytes) (c b w : Nat) (hc : 0 < c) (d : FileDownloader)
    (hs : d.Sound) (h : d.Aligned blob c b w) (pos size : Int) (rest : List ChainItem)
    (dlChunk : Bytes) (hchain : d.downloadChain = .fetch pos size :: rest)
    (hsize : (dlChunk.length : Int) = size) (hstopped : d.core.stopped = false)
    (hlen : dlChunk.length ≠ 0) (hserved : dlChunk = blobRange blob pos size) :
    FileDownloader.Aligned blob c b w
      { d with downloadChain := rest
               decryptQueue := d.decryptQueue ++ splitChunks d.chunkSizeWithOverhead dlChunk
               activeDownloads := d.activeDownloads - 1 } := by
  obtain ⟨p, hok, hsplit, hgoodp, hlow⟩ := aligned_shape blob c b w d h hstopped
  rw [hchain] at hok
  obtain ⟨hpos, hsz, p2, hp2, hgood2, hin, hrest⟩ := hok
  have hsizepos : 0 < size := by omega
  obtain ⟨hcp, hp2s⟩ := hin hsizepos
  have hp2eq : p2 = p + dlChunk.length := by omega
  have hrange : blobRange blob pos size = (blob.drop p).take dlChunk.length := by
    unfold blobRange
    rw [hpos, ← hsize]
    rfl
  have hdata : dlChunk = (blob.drop p).take dlChunk.length := hserved.trans hrange
  have hnp : d.chunkId * c ≤ p := by
    rcases hlow with h1 | h1
    · exact h1
    · omega
  have hps : p ≤ blob.length := by omega
  have hXlen : ((blob.take p).drop (d.chunkId * c)).length = p - d.chunkId * c := by
    rw [List.length_drop, List.length_take]
    omega
  have hq : ((blob.take p).drop (d.chunkId * c)).length = ((p - d.chunkId * c) / c) * c := by
    rw [hXlen]
    exact (Nat.div_mul_cancel (Nat.dvd_sub' hcp (Dvd.intro_left _ rfl))).symm
  have hnew : (blob.take p2).drop (d.chunkId * c)
      = (blob.take p).drop (d.chunkId * c) ++ dlChunk := by
    rw [hp2eq, take_add_drop,
      List.drop_append_of_le_length (by rw [List.length_take]; omega), ← hdata]
  refine ⟨h.size_eq, h.chunk_eq, h.batch_eq, h.resumed, h.log, h.inside, ?_, ?_, ?_⟩
  · intro hb0
    omega
  · right
    refine ⟨p2, hrest, ?_, hgood2, Or.inl (show d.chunkId * c ≤ p2 by omega)⟩
    show d.decryptQueue ++ splitChunks d.chunkSizeWithOverhead dlChunk
      = splitChunks c ((blob.take p2).drop (d.chunkId * c))
    rw [h.chunk_eq, hnew, splitChunks_append c hc _ _ _ hq, ← hsplit]
  · intro hres
    have := sound_resolved_stopped d hs hres
    rw [hstopped] at this
    cases this

/-- A `_finishProcess` keeps chunks and nonces aligned; when it is the one
that resolves the promise, the caller shows that the whole blob went by. -/
theorem aligned_finish (blob : Bytes) (c b w : Nat) (d : FileDownloader) (err : Thrown)
    (hs : d.Sound) (h : d.Aligned blob c b w)
    (hall : err = .falsy → d.core.stopped = false →
      b = 0 ∨ blob.length ≤ d.chunkId * c) :
    (d._finishProcess err).Aligned blob c b w := by
  rcases finish_cases d err hs with ⟨heq, _⟩ | ⟨hstopped, core, aborted, heq, hstop2, hevents⟩
  · rw [heq]
    exact h
  · rw [heq]
    refine aligned_stopped blob c b w d _ h rfl rfl rfl rfl rfl rfl hstop2 ?_
    intro hres
    have hres2 : ProcessEvent.resolve ∈ core.events := hres
    rw [hevents] at hres2
    by_cases herr : err = .falsy
    · exact hall herr hstopped
    · simp [herr] at hres2

/-- When the end of the data was reached and the queue is empty, every chunk
of the blob was taken off the queue. -/
theorem aligned_drained (blob : Bytes) (c b w : Nat) (d : FileDownloader)
    (hch : d.Chained) (h : d.Aligned blob c b w) (heof : d.downloadEof = true)
    (hqueue : d.decryptQueue = []) (hstopped : d.core.stopped = false) :
    b = 0 ∨ blob.length ≤ d.chunkId * c := by
  obtain ⟨p, hok, hsplit, hgoodp, hlow⟩ := aligned_shape blob c b w d h hstopped
  obtain ⟨hnil, hmore⟩ := hch.closed heof
  rw [hnil] at hok
  have hpos : d.downloadPos = (p : Int) := hok
  have hmin := hch.no_more hmore
  rw [h.batch_eq, h.size_eq, hpos] at hmin
  rw [hqueue] at hsplit
  have hX := splitChunks_eq_nil c _ hsplit.symm
  have hXlen : ((blob.take p).drop (d.chunkId * c)).length = 0 := by rw [hX]; rfl
  rw [List.length_drop, List.length_take] at hXlen
  omega

/-- Every move keeps chunks and nonces aligned, when every response brings
the bytes of the blob that were asked for. -/
theorem aligned_move (env : DownloadEnv) (blob : Bytes) (c b w : Nat) (hc : 0 < c)
    (hdvd : c ∣ b) (d d2 : FileDownloader) (hs : d.Sound) (hch : d.Chained)
    (h : d.Aligned blob c b w)
    (hmove : FileDownloader.Move env (fun pos size dlChunk => dlChunk = blobRange blob pos size)
      d d2) :
    d2.Aligned blob c b w := by
  cases hmove with
  | fail err herr => exact aligned_finish blob c b w d err hs h (fun hcon => absurd hcon herr)
  | succeed heof hqueue hwriting =>
    exact aligned_finish blob c b w d .falsy hs h
      (fun _ hstopped => aligned_drained blob c b w d hch h heof hqueue hstopped)
  | schedule =>
    exact ⟨h.size_eq, h.chunk_eq, h.batch_eq, h.resumed, h.log, h.inside, h.idle, h.shape,
      h.complete⟩
  | timerPop =>
    exact ⟨h.size_eq, h.chunk_eq, h.batch_eq, h.resumed, h.log, h.inside, h.idle, h.shape,
      h.complete⟩
  | download => exact aligned_downloadChunk blob c b w hdvd d h
  | decrypt _ hres =>
    have := aligned_decryptChunk env blob c b w hc d hs h
    rw [hres] at this
    exact this
  | decryptFail d1 err hres =>
    have hs1 : d1.Sound := by
      have := sound_decryptChunk env d hs
      rw [hres] at this
      exact this
    have h1 : d1.Aligned blob c b w := by
      have := aligned_decryptChunk env blob c b w hc d hs h
      rw [hres] at this
      exact this
    unfold FileDownloader._error
    apply aligned_finish blob c b w d1 _ hs1 h1
    intro hcon
    simp at hcon
  | land pos size rest dlChunk hchain hsize hstopped hlen hserved =>
    exact aligned_land blob c b w hc d hs h pos size rest dlChunk hchain hsize hstopped hlen
      hserved
  | skip pos size rest hchain hstopped =>
    exact aligned_stopped blob c b w d _ h rfl rfl rfl rfl rfl rfl hstopped h.complete
  | dropFail pos size rest err hchain herr =>
    have hs1 : FileDownloader.Sound { d with downloadChain := rest } :=
      ⟨hs.stopped_eq, hs.started, hs.write_le, hs.write_flag, hs.quiet, hs.resolved⟩
    rcases finish_cases _ err hs1 with ⟨heq, hstop⟩ | ⟨_, core, aborted, heq, hstop2, hevents⟩
    · rw [heq]
      exact aligned_stopped blob c b w d _ h rfl rfl rfl rfl rfl rfl hstop h.complete
    · rw [heq]
      refine aligned_stopped blob c b w d _ h rfl rfl rfl rfl rfl rfl hstop2 ?_
      intro hres
      have hres2 : ProcessEvent.resolve ∈ core.events := hres
      rw [hevents] at hres2
      simp [herr] at hres2
  | eof rest hchain =>
    refine ⟨h.size_eq, h.chunk_eq, h.batch_eq, h.resumed, h.log, h.inside, h.idle, ?_,
      h.complete⟩
    rcases h.shape with hstop | ⟨p, hok, hrest⟩
    · exact Or.inl hstop
    · right
      rw [hchain] at hok
      exact ⟨p, hok, hrest⟩
  | writeEnd hflight =>
    exact ⟨h.size_eq, h.chunk_eq, h.batch_eq, h.resumed, h.log, h.inside, h.idle, h.shape,
      h.complete⟩
  | writeFail hflight =>
    exact ⟨h.size_eq, h.chunk_eq, h.batch_eq, h.resumed, h.log, h.inside, h.idle, h.shape,
      h.complete⟩
  | xhrs open_ =>
    exact ⟨h.size_eq, h.chunk_eq, h.batch_eq, h.resumed, h.log, h.inside, h.idle, h.shape,
      h.complete⟩

/-- A downloader that was just constructed, with a new nonce generator, and
started is aligned: nothing was decrypted, and the first request will start
at the first byte of chunk `wholeChunks`. -/
theorem aligned_start (config : DownloadConfig) (file : FileInfo) (blob : Bytes)
    (streamCloseThrows : Bool) (resumeParams : Option ResumeParams)
    (hsize : file.sizeWithOverhead = blob.length) :
    (FileDownloader.new config file streamCloseThrows 0 resumeParams).start.Aligned blob
      (file.chunkSize + config.chunkOverhead)
      (config.maxDownloadChunkSize / (file.chunkSize + config.chunkOverhead)
        * (file.chunkSize + config.chunkOverhead))
      (startChunk resumeParams) := by
  cases resumeParams with
  | none =>
    refine ⟨hsize, rfl, rfl, Nat.le_refl _, rfl, fun hcon => absurd hcon (Nat.lt_irrefl _),
      fun _ => ⟨rfl, rfl⟩, ?_, ?_⟩
    · right
      refine ⟨0, rfl, ?_, Or.inl (Nat.dvd_zero _), Or.inl (Nat.le_of_eq (Nat.zero_mul _))⟩
      show ([] : List Bytes) = _
      rw [List.take_zero, List.drop_nil, splitChunks_nil]
    · intro hcon
      cases hcon
  | some r =>
    refine ⟨hsize, rfl, rfl, Nat.le_refl _, ?_, fun hcon => absurd hcon (Nat.lt_irrefl _),
      fun _ => ⟨rfl, rfl⟩, ?_, ?_⟩
    · show ([] : List (Nat × Bytes))
        = List.map _ (List.range' r.wholeChunks (r.wholeChunks - r.wholeChunks))
      rw [Nat.sub_self]
      rfl
    · right
      refine ⟨r.wholeChunks * (file.chunkSize + config.chunkOverhead), ?_, ?_,
        Or.inl (Dvd.intro_left _ rfl), Or.inl (Nat.le_refl _)⟩
      · show ((file.chunkSize + config.chunkOverhead : Nat) : Int) * (r.wholeChunks : Int)
          = ((r.wholeChunks * (file.chunkSize + config.chunkOverhead) : Nat) : Int)
        rw [Nat.cast_mul, Int.mul_comm]
      · show ([] : List Bytes) = _
        rw [List.drop_eq_nil_of_le (by rw [List.length_take]; exact Nat.min_le_left _ _),
          splitChunks_nil]
    · intro hcon
      cases hcon

/-- A run whose responses are honest is a run that serving the bytes of the
blob allows. -/
theorem honest_allowed (env : DownloadEnv) (blob : Bytes) (events : List DownloadEvent) :
    ∀ d : FileDownloader, FileDownloader.honest env blob d events = true →
      d.AllowedRun env (fun pos size dlChunk => dlChunk = blobRange blob pos size) events := by
  induction events with
  | nil => intro d _; trivial
  | cons e rest ih =>
    intro d h
    unfold FileDownloader.honest at h
    rw [Bool.and_eq_true] at h
    refine ⟨?_, ih _ h.2⟩
    have h1 := h.1
    cases e with
    | fetched dlChunk =>
      unfold FileDownloader.Allowed
      cases hchain : d.downloadChain with
      | nil => trivial
      | cons item others =>
        cases item with
        | eof => trivial
        | fetch pos size =>
          rw [hchain] at h1
          simpa using h1
    | _ => trivial

/-- After every run with honest responses, of a downloader constructed with a
new nonce generator and started, the downloader is sound, its chain is in
order, chunks and nonces are aligned, and the chunks written are the plain
chunks of the decrypt calls. -/
theorem aligned_run (env : DownloadEnv) (config : DownloadConfig) (file : FileInfo)
    (blob : Bytes) (streamCloseThrows : Bool) (resumeParams : Option ResumeParams)
    (events : List DownloadEvent) (hc : 0 < file.chunkSize + config.chunkOverhead)
    (hsize : file.sizeWithOverhead = blob.length)
    (hhonest : FileDownloader.honest env blob
      (FileDownloader.new config file streamCloseThrows 0 resumeParams).start events = true) :
    ((FileDownloader.new config file streamCloseThrows 0 resumeParams).start.run env events).Sound ∧
    ((FileDownloader.new config file streamCloseThrows 0 resumeParams).start.run env
      events).Chained ∧
    ((FileDownloader.new config file streamCloseThrows 0 resumeParams).start.run env
      events).Aligned blob (file.chunkSize + config.chunkOverhead)
        (config.maxDownloadChunkSize / (file.chunkSize + config.chunkOverhead)
          * (file.chunkSize + config.chunkOverhead))
        (startChunk resumeParams) ∧
    ((FileDownloader.new config file streamCloseThrows 0 resumeParams).start.run env
      events).Writes env (startPartial resumeParams) := by
  have hrun := run_invariant env (fun pos size dlChunk => dlChunk = blobRange blob pos size)
    (fun d => d.Chained ∧
      d.Aligned blob (file.chunkSize + config.chunkOverhead)
        (config.maxDownloadChunkSize / (file.chunkSize + config.chunkOverhead)
          * (file.chunkSize + config.chunkOverhead))
        (startChunk resumeParams) ∧
      d.Writes env (startPartial resumeParams))
    (fun d d2 hs hgood hmove =>
      ⟨chained_move env _ d d2 hgood.1 hmove,
        aligned_move env blob _ _ _ hc (Dvd.intro_left _ rfl) d d2 hs hgood.1 hgood.2.1 hmove,
        writes_move env _ _ d d2 hs hgood.2.2 hmove⟩)
    events _ (sound_start config file streamCloseThrows 0 resumeParams)
    ⟨chained_start config file streamCloseThrows 0 resumeParams,
      aligned_start config file blob streamCloseThrows resumeParams hsize,
      writes_start env config file streamCloseThrows 0 resumeParams⟩
    (honest_allowed env blob events _ hhonest)
  exact ⟨hrun.1, hrun.2.1, hrun.2.2.1, hrun.2.2.2⟩

/-- C15: `getNextNonce` being a counter `chunkId`, the constructor called
with resume parameters sets `chunkId = wholeChunks` and `downloadPos =
progress = (chunkSize + overhead) × wholeChunks`; and after every run, whose
requests resolve with the bytes of the blob that they asked for, of a
download from scratch (`w = 0`) or resumed with `wholeChunks = w`, every call
of `secret.decrypt` with the nonce of index `i` was for the chunk stored at
offset `i × (chunkSize + overhead)` of the blob, with `i ≥ w`: the calls were
for the chunks `w`, `w + 1`, ..., `chunkId - 1`, in this order. -/
theorem nonce_chunk_alignment (env : DownloadEnv) (config : DownloadConfig) (file : FileInfo)
    (blob : Bytes) (streamCloseThrows : Bool) (resumeParams : Option ResumeParams)
    (events : List DownloadEvent) (hc : 0 < file.chunkSize + config.chunkOverhead)
    (hsize : file.sizeWithOverhead = blob.length)
    (hhonest : FileDownloader.honest env blob
      (FileDownloader.new config file streamCloseThrows 0 resumeParams).start events = true) :
    (∀ (chunkId : Nat) (r : ResumeParams),
      (FileDownloader.new config file streamCloseThrows chunkId (some r)).chunkId
        = r.wholeChunks ∧
      (FileDownloader.new config file streamCloseThrows chunkId (some r)).downloadPos
        = ((file.chunkSize + config.chunkOverhead : Nat) : Int) * (r.wholeChunks : Int) ∧
      (FileDownloader.new config file streamCloseThrows chunkId (some r)).progress
        = ((file.chunkSize + config.chunkOverhead : Nat) : Int) * (r.wholeChunks : Int)) ∧
    (FileDownloader.new config file streamCloseThrows 0 resumeParams).start.chunkId
      = startChunk resumeParams ∧
    (∀ (i : Nat) (chunk : Bytes),
      (i, chunk) ∈ ((FileDownloader.new config file streamCloseThrows 0 resumeParams).start.run
        env events).decrypted →
      startChunk resumeParams ≤ i ∧
      chunk = (blob.drop (i * (file.chunkSize + config.chunkOverhead))).take
        (file.chunkSize + config.chunkOverhead)) ∧
    ((FileDownloader.new config file streamCloseThrows 0 resumeParams).start.run
        env events).decrypted
      = (List.range' (startChunk resumeParams)
          (((FileDownloader.new config file streamCloseThrows 0 resumeParams).start.run
            env events).chunkId - startChunk resumeParams)).map
          (fun i => (i, blobChunk blob (file.chunkSize + config.chunkOverhead) i)) := by
  have hrun := (aligned_run env config file blob streamCloseThrows resumeParams events hc hsize
    hhonest).2.2.1
  refine ⟨fun _ _ => ⟨rfl, rfl, rfl⟩, ?_, ?_, hrun.log⟩
  · cases resumeParams <;> rfl
  · intro i chunk hmem
    rw [hrun.log, List.mem_map] at hmem
    obtain ⟨j, hj, heq⟩ := hmem
    have hji : j = i := (Prod.mk.inj heq).1
    have hchunk := (Prod.mk.inj heq).2
    rw [List.mem_range'_1] at hj
    subst hji
    exact ⟨hj.1, hchunk.symm⟩

/-- C15 at concrete runs: in the small download from scratch the chunks at
offsets 0, 4 and 8 of the blob are decrypted with the nonces 0, 1 and 2; in
the small download resumed after one chunk, the chunks at offsets 4 and 8
are decrypted with the nonces 1 and 2. -/
theorem nonce_chunk_alignment_witness :
    (smallDownload.run stripEnv smallRun).decrypted
      = [(0, [10, 11, 12, 13]), (1, [14, 15, 16, 17]), (2, [18, 19])] ∧
    (resumedDownload.run stripEnv resumedRun).decrypted
      = [(1, [14, 15, 16, 17]), (2, [18, 19])] ∧
    (∀ (i : Nat) (chunk : Bytes),
      (i, chunk) ∈ (smallDownload.run stripEnv smallRun).decrypted →
      0 ≤ i ∧ chunk = (smallBlob.drop (i * 4)).take 4) ∧
    (∀ (i : Nat) (chunk : Bytes),
      (i, chunk) ∈ (resumedDownload.run stripEnv resumedRun).decrypted →
      1 ≤ i ∧ chunk = (smallBlob.drop (i * 4)).take 4) :=
  ⟨rfl, rfl,
    (nonce_chunk_alignment stripEnv smallConfig smallFile smallBlob false none smallRun
      (by decide) rfl (by decide)).2.2.1,
    (nonce_chunk_alignment stripEnv smallConfig smallFile smallBlob false
      (some { partialChunkSize := 0, wholeChunks := 1 }) resumedRun
      (by decide) rfl (by decide)).2.2.1⟩

/-- The numbers from `s` on, without the first `k` of them. -/
theorem range_drop (s n k : Nat) :
    (List.range' s n).drop k = List.range' (s + k) (n - k) := by
  by_cases h : k ≤ n
  · have happ := List.range'_append s k (n - k) 1
    rw [Nat.sub_add_cancel h, Nat.one_mul] at happ
    rw [← happ, List.drop_append_of_le_length (by rw [List.length_range']),
      List.drop_eq_nil_of_le (by rw [List.length_range']), List.nil_append]
  · have hn : n - k = 0 := by omega
    rw [hn, List.drop_eq_nil_of_le (by rw [List.length_range']; omega)]
    rfl

/-- With nothing to discard, the expected writes are the plain chunks. -/
theorem expectedWrites_zero (env : DownloadEnv) (log : List (Nat × Bytes)) :
    expectedWrites env 0 log = log.map env.plain := by
  cases log with
  | nil => rfl
  | cons first rest =>
    show (env.plain first).map (List.drop 0) :: rest.map env.plain
      = env.plain first :: rest.map env.plain
    cases env.plain first <;> rfl

/-- The chunks that an aligned download without a partial chunk has written
are the plain chunks of the chunks of the blob from chunk `w` on; all of
them up to chunk `chunkId` once the promise is resolved. -/
theorem written_plain (env : DownloadEnv) (blob : Bytes) (c b w : Nat) (d : FileDownloader)
    (hA : d.Aligned blob c b w) (hW : d.Writes env 0) :
    d.written.map some
      = ((List.range' w (d.chunkId - w)).map
          (fun i => env.plain (i, blobChunk blob c i))).take d.written.length ∧
    d.written.length ≤ d.chunkId - w ∧
    (ProcessEvent.resolve ∈ d.core.events → d.written.length = d.chunkId - w) := by
  have hlen : d.decrypted.length = d.chunkId - w := by
    rw [hA.log, List.length_map, List.length_range']
  refine ⟨?_, ?_, ?_⟩
  · rw [hW.written_eq, expectedWrites_zero, hA.log, List.map_map]
    rfl
  · rw [← hlen]
    exact hW.written_le
  · intro hres
    rw [← hlen]
    exact hW.resolved hres

/-- The chunks that a download resumed at chunk `k` has written are the
first of the chunks that a complete download from scratch writes after its
first `k`; they are all of them once the promise of the resumed download is
resolved. -/
theorem resumed_written (env : DownloadEnv) (blob : Bytes) (c b k : Nat)
    (ds dr : FileDownloader) (hAs : ds.Aligned blob c b 0) (hWs : ds.Writes env 0)
    (hAr : dr.Aligned blob c b k) (hWr : dr.Writes env 0)
    (hres : ProcessEvent.resolve ∈ ds.core.events) :
    dr.written = (ds.written.drop k).take dr.written.length ∧
    (ProcessEvent.resolve ∈ dr.core.events → dr.written = ds.written.drop k) := by
  obtain ⟨hs1, _, hs3⟩ := written_plain env blob c b 0 ds hAs hWs
  obtain ⟨hr1, hr2, hr3⟩ := written_plain env blob c b k dr hAr hWr
  have hslen : ds.written.length = ds.chunkId := hs3 hres
  rw [hslen, Nat.sub_zero,
    List.take_of_length_le (by rw [List.length_map, List.length_range'])] at hs1
  have hnN : dr.chunkId - k ≤ ds.chunkId - k := by
    rcases hAs.complete hres with hb | hfull
    · have := (hAr.idle hb).1
      omega
    · by_cases hk : k < dr.chunkId
      · have hin := hAr.inside hk
        have hlt : (dr.chunkId - 1) * c < ds.chunkId * c := by omega
        have := Nat.lt_of_mul_lt_mul_right hlt
        omega
      · omega
  have hdrop : (ds.written.drop k).map some
      = (List.range' k (ds.chunkId - k)).map (fun i => env.plain (i, blobChunk blob c i)) := by
    rw [List.map_drop, hs1, ← List.map_drop, range_drop, Nat.zero_add]
  have hsplit : List.range' k (ds.chunkId - k)
      = List.range' k (dr.chunkId - k)
        ++ List.range' (k + (dr.chunkId - k)) (ds.chunkId - k - (dr.chunkId - k)) := by
    have happ := List.range'_append k (dr.chunkId - k) (ds.chunkId - k - (dr.chunkId - k)) 1
    rw [Nat.sub_add_cancel hnN, Nat.one_mul] at happ
    exact happ.symm
  have hprefix : dr.written.map some
      = ((ds.written.drop k).take dr.written.length).map some := by
    rw [List.map_take, hdrop, hsplit, List.map_append,
      List.take_append_of_le_length (by rw [List.length_map, List.length_range']; exact hr2)]
    exact hr1
  have hfirst := List.map_injective_iff.mpr (Option.some_injective _) hprefix
  refine ⟨hfirst, ?_⟩
  intro hres2
  have hrlen := hr3 hres2
  have hNn : ds.chunkId - k ≤ dr.chunkId - k := by
    rcases hAr.complete hres2 with hb | hfull
    · have := (hAs.idle hb).1
      omega
    · by_cases hk : 0 < ds.chunkId
      · have hin := hAs.inside hk
        have hlt : (ds.chunkId - 1) * c < dr.chunkId * c := by omega
        have := Nat.lt_of_mul_lt_mul_right hlt
        omega
      · omega
  exact hfirst.trans (List.take_of_length_le (by rw [List.length_drop, hrlen, hslen]; exact hNn))

/-- The bytes of a list of chunks after its first `k` chunks, when each of
these has `n` bytes, are its bytes from byte `k * n` on. -/
theorem flatten_drop (n : Nat) : ∀ (chunks : List Bytes) (k : Nat),
    (∀ chunk ∈ chunks.take k, chunk.length = n) →
      (chunks.drop k).flatten = chunks.flatten.drop (k * n)
  | [], k => by
    intro _
    simp
  | x :: xs, 0 => by
    intro _
    simp
  | x :: xs, k + 1 => by
    intro h
    have hx : x.length = n := h x (by simp)
    have hrest : ∀ chunk ∈ xs.take k, chunk.length = n :=
      fun chunk hm => h chunk (by simp [hm])
    have hmul : (k + 1) * n = x.length + k * n := by
      rw [hx]
      ring
    rw [List.drop_succ_cons, List.flatten_cons, hmul, List.drop_append,
      flatten_drop n xs k hrest]

/-- C19: take a file whose stored bytes are `blob`, a complete download of
it from scratch (its promise is resolved) and a download of it started with
`{ wholeChunks: k, partialChunkSize: 0 }`, both with requests that resolve
with the bytes that they asked for. The chunks that the resumed download has
written are the first of the chunks that the download from scratch wrote
after its first `k`; once the promise of the resumed download is resolved,
they are all of them, and then, the first `k` chunks written from scratch
having `chunkSize` bytes each, the bytes written by the resumed download are
the bytes written from scratch from offset `k × chunkSize` on. -/
theorem resume_idempotence (env : DownloadEnv) (config : DownloadConfig) (file : FileInfo)
    (blob : Bytes) (closeThrows closeThrowsResumed : Bool) (k : Nat)
    (scratchRun resumeRun : List DownloadEvent)
    (hc : 0 < file.chunkSize + config.chunkOverhead)
    (hsize : file.sizeWithOverhead = blob.length)
    (hscratch : FileDownloader.honest env blob
      (FileDownloader.new config file closeThrows 0 none).start scratchRun = true)
    (hresumed : FileDownloader.honest env blob
      (FileDownloader.new config file closeThrowsResumed 0
        (some { partialChunkSize := 0, wholeChunks := k })).start resumeRun = true)
    (hres : ProcessEvent.resolve ∈
      ((FileDownloader.new config file closeThrows 0 none).start.run env
        scratchRun).core.events) :
    ((FileDownloader.new config file closeThrowsResumed 0
        (some { partialChunkSize := 0, wholeChunks := k })).start.run env resumeRun).written
      = ((((FileDownloader.new config file closeThrows 0 none).start.run env
            scratchRun).written).drop k).take
          ((FileDownloader.new config file closeThrowsResumed 0
            (some { partialChunkSize := 0, wholeChunks := k })).start.run env
              resumeRun).written.length ∧
    (ProcessEvent.resolve ∈
        ((FileDownloader.new config file closeThrowsResumed 0
          (some { partialChunkSize := 0, wholeChunks := k })).start.run env
            resumeRun).core.events →
      ((FileDownloader.new config file closeThrowsResumed 0
          (some { partialChunkSize := 0, wholeChunks := k })).start.run env resumeRun).written
        = (((FileDownloader.new config file closeThrows 0 none).start.run env
            scratchRun).written).drop k ∧
      ((∀ chunk ∈ (((FileDownloader.new config file closeThrows 0 none).start.run env
            scratchRun).written).take k, chunk.length = file.chunkSize) →
        ((FileDownloader.new config file closeThrowsResumed 0
            (some { partialChunkSize := 0, wholeChunks := k })).start.run env resumeRun).output
          = (((FileDownloader.new config file closeThrows 0 none).start.run env
              scratchRun).output).drop (k * file.chunkSize))) := by
  obtain ⟨_, _, hAs, hWs⟩ :=
    aligned_run env config file blob closeThrows none scratchRun hc hsize hscratch
  obtain ⟨_, _, hAr, hWr⟩ :=
    aligned_run env config file blob closeThrowsResumed
      (some { partialChunkSize := 0, wholeChunks := k }) resumeRun hc hsize hresumed
  obtain ⟨hfirst, hall⟩ := resumed_written env blob _ _ k _ _ hAs hWs hAr hWr hres
  refine ⟨hfirst, fun hres2 => ⟨hall hres2, fun hwhole => ?_⟩⟩
  unfold FileDownloader.output
  rw [hall hres2]
  exact flatten_drop file.chunkSize _ k hwhole

/-- C19 at concrete runs: the small download from scratch writes the chunks
`[11, 12, 13]`, `[15, 16, 17]` and `[19]`; resumed after one chunk it writes
`[15, 16, 17]` and `[19]`, the bytes written from scratch from offset 3 on. -/
theorem resume_idempotence_witness :
    (smallDownload.run stripEnv smallRun).written = [[11, 12, 13], [15, 16, 17], [19]] ∧
    (resumedDownload.run stripEnv resumedRun).written = [[15, 16, 17], [19]] ∧
    ProcessEvent.resolve ∈ (smallDownload.run stripEnv smallRun).core.events ∧
    ProcessEvent.resolve ∈ (resumedDownload.run stripEnv resumedRun).core.events ∧
    (resumedDownload.run stripEnv resumedRun).written
      = ((smallDownload.run stripEnv smallRun).written).drop 1 ∧
    (resumedDownload.run stripEnv resumedRun).output
      = ((smallDownload.run stripEnv smallRun).output).drop (1 * 3) :=
  have h := (resume_idempotence stripEnv smallConfig smallFile smallBlob false false 1
    smallRun resumedRun (by decide) rfl (by decide) (by decide) (by decide)).2 (by decide)
  ⟨rfl, rfl, by decide, by decide, h.1, h.2 (by decide)⟩

/-! ## Properties of `errors.normalize` -/

/-- C26: `normalize(x, m)` returns `x` itself when `x` is an instance of
`Error`, and a new `Error` with message `m` when `x` is falsy or any other
value; the result is an `Error` in each case. -/
theorem normalize_error (err : JsError) (description m : String) :
    normalize (.error err) (some m) = err ∧
    normalize .falsy (some m) = .error m ∧
    normalize (.other description) (some m) = .error m :=
  ⟨rfl, rfl, rfl⟩

/-! ## Properties of random nonces -/

/-- The operator `>>>` with a count of 32 shifts by nothing. -/
theorem ushr_32 (x : Nat) : ushr x 32 = x % 2 ^ 32 := by
  unfold ushr
  rfl

/-- The operator `>>>` as a division. -/
theorem ushr_eq (x count : Nat) (h : count < 32) : ushr x count = x % 2 ^ 32 / 2 ^ count := by
  unfold ushr
  rw [Nat.shiftRight_eq_div_pow, Nat.mod_eq_of_lt h]

/-- The expression `x & 0xff` as a remainder. -/
theorem and0xff_eq (x : Nat) : and0xff x = x % 2 ^ 32 % 256 := by
  unfold and0xff
  exact Nat.and_pow_two_sub_one_eq_mod _ 8

/-- The bytes that `numberToByteArray` gives for a number below `2^32`: its
little-endian encoding. -/
theorem numberToByteArray_eq (num : Nat) (h : num < 2 ^ 32) :
    numberToByteArray num
      = [num % 256, num / 2 ^ 8 % 256, num / 2 ^ 16 % 256, num / 2 ^ 24] := by
  unfold numberToByteArray
  rw [and0xff_eq, and0xff_eq, and0xff_eq, ushr_eq num 8 (by omega), ushr_eq num 16 (by omega),
    ushr_eq num 24 (by omega), Nat.mod_eq_of_lt h]
  have h8 : num / 2 ^ 8 < 2 ^ 32 := lt_of_le_of_lt (Nat.div_le_self _ _) h
  have h16 : num / 2 ^ 16 < 2 ^ 32 := lt_of_le_of_lt (Nat.div_le_self _ _) h
  rw [Nat.mod_eq_of_lt h8, Nat.mod_eq_of_lt h16]

/-- C27: for every timestamp `now` and every 20 random bytes `r`,
`getRandomNonce` returns 24 bytes, each in `0..255`: the first four are the
little-endian encoding of `now mod 2^32`, the least significant byte first,
and the bytes 4 to 23 are `r`. -/
theorem getRandomNonce_layout (now : Nat) (getRandomBytes : Nat → Except JsError Bytes)
    (r : Bytes) (hrandom : getRandomBytes 20 = .ok r) (hlen : r.length = 20)
    (hbytes : ∀ b ∈ r, b < 256) :
    getRandomNonce now getRandomBytes
      = .ok ([now % 2 ^ 32 % 256, now % 2 ^ 32 / 2 ^ 8 % 256, now % 2 ^ 32 / 2 ^ 16 % 256,
          now % 2 ^ 32 / 2 ^ 24] ++ r) ∧
    ([now % 2 ^ 32 % 256, now % 2 ^ 32 / 2 ^ 8 % 256, now % 2 ^ 32 / 2 ^ 16 % 256,
        now % 2 ^ 32 / 2 ^ 24] ++ r).length = 24 ∧
    (∀ b ∈ [now % 2 ^ 32 % 256, now % 2 ^ 32 / 2 ^ 8 % 256, now % 2 ^ 32 / 2 ^ 16 % 256,
        now % 2 ^ 32 / 2 ^ 24] ++ r, b < 256) ∧
    now % 2 ^ 32 % 256 + 2 ^ 8 * (now % 2 ^ 32 / 2 ^ 8 % 256)
      + 2 ^ 16 * (now % 2 ^ 32 / 2 ^ 16 % 256) + 2 ^ 24 * (now % 2 ^ 32 / 2 ^ 24)
      = now % 2 ^ 32 := by
  have hlt : now % 2 ^ 32 < 2 ^ 32 := Nat.mod_lt _ (by norm_num)
  have hmap : r.map (fun v => v % 256) = r := by
    have : ∀ b ∈ r, (fun v => v % 256) b = id b := fun b hb => Nat.mod_eq_of_lt (hbytes b hb)
    rw [List.map_congr_left this, List.map_id]
  have hfirst : Uint8Array.set (List.replicate 24 0) (numberToByteArray (ushr now 32)) 0
      = .ok ([now % 2 ^ 32 % 256, now % 2 ^ 32 / 2 ^ 8 % 256, now % 2 ^ 32 / 2 ^ 16 % 256,
          now % 2 ^ 32 / 2 ^ 24] ++ List.replicate 20 0) := by
    rw [ushr_32, numberToByteArray_eq _ hlt]
    have h3 : now % 2 ^ 32 / 2 ^ 24 % 256 = now % 2 ^ 32 / 2 ^ 24 := by
      apply Nat.mod_eq_of_lt
      omega
    simp only [Uint8Array.set, List.length_cons, List.length_nil, List.length_replicate,
      List.map_cons, List.map_nil, Nat.mod_mod, h3]
    rfl
  refine ⟨?_, ?_, ?_, ?_⟩
  · unfold getRandomNonce
    rw [hfirst, hrandom]
    show Uint8Array.set _ r 4 = _
    simp [Uint8Array.set, hlen, hmap]
  · simp [hlen]
  · intro b hb
    rw [List.mem_append] at hb
    rcases hb with hb | hb
    · simp only [List.mem_cons, List.mem_singleton, List.not_mem_nil, or_false] at hb
      rcases hb with hb | hb | hb | hb <;> omega
    · exact hbytes b hb
  · omega

/-- C27 at a concrete call: at the timestamp `1700000000000` the first four
bytes are `0, 104, 229, 207`, the bytes of `1700000000000 mod 2^32 =
3487918080`, and the random bytes follow. -/
theorem getRandomNonce_layout_witness :
    getRandomNonce 1700000000000 (fun n => .ok (List.replicate n 7))
      = .ok ([0, 104, 229, 207] ++ List.replicate 20 7) ∧
    0 + 2 ^ 8 * 104 + 2 ^ 16 * 229 + 2 ^ 24 * 207 = 1700000000000 % 2 ^ 32 :=
  have h := getRandomNonce_layout 1700000000000 (fun n => .ok (List.replicate n 7))
    (List.replicate 20 7) rfl (by decide) (by decide)
  ⟨h.1, h.2.2.2⟩

/-! ## Properties of the mail store -/

/-- C29 fails on the empty list and on every list of one mail: `reduce` is
called without an initial value, so `selectedCount` throws a `TypeError` for
no mails, where `getSelectedMails()` has length 0, and returns the `Mail`
object itself for one mail, not the number of selected mails; for two
selected mails whose objects turn into the string `[object Object]`, it
returns the string `[object Object]1`, where `getSelectedMails()` has length
2. -/
theorem selectedCount_not_a_count (toPrimitive : Mail → JsPrim) (m : Mail) :
    MailStore.selectedCount toPrimitive [] = .error .typeError ∧
    (MailStore.getSelectedMails []).length = 0 ∧
    MailStore.selectedCount toPrimitive [m] = .ok (.mail m) ∧
    MailStore.selectedCount toPrimitive [m]
      ≠ .ok (.prim (.num (MailStore.getSelectedMails [m]).length)) ∧
    MailStore.selectedCount (fun _ => .str "[object Object]")
        [{ subject := "a", selected := true }, { subject := "b", selected := true }]
      = .ok (.prim (.str "[object Object]1")) ∧
    (MailStore.getSelectedMails
      [{ subject := "a", selected := true }, { subject := "b", selected := true }]).length = 2 := by
  refine ⟨rfl, rfl, rfl, ?_, ?_, rfl⟩
  · intro h
    cases h
  · simp [MailStore.selectedCount, reduceMails, jsPlus]
    decide

/-! ## Properties of username suggestions -/

/-- C30 fails for a name with a vertical bar: the character class of the
`replace` lists `|` among the characters to keep, so for the first name
`a|b`, the last name `c` and a server that answers every request with
`true`, the suggestions are `a|b`, `a|bc` and `a|b_c`, which contain a
character that the username format check does not accept. In a Turkic locale
the first name `Isa` gives the suggestion `ısa`, with the dotless `ı`. -/
theorem suggestUsername_keeps_bar :
    suggestUsername 16 (fun s => String.mk (s.data.take 1)) false (fun _ _ => true) "a|b" "c"
      = ["a|b", "a|bc", "a|b_c"] ∧
    '|' ∈ "a|b".data ∧ isUsernameChar '|' = false ∧
    suggestUsername 16 (fun s => String.mk (s.data.take 1)) true (fun _ _ => true) "Isa" ""
      = ["ısa", "ısa", "ısa_"] ∧
    'ı' ∈ "ısa".data ∧ isUsernameChar 'ı' = false := by
  refine ⟨by decide, by decide, by decide, by decide, by decide, by decide⟩

/-- The loop of `suggestUsername` ends with at most 3 suggestions. -/
theorem suggestLoop_length (turkic : Bool) (server : Nat → String → Bool) :
    ∀ (options : List (List Char)) (request : Nat) (suggestions : List String),
      suggestions.length ≤ 3 → (suggestLoop turkic server request options suggestions).length ≤ 3
  | [], _, suggestions => by
    intro h
    exact h
  | option :: rest, request, suggestions => by
    intro h
    unfold suggestLoop
    split
    · exact h
    · rename_i hlt
      simp only []
      split
      · apply suggestLoop_length turkic server rest
        rw [List.length_append, List.length_singleton]
        omega
      · exact suggestLoop_length turkic server rest _ _ h

/-- Every suggestion that the loop of `suggestUsername` adds is an option in
lower case that is not empty. -/
theorem suggestLoop_mem (turkic : Bool) (server : Nat → String → Bool) (good : String → Prop) :
    ∀ (options : List (List Char)) (request : Nat) (suggestions : List String),
      (∀ s ∈ suggestions, good s) →
      (∀ option ∈ options, toLocaleLowerCase turkic option ≠ [] →
        good (String.mk (toLocaleLowerCase turkic option))) →
      ∀ s ∈ suggestLoop turkic server request options suggestions, good s
  | [], _, suggestions => by
    intro h _
    exact h
  | option :: rest, request, suggestions => by
    intro h hoptions
    unfold suggestLoop
    split
    · exact h
    · simp only []
      split
      · rename_i havailable
        apply suggestLoop_mem turkic server good rest
        · intro s hs
          rw [List.mem_append, List.mem_singleton] at hs
          rcases hs with hs | hs
          · exact h s hs
          · rw [hs]
            apply hoptions option (List.mem_cons_self _ _)
            intro hnil
            simp [isValidSignupUsernameSuggestion, hnil] at havailable
        · exact fun o ho => hoptions o (List.mem_cons_of_mem _ ho)
      · exact suggestLoop_mem turkic server good rest _ _ h
          (fun o ho => hoptions o (List.mem_cons_of_mem _ ho))

/-- Outside a Turkic locale, a character that the `replace` keeps is, in
lower case, a small letter, a digit, an underscore or a vertical bar. -/
theorem lowerChar_kept (c : Char) (h : isKept c = true) :
    isUsernameChar (lowerChar false c) = true ∨ lowerChar false c = '|' := by
  by_cases hup : 65 ≤ c.toNat ∧ c.toNat ≤ 90
  · have hc : Char.ofNat c.toNat = c := Char.ofNat_toNat c
    obtain ⟨h1, h2⟩ := hup
    generalize c.toNat = k at h1 h2 hc
    subst hc
    left
    interval_cases k <;> decide
  · have hlow : lowerChar false c = c := by
      unfold lowerChar
      rw [if_neg hup]
    rw [hlow]
    simp only [isKept, isUsernameChar, Bool.or_eq_true, Bool.and_eq_true, decide_eq_true_eq] at h ⊢
    rcases h with (((h | h) | h) | h) | h
    · exact Or.inl (Or.inl (Or.inl h))
    · exact Or.inr h
    · exact absurd h hup
    · exact Or.inl (Or.inl (Or.inr h))
    · exact Or.inl (Or.inr h)

/-- Outside a Turkic locale, a small letter, a digit, an underscore and a
vertical bar stay as they are in lower case. -/
theorem lowerChar_lower (c : Char) (h : isUsernameChar c = true ∨ c = '|') :
    lowerChar false c = c := by
  unfold lowerChar
  rw [if_neg]
  intro hup
  rcases h with h | h
  · simp only [isUsernameChar, Bool.or_eq_true, Bool.and_eq_true, decide_eq_true_eq] at h
    rcases h with (h | h) | h
    · omega
    · omega
    · rw [h] at hup
      revert hup
      decide
  · rw [h] at hup
    revert hup
    decide

/-- What `suggestUsername` does guarantee: at most 3 suggestions, none of
them empty, and outside a Turkic locale each made of small letters, digits,
underscores and vertical bars. -/
theorem suggestUsername_shape (usernameLength : Int) (getFirstLetter : String → String)
    (turkic : Bool) (server : Nat → String → Bool) (firstName lastName : String) :
    (suggestUsername usernameLength getFirstLetter turkic server firstName lastName).length ≤ 3 ∧
    ∀ s ∈ suggestUsername usernameLength getFirstLetter turkic server firstName lastName,
      s ≠ "" ∧ (turkic = false → ∀ c ∈ s.data, isUsernameChar c = true ∨ c = '|') := by
  refine ⟨suggestLoop_length turkic server _ _ _ (by simp), ?_⟩
  apply suggestLoop_mem turkic server
  · intro s hs
    cases hs
  · intro option hoption hne
    refine ⟨?_, ?_⟩
    · intro hnil
      apply hne
      have := congrArg String.data hnil
      exact this
    · intro hturkic c hc
      subst hturkic
      have hc2 : c ∈ toLocaleLowerCase false option := hc
      rw [List.mem_map] at hoption
      obtain ⟨x, _, hx⟩ := hoption
      rw [← hx] at hc2
      unfold toLocaleLowerCase at hc2
      rw [List.mem_map] at hc2
      obtain ⟨c1, hc1, hcc⟩ := hc2
      rw [List.mem_map] at hc1
      obtain ⟨c0, hc0, hc01⟩ := hc1
      have hkept : isKept c0 = true := by
        have := List.mem_of_mem_take hc0
        exact (List.mem_filter.mp this).2
      have hlow := lowerChar_kept c0 hkept
      rw [hc01] at hlow
      rw [← hcc, lowerChar_lower c1 hlow]
      exact hlow

/-! ## Properties of `_download` -/

/-- The three ways `trySend` can go. -/
theorem trySend_eq (x : DownloadCall) (stopped : Bool) :
    (stopped = true ∧ x.trySend stopped = (x, false)) ∨
    (stopped = false ∧ 5 ≤ x.retryCount ∧
      x.trySend stopped = ({ x with retryCount := x.retryCount + 1 }, false)) ∨
    (stopped = false ∧ x.retryCount < 5 ∧
      x.trySend stopped
        = ({ x with retryCount := x.retryCount + 1, timers := x.timers + 1 }, true)) := by
  unfold DownloadCall.trySend
  cases stopped with
  | true => exact Or.inl ⟨rfl, rfl⟩
  | false =>
    by_cases h : x.retryCount ≥ 5
    · exact Or.inr (Or.inl ⟨rfl, h, by simp [h]⟩)
    · exact Or.inr (Or.inr ⟨rfl, by omega, by simp [h]⟩)

/-- A `reject` keeps a call of `_download` sound. -/
theorem sound_reject (x : DownloadCall) (reason : JsError) (h : x.Sound) :
    (x.reject reason).Sound := by
  unfold DownloadCall.reject
  cases hset : x.settled with
  | none =>
    refine ⟨h.scheduled, fun _ => ⟨reason, rfl⟩, ?_⟩
    intro response hc
    cases hc
  | some outcome => exact h

/-- A `resolve` with a response of the expected size keeps a call of
`_download` sound. -/
theorem sound_resolve (x : DownloadCall) (response : Bytes) (h : x.Sound)
    (hsize : (response.length : Int) = x.expectedSize) : (x.resolve response).Sound := by
  unfold DownloadCall.resolve
  cases hset : x.settled with
  | none =>
    refine ⟨h.scheduled, ?_, ?_⟩
    · intro hrej
      obtain ⟨reason, hreason⟩ := h.rejected hrej
      rw [hset] at hreason
      cases hreason
    · intro r hr
      have hr2 : some (Except.ok response) = some (Except.ok r) := hr
      have : response = r := by
        injection hr2 with hr3
        injection hr3
      rw [← this]
      exact hsize
  | some outcome => exact h

/-- A `trySend` keeps a call of `_download` sound, and so does the `reject`
that follows when it returns `false`. -/
theorem sound_trySend (x : DownloadCall) (stopped : Bool) (h : x.Sound) :
    (x.trySend stopped).1.Sound := by
  rcases trySend_eq x stopped with ⟨_, heq⟩ | ⟨_, hcount, heq⟩ | ⟨_, hcount, heq⟩
  · rw [heq]
    exact h
  · rw [heq]
    refine ⟨?_, h.rejected, h.resolved⟩
    have := h.scheduled
    show x.sent + x.timers = min (x.retryCount + 1) 5
    omega
  · rw [heq]
    refine ⟨?_, h.rejected, h.resolved⟩
    have := h.scheduled
    show x.sent + (x.timers + 1) = min (x.retryCount + 1) 5
    omega

/-- A failure that is answered by `trySend`, and by `reject` when that
returns `false`, keeps a call of `_download` sound. -/
theorem sound_retry (x : DownloadCall) (stopped : Bool) (reason : JsError) (h : x.Sound) :
    DownloadCall.Sound
      (match x.trySend stopped with
        | (x1, true) => x1
        | (x1, false) => x1.reject reason) := by
  have hs := sound_trySend x stopped h
  cases hres : x.trySend stopped with
  | mk x1 sent =>
    rw [hres] at hs
    cases sent with
    | true => exact hs
    | false => exact sound_reject x1 reason hs

/-- Every event keeps a call of `_download` sound. -/
theorem sound_step_call (x : DownloadCall) (e : XhrEvent) (h : x.Sound) : (x.step e).Sound := by
  cases e with
  | timer =>
    show DownloadCall.Sound
      (if x.timers = 0 then x else { x with timers := x.timers - 1, sent := x.sent + 1 })
    split
    · exact h
    · rename_i ht
      refine ⟨?_, h.rejected, h.resolved⟩
      have := h.scheduled
      show x.sent + 1 + (x.timers - 1) = min x.retryCount 5
      omega
  | readystatechange readyState status response stopped authenticated =>
    show (x.onreadystatechange readyState status response stopped authenticated).Sound
    unfold DownloadCall.onreadystatechange
    split
    · exact ⟨h.scheduled, h.rejected, h.resolved⟩
    · split
      · exact h
      · split
        · exact sound_reject x _ h
        · split
          · exact sound_reject x _ h
          · split
            · rename_i hok
              apply sound_resolve
              · split
                · exact h
                · exact ⟨h.scheduled, h.rejected, h.resolved⟩
              · split
                · exact hok.2
                · exact hok.2
            · split
              · exact h
              · exact sound_retry x stopped _ h
  | progress loaded =>
    show (x.onprogress loaded).Sound
    unfold DownloadCall.onprogress
    simp only []
    split
    · split
      · exact ⟨h.scheduled, h.rejected, h.resolved⟩
      · split
        · exact ⟨h.scheduled, h.rejected, h.resolved⟩
        · exact ⟨h.scheduled, h.rejected, h.resolved⟩
    · split
      · exact h
      · split
        · exact ⟨h.scheduled, h.rejected, h.resolved⟩
        · exact h
  | error stopped =>
    show (x.onerror stopped).Sound
    unfold DownloadCall.onerror
    split
    · exact h
    · exact sound_retry x stopped _ h
  | settle =>
    show DownloadCall.Sound
      (match x.settled with
        | some (.error _) => { x with isRejected := true }
        | _ => x)
    split
    · rename_i reason hset
      exact ⟨h.scheduled, fun _ => ⟨reason, hset⟩, h.resolved⟩
    · exact h

/-- Every run keeps a call of `_download` sound. -/
theorem sound_run_call (events : List XhrEvent) :
    ∀ x : DownloadCall, x.Sound → (x.run events).Sound := by
  induction events with
  | nil => intro x h; exact h
  | cons e rest ih =>
    intro x h
    exact ih (x.step e) (sound_step_call x e h)

/-- A call of `_download` starts sound. -/
theorem sound_download (d : FileDownloader) (expectedSize : Int) :
    (d._download expectedSize).Sound := by
  unfold FileDownloader._download
  apply sound_trySend
  refine ⟨rfl, ?_, ?_⟩
  · intro hc
    cases hc
  · intro response hc
    cases hc

/-- Once `p` is rejected, no event schedules a request. -/
theorem rejected_step (x : DownloadCall) (e : XhrEvent) (h : x.isRejected = true) :
    (x.step e).isRejected = true ∧ (x.step e).sent + (x.step e).timers = x.sent + x.timers := by
  cases e with
  | timer =>
    show (if x.timers = 0 then x else { x with timers := x.timers - 1, sent := x.sent + 1 }).isRejected
        = true ∧
      (if x.timers = 0 then x else { x with timers := x.timers - 1, sent := x.sent + 1 }).sent
        + (if x.timers = 0 then x
            else { x with timers := x.timers - 1, sent := x.sent + 1 }).timers
        = x.sent + x.timers
    split
    · exact ⟨h, rfl⟩
    · refine ⟨h, ?_⟩
      show x.sent + 1 + (x.timers - 1) = x.sent + x.timers
      omega
  | readystatechange readyState status response stopped authenticated =>
    show (x.onreadystatechange readyState status response stopped authenticated).isRejected = true ∧
      (x.onreadystatechange readyState status response stopped authenticated).sent
        + (x.onreadystatechange readyState status response stopped authenticated).timers
        = x.sent + x.timers
    unfold DownloadCall.onreadystatechange DownloadCall.reject DownloadCall.resolve
    split
    · exact ⟨h, rfl⟩
    · split
      · exact ⟨h, rfl⟩
      · split
        · split <;> exact ⟨h, rfl⟩
        · split
          · split <;> exact ⟨h, rfl⟩
          · split
            · split <;> split <;> exact ⟨h, rfl⟩
            · exact ⟨h, rfl⟩
  | progress loaded =>
    show (x.onprogress loaded).isRejected = true ∧
      (x.onprogress loaded).sent + (x.onprogress loaded).timers = x.sent + x.timers
    unfold DownloadCall.onprogress
    simp only []
    split
    · exact ⟨h, rfl⟩
    · exact ⟨h, rfl⟩
  | error stopped =>
    show (x.onerror stopped).isRejected = true ∧
      (x.onerror stopped).sent + (x.onerror stopped).timers = x.sent + x.timers
    unfold DownloadCall.onerror
    rw [if_pos h]
    exact ⟨h, rfl⟩
  | settle =>
    show (match x.settled with
        | some (.error _) => { x with isRejected := true }
        | _ => x).isRejected = true ∧
      (match x.settled with
        | some (.error _) => { x with isRejected := true }
        | _ => x).sent
        + (match x.settled with
            | some (.error _) => { x with isRejected := true }
            | _ => x).timers
        = x.sent + x.timers
    split
    · exact ⟨rfl, rfl⟩
    · exact ⟨h, rfl⟩

/-- Once `p` is rejected, no run schedules a request. -/
theorem rejected_run (events : List XhrEvent) :
    ∀ x : DownloadCall, x.isRejected = true →
      (x.run events).sent + (x.run events).timers = x.sent + x.timers := by
  induction events with
  | nil => intro x _; rfl
  | cons e rest ih =>
    intro x h
    have hstep := rejected_step x e h
    have := ih (x.step e) hstep.1
    show ((x.step e).run rest).sent + ((x.step e).run rest).timers = x.sent + x.timers
    omega

/-- No `trySend` changes the expected size, the promise or `p`. -/
theorem trySend_frame (x : DownloadCall) (stopped : Bool) :
    (x.trySend stopped).1.expectedSize = x.expectedSize ∧
    (x.trySend stopped).1.settled = x.settled ∧
    (x.trySend stopped).1.isRejected = x.isRejected ∧
    (x.trySend stopped).1.sent = x.sent := by
  rcases trySend_eq x stopped with ⟨_, heq⟩ | ⟨_, _, heq⟩ | ⟨_, _, heq⟩ <;> rw [heq] <;>
    exact ⟨rfl, rfl, rfl, rfl⟩

/-- No `reject` changes anything but the promise. -/
theorem reject_frame (x : DownloadCall) (reason : JsError) :
    (x.reject reason).expectedSize = x.expectedSize ∧
    (x.reject reason).timers = x.timers ∧
    (x.reject reason).sent = x.sent ∧
    (x.reject reason).retryCount = x.retryCount ∧
    (x.settled = none → (x.reject reason).settled = some (.error reason)) ∧
    (x.reject reason).settled ≠ none := by
  unfold DownloadCall.reject
  cases hset : x.settled with
  | none =>
    refine ⟨rfl, rfl, rfl, rfl, fun _ => rfl, ?_⟩
    intro hc
    cases hc
  | some outcome =>
    refine ⟨rfl, rfl, rfl, rfl, ?_, ?_⟩
    · intro hc
      cases hc
    · rw [hset]
      intro hc
      cases hc

/-- No event changes the expected size. -/
theorem expectedSize_step (x : DownloadCall) (e : XhrEvent) :
    (x.step e).expectedSize = x.expectedSize := by
  cases e with
  | timer =>
    show (if x.timers = 0 then x
      else { x with timers := x.timers - 1, sent := x.sent + 1 }).expectedSize = _
    split <;> rfl
  | readystatechange readyState status response stopped authenticated =>
    show (x.onreadystatechange readyState status response stopped authenticated).expectedSize = _
    unfold DownloadCall.onreadystatechange
    split
    · rfl
    · split
      · rfl
      · split
        · exact (reject_frame x _).1
        · split
          · exact (reject_frame x _).1
          · split
            · unfold DownloadCall.resolve
              split <;> split <;> rfl
            · split
              · rfl
              · cases hres : x.trySend stopped with
                | mk x1 sent =>
                  have hframe := (trySend_frame x stopped).1
                  rw [hres] at hframe
                  cases sent with
                  | true => exact hframe
                  | false => exact ((reject_frame x1 _).1).trans hframe
  | progress loaded =>
    show (x.onprogress loaded).expectedSize = _
    unfold DownloadCall.onprogress
    simp only []
    split <;> split <;> try split
    all_goals rfl
  | error stopped =>
    show (x.onerror stopped).expectedSize = _
    unfold DownloadCall.onerror
    split
    · rfl
    · cases hres : x.trySend stopped with
      | mk x1 sent =>
        have hframe := (trySend_frame x stopped).1
        rw [hres] at hframe
        cases sent with
        | true => exact hframe
        | false => exact ((reject_frame x1 _).1).trans hframe
  | settle =>
    show (match x.settled with
      | some (.error _) => { x with isRejected := true }
      | _ => x).expectedSize = _
    split <;> rfl

/-- No run changes the expected size, which is the one that `_download` was
called with. -/
theorem expectedSize_run (d : FileDownloader) (expectedSize : Int) (events : List XhrEvent) :
    ((d._download expectedSize).run events).expectedSize = expectedSize := by
  have hrun : ∀ (events : List XhrEvent) (x : DownloadCall),
      (x.run events).expectedSize = x.expectedSize := by
    intro events
    induction events with
    | nil => intro x; rfl
    | cons e rest ih =>
      intro x
      exact (ih (x.step e)).trans (expectedSize_step x e)
  rw [hrun]
  exact (trySend_frame _ _).1

/-- A failure after which `trySend` finds the attempts used up, or the
downloader stopped, rejects the promise and schedules nothing. -/
theorem retry_exhausted (x : DownloadCall) (stopped : Bool) (reason : JsError)
    (hpending : x.settled = none) (hused : stopped = true ∨ 5 ≤ x.retryCount) :
    (match x.trySend stopped with
      | (x1, true) => x1
      | (x1, false) => x1.reject reason).settled = some (.error reason) ∧
    (match x.trySend stopped with
      | (x1, true) => x1
      | (x1, false) => x1.reject reason).timers = x.timers ∧
    (match x.trySend stopped with
      | (x1, true) => x1
      | (x1, false) => x1.reject reason).sent = x.sent := by
  rcases trySend_eq x stopped with ⟨_, heq⟩ | ⟨_, _, heq⟩ | ⟨hs, hlt, _⟩
  · rw [heq]
    exact ⟨(reject_frame x reason).2.2.2.2.1 hpending, (reject_frame x reason).2.1,
      (reject_frame x reason).2.2.1⟩
  · rw [heq]
    exact ⟨(reject_frame _ reason).2.2.2.2.1 hpending, (reject_frame _ reason).2.1,
      (reject_frame _ reason).2.2.1⟩
  · rcases hused with hc | hc
    · rw [hs] at hc
      cases hc
    · omega

/-- A failure after which `trySend` finds an attempt left schedules one
request, counts the attempt and leaves the promise pending. -/
theorem retry_left (x : DownloadCall) (reason : JsError)
    (hleft : x.retryCount < 5) :
    (match x.trySend false with
      | (x1, true) => x1
      | (x1, false) => x1.reject reason)
      = { x with retryCount := x.retryCount + 1, timers := x.timers + 1 } := by
  rcases trySend_eq x false with ⟨hc, _⟩ | ⟨_, hge, _⟩ | ⟨_, _, heq⟩
  · cases hc
  · omega
  · rw [heq]

/-- What `onreadystatechange` does for a completed response that is not a
success of the expected size, neither cancelled nor locked, while `p` is not
rejected: what `onerror` does, up to the reason of the rejection. -/
theorem onreadystatechange_failure (x : DownloadCall) (status : Nat) (response : Bytes)
    (stopped authenticated : Bool) (h0 : status ≠ 0) (h423 : status ≠ 423)
    (hbad : ¬ ((status = 200 ∨ status = 206) ∧ (response.length : Int) = x.expectedSize))
    (hrej : x.isRejected = false) :
    x.onreadystatechange 4 status response stopped authenticated
      = match x.trySend stopped with
        | (x1, true) => x1
        | (x1, false) =>
          x1.reject
            (if authenticated then .error "Blob download error"
              else DisconnectedError) := by
  unfold DownloadCall.onreadystatechange
  rw [if_neg (by decide), if_neg (by decide), if_neg h0, if_neg h423, if_neg hbad, hrej]
  rfl

/-- A `resolve` settles a pending promise with the response. -/
theorem resolve_pending (x : DownloadCall) (response : Bytes) (h : x.settled = none) :
    (x.resolve response).settled = some (.ok response) := by
  unfold DownloadCall.resolve
  rw [h]

/-- C22: whatever the state of a call of `_download`, so whatever the number
of attempts made, a completed response with status 423 only rejects the
promise: it rejects it at once when it is pending, it leaves the promise
settled, and it neither schedules a request nor counts an attempt; and once
the rejection has reached `p`, no later event of the call schedules a
request. -/
theorem locked_not_retried (x : DownloadCall) (response : Bytes)
    (stopped authenticated : Bool) (events : List XhrEvent) :
    x.onreadystatechange 4 423 response stopped authenticated
      = x.reject (.error "Blob download got 423 error") ∧
    (x.onreadystatechange 4 423 response stopped authenticated).timers = x.timers ∧
    (x.onreadystatechange 4 423 response stopped authenticated).sent = x.sent ∧
    (x.onreadystatechange 4 423 response stopped authenticated).retryCount = x.retryCount ∧
    (x.onreadystatechange 4 423 response stopped authenticated).settled ≠ none ∧
    (x.settled = none →
      (x.onreadystatechange 4 423 response stopped authenticated).settled
        = some (.error (.error "Blob download got 423 error")) ∧
      (((x.step (.readystatechange 4 423 response stopped authenticated)).step .settle).run
          events).sent
        + (((x.step (.readystatechange 4 423 response stopped authenticated)).step .settle).run
          events).timers
        = x.sent + x.timers) := by
  have heq : x.onreadystatechange 4 423 response stopped authenticated
      = x.reject (.error "Blob download got 423 error") := by
    unfold DownloadCall.onreadystatechange
    rw [if_neg (by decide), if_neg (by decide), if_neg (by decide), if_pos rfl]
  obtain ⟨_, htimers, hsent, hcount, hpending, hsettled⟩ :=
    reject_frame x (.error "Blob download got 423 error")
  refine ⟨heq, ?_, ?_, ?_, ?_, ?_⟩
  · rw [heq]; exact htimers
  · rw [heq]; exact hsent
  · rw [heq]; exact hcount
  · rw [heq]; exact hsettled
  · intro hnone
    refine ⟨by rw [heq]; exact hpending hnone, ?_⟩
    have hstep : x.step (.readystatechange 4 423 response stopped authenticated)
        = x.reject (.error "Blob download got 423 error") := heq
    have hrej : ((x.reject (.error "Blob download got 423 error")).step .settle).isRejected
        = true := by
      show (match (x.reject (.error "Blob download got 423 error")).settled with
        | some (.error _) =>
          { x.reject (.error "Blob download got 423 error") with isRejected := true }
        | _ => x.reject (.error "Blob download got 423 error")).isRejected = true
      rw [hpending hnone]
    have hsame : ((x.reject (.error "Blob download got 423 error")).step .settle).sent
        + ((x.reject (.error "Blob download got 423 error")).step .settle).timers
        = x.sent + x.timers := by
      show (match (x.reject (.error "Blob download got 423 error")).settled with
        | some (.error _) =>
          { x.reject (.error "Blob download got 423 error") with isRejected := true }
        | _ => x.reject (.error "Blob download got 423 error")).sent
        + (match (x.reject (.error "Blob download got 423 error")).settled with
          | some (.error _) =>
            { x.reject (.error "Blob download got 423 error") with isRejected := true }
          | _ => x.reject (.error "Blob download got 423 error")).timers
        = x.sent + x.timers
      rw [hpending hnone]
      show (x.reject (.error "Blob download got 423 error")).sent
        + (x.reject (.error "Blob download got 423 error")).timers = x.sent + x.timers
      rw [hsent, htimers]
    rw [hstep, rejected_run events _ hrej, hsame]

/-- C22 at a concrete call: the first request of a call for 8 bytes is
answered with status 423; the promise is rejected, and after the error event
and the timer that follow, still one request was sent and none is scheduled. -/
theorem locked_not_retried_witness :
    ((smallDownload._download 8).run [.timer]).settled = none ∧
    ((smallDownload._download 8).run [.timer]).sent = 1 ∧
    (((smallDownload._download 8).run [.timer]).onreadystatechange 4 423 [] false true).settled
      = some (.error (.error "Blob download got 423 error")) ∧
    ((smallDownload._download 8).run
      [.timer, .readystatechange 4 423 [] false true, .settle, .error false, .timer]).sent
      + ((smallDownload._download 8).run
      [.timer, .readystatechange 4 423 [] false true, .settle, .error false, .timer]).timers
      = 1 + 0 :=
  have h := (locked_not_retried ((smallDownload._download 8).run [.timer]) [] false true
    [.error false, .timer]).2.2.2.2.2 rfl
  ⟨rfl, rfl, h.1, h.2⟩

/-- C23: in every state of a call of `_download`, whatever events came, at
most 5 requests were sent, and sent or scheduled; and when 5 requests were
sent and the promise is pending, a failure (a `timeout`, `abort` or `error`
event, or a completed response that is not a success of the expected size)
rejects the promise and schedules no request; the reason of the rejection
after a completed response is a `DisconnectedError` when the socket is not
authenticated. -/
theorem fetch_retry_bound (d : FileDownloader) (expectedSize : Int) (events : List XhrEvent)
    (status : Nat) (response : Bytes) (stopped authenticated : Bool) :
    ((d._download expectedSize).run events).sent ≤ 5 ∧
    ((d._download expectedSize).run events).sent
      + ((d._download expectedSize).run events).timers ≤ 5 ∧
    (((d._download expectedSize).run events).sent = 5 →
      ((d._download expectedSize).run events).settled = none →
      ((((d._download expectedSize).run events).onerror stopped).settled
          = some (.error (.error "Blob download error")) ∧
        (((d._download expectedSize).run events).onerror stopped).sent = 5 ∧
        (((d._download expectedSize).run events).onerror stopped).timers = 0) ∧
      (¬ ((status = 200 ∨ status = 206) ∧ (response.length : Int) = expectedSize) →
        (∃ reason,
          (((d._download expectedSize).run events).onreadystatechange 4 status response stopped
            authenticated).settled = some (.error reason)) ∧
        (((d._download expectedSize).run events).onreadystatechange 4 status response stopped
          authenticated).sent = 5 ∧
        (((d._download expectedSize).run events).onreadystatechange 4 status response stopped
          authenticated).timers = 0)) := by
  have hsound := sound_run_call events _ (sound_download d expectedSize)
  have hsize := expectedSize_run d expectedSize events
  generalize (d._download expectedSize).run events = x at hsound hsize
  have hsched := hsound.scheduled
  refine ⟨by omega, by omega, ?_⟩
  intro hsent hpending
  have hrej : x.isRejected = false := by
    by_contra hc
    obtain ⟨reason, hreason⟩ := hsound.rejected (by simpa using hc)
    rw [hpending] at hreason
    cases hreason
  have htimers : x.timers = 0 := by omega
  have hused : stopped = true ∨ 5 ≤ x.retryCount := Or.inr (by omega)
  refine ⟨?_, ?_⟩
  · have herr : x.onerror stopped
        = match x.trySend stopped with
          | (x1, true) => x1
          | (x1, false) => x1.reject (.error "Blob download error") := by
      unfold DownloadCall.onerror
      rw [hrej]
      rfl
    rw [herr]
    obtain ⟨h1, h2, h3⟩ := retry_exhausted x stopped (.error "Blob download error") hpending hused
    exact ⟨h1, by rw [h3, hsent], by rw [h2, htimers]⟩
  · intro hbad
    rw [← hsize] at hbad
    by_cases h0 : status = 0
    · have heq : x.onreadystatechange 4 status response stopped authenticated
          = x.reject (.error "Blob download cancelled") := by
        unfold DownloadCall.onreadystatechange
        rw [if_neg (by decide), if_neg (by decide), if_pos h0]
      rw [heq]
      obtain ⟨_, ht, hs, _, hp, _⟩ := reject_frame x (.error "Blob download cancelled")
      exact ⟨⟨_, hp hpending⟩, by rw [hs, hsent], by rw [ht, htimers]⟩
    · by_cases h423 : status = 423
      · have heq : x.onreadystatechange 4 status response stopped authenticated
            = x.reject (.error "Blob download got 423 error") := by
          unfold DownloadCall.onreadystatechange
          rw [if_neg (by decide), if_neg (by decide), if_neg h0, if_pos h423]
        rw [heq]
        obtain ⟨_, ht, hs, _, hp, _⟩ := reject_frame x (.error "Blob download got 423 error")
        exact ⟨⟨_, hp hpending⟩, by rw [hs, hsent], by rw [ht, htimers]⟩
      · rw [onreadystatechange_failure x status response stopped authenticated h0 h423 hbad hrej]
        obtain ⟨h1, h2, h3⟩ := retry_exhausted x stopped
          (if authenticated then .error "Blob download error" else DisconnectedError)
          hpending hused
        exact ⟨⟨_, h1⟩, by rw [h3, hsent], by rw [h2, htimers]⟩

/-- C23 at a concrete call: five requests are sent, each followed by an
`error` event; the fifth failure rejects the promise, and a timer that is
awaited in vain sends no sixth request. -/
theorem fetch_retry_bound_witness :
    ((smallDownload._download 8).run
      [.timer, .error false, .timer, .error false, .timer, .error false, .timer, .error false,
       .timer]).sent = 5 ∧
    ((smallDownload._download 8).run
      [.timer, .error false, .timer, .error false, .timer, .error false, .timer, .error false,
       .timer]).settled = none ∧
    (((smallDownload._download 8).run
      [.timer, .error false, .timer, .error false, .timer, .error false, .timer, .error false,
       .timer]).onerror false).settled = some (.error (.error "Blob download error")) ∧
    (((smallDownload._download 8).run
      [.timer, .error false, .timer, .error false, .timer, .error false, .timer, .error false,
       .timer]).onerror false).sent = 5 ∧
    (((smallDownload._download 8).run
      [.timer, .error false, .timer, .error false, .timer, .error false, .timer, .error false,
       .timer]).onerror false).timers = 0 ∧
    ((smallDownload._download 8).run
      [.timer, .error false, .timer, .error false, .timer, .error false, .timer, .error false,
       .timer, .error false, .timer]).sent ≤ 5 :=
  have h := (fetch_retry_bound smallDownload 8
    [.timer, .error false, .timer, .error false, .timer, .error false, .timer, .error false,
     .timer] 500 [] false true).2.2 rfl rfl
  ⟨rfl, rfl, h.1.1, h.1.2.1, h.1.2.2,
    (fetch_retry_bound smallDownload 8
      [.timer, .error false, .timer, .error false, .timer, .error false, .timer, .error false,
       .timer, .error false, .timer] 500 [] false true).1⟩

/-- C24: for a completed response with status 200 or 206 that reaches a call
of `_download` whose promise is pending, the promise is resolved, with the
response, exactly when the response has the expected number of bytes. A
response of another length never resolves the promise; while `p` is not
rejected it is answered by `trySend`, as every other failure is: with an
attempt left and the downloader not stopped, the attempt is counted, one
request is scheduled and the promise stays pending; with the attempts used
up, or the downloader stopped, the promise is rejected (with a
`DisconnectedError` when the socket is not authenticated) and no request is
scheduled. In every state of every call, a resolved promise holds a response
of the expected size. -/
theorem size_mismatch_retried (x : DownloadCall) (status : Nat) (response : Bytes)
    (stopped authenticated : Bool) (d : FileDownloader) (expectedSize : Int)
    (events : List XhrEvent)
    (hstatus : status = 200 ∨ status = 206) (hpending : x.settled = none) :
    ((x.onreadystatechange 4 status response stopped authenticated).settled
        = some (.ok response) ↔ (response.length : Int) = x.expectedSize) ∧
    ((response.length : Int) ≠ x.expectedSize →
      (∀ r, (x.onreadystatechange 4 status response stopped authenticated).settled
        ≠ some (.ok r)) ∧
      (x.isRejected = false →
        (x.onreadystatechange 4 status response stopped authenticated).retryCount
          = (x.onerror stopped).retryCount ∧
        (x.onreadystatechange 4 status response stopped authenticated).timers
          = (x.onerror stopped).timers ∧
        (stopped = false → x.retryCount < 5 →
          x.onreadystatechange 4 status response stopped authenticated
            = { x with retryCount := x.retryCount + 1, timers := x.timers + 1 }) ∧
        (stopped = true ∨ 5 ≤ x.retryCount →
          (x.onreadystatechange 4 status response stopped authenticated).settled
            = some (.error (if authenticated then .error "Blob download error"
                else DisconnectedError)) ∧
          (x.onreadystatechange 4 status response stopped authenticated).timers = x.timers))) ∧
    (∀ r, ((d._download expectedSize).run events).settled = some (.ok r) →
      (r.length : Int) = expectedSize) := by
  have h0 : status ≠ 0 := by omega
  have h423 : status ≠ 423 := by omega
  refine ⟨?_, ?_, ?_⟩
  · by_cases hlen : (response.length : Int) = x.expectedSize
    · have heq : x.onreadystatechange 4 status response stopped authenticated
          = DownloadCall.resolve
              (if x.progressEventFired then x
                else { x with progress := x.progress + x.expectedSize }) response := by
        unfold DownloadCall.onreadystatechange
        rw [if_neg (by decide), if_neg (by decide), if_neg h0, if_neg h423,
          if_pos ⟨hstatus, hlen⟩]
      rw [heq]
      refine ⟨fun _ => hlen, fun _ => ?_⟩
      apply resolve_pending
      split <;> exact hpending
    · refine ⟨fun hok => ?_, fun hc => absurd hc hlen⟩
      exfalso
      by_cases hrej : x.isRejected = true
      · have heq : x.onreadystatechange 4 status response stopped authenticated = x := by
          unfold DownloadCall.onreadystatechange
          rw [if_neg (by decide), if_neg (by decide), if_neg h0, if_neg h423,
            if_neg (fun hc => hlen hc.2), if_pos hrej]
        rw [heq, hpending] at hok
        cases hok
      · have hrej2 : x.isRejected = false := by simpa using hrej
        rw [onreadystatechange_failure x status response stopped authenticated h0 h423
          (fun hc => hlen hc.2) hrej2] at hok
        cases hres : x.trySend stopped with
        | mk x1 sent =>
          have hframe := (trySend_frame x stopped).2.1
          rw [hres] at hframe hok
          have hx1 : x1.settled = none := hframe.trans hpending
          cases sent with
          | true =>
            have hok2 : x1.settled = some (.ok response) := hok
            rw [hx1] at hok2
            cases hok2
          | false =>
            have hok2 : (x1.reject _).settled = some (.ok response) := hok
            rw [(reject_frame x1 _).2.2.2.2.1 hx1] at hok2
            cases hok2
  · intro hlen
    have hbad : ¬ ((status = 200 ∨ status = 206) ∧ (response.length : Int) = x.expectedSize) :=
      fun hc => hlen hc.2
    refine ⟨?_, ?_⟩
    · intro r hok
      by_cases hrej : x.isRejected = true
      · have heq : x.onreadystatechange 4 status response stopped authenticated = x := by
          unfold DownloadCall.onreadystatechange
          rw [if_neg (by decide), if_neg (by decide), if_neg h0, if_neg h423, if_neg hbad,
            if_pos hrej]
        rw [heq, hpending] at hok
        cases hok
      · have hrej2 : x.isRejected = false := by simpa using hrej
        rw [onreadystatechange_failure x status response stopped authenticated h0 h423 hbad
          hrej2] at hok
        cases hres : x.trySend stopped with
        | mk x1 sent =>
          have hframe := (trySend_frame x stopped).2.1
          rw [hres] at hframe hok
          have hx1 : x1.settled = none := hframe.trans hpending
          cases sent with
          | true =>
            have hok2 : x1.settled = some (.ok r) := hok
            rw [hx1] at hok2
            cases hok2
          | false =>
            have hok2 : (x1.reject _).settled = some (.ok r) := hok
            rw [(reject_frame x1 _).2.2.2.2.1 hx1] at hok2
            cases hok2
    · intro hrej
      have herr : x.onerror stopped
          = match x.trySend stopped with
            | (x1, true) => x1
            | (x1, false) => x1.reject (.error "Blob download error") := by
        unfold DownloadCall.onerror
        rw [hrej]
        rfl
      rw [onreadystatechange_failure x status response stopped authenticated h0 h423 hbad hrej,
        herr]
      refine ⟨?_, ?_, ?_, ?_⟩
      · cases hres : x.trySend stopped with
        | mk x1 sent =>
          cases sent with
          | true => rfl
          | false => exact ((reject_frame x1 _).2.2.2.1).trans ((reject_frame x1 _).2.2.2.1).symm
      · cases hres : x.trySend stopped with
        | mk x1 sent =>
          cases sent with
          | true => rfl
          | false => exact ((reject_frame x1 _).2.1).trans ((reject_frame x1 _).2.1).symm
      · intro hstopped hleft
        rw [hstopped]
        exact retry_left x _ hleft
      · intro hused
        obtain ⟨h1, h2, _⟩ := retry_exhausted x stopped
          (if authenticated then .error "Blob download error" else DisconnectedError)
          hpending hused
        exact ⟨h1, h2⟩
  · intro r hok
    have hsound := sound_run_call events _ (sound_download d expectedSize)
    rw [← expectedSize_run d expectedSize events]
    exact hsound.resolved r hok

/-- C24 at a concrete call: a call for 8 bytes gets 6 bytes with status 200
on its first request, which schedules a second request, and 8 bytes on the
second, which resolves the promise. -/
theorem size_mismatch_retried_witness :
    (((smallDownload._download 8).run [.timer]).onreadystatechange 4 200
        [10, 11, 12, 13, 14, 15] false true).settled = none ∧
    (((smallDownload._download 8).run [.timer]).onreadystatechange 4 200
        [10, 11, 12, 13, 14, 15] false true).timers = 1 ∧
    (((smallDownload._download 8).run [.timer]).onreadystatechange 4 200
        [10, 11, 12, 13, 14, 15] false true).retryCount = 2 ∧
    ((smallDownload._download 8).run
      [.timer, .readystatechange 4 200 [10, 11, 12, 13, 14, 15] false true, .timer,
       .readystatechange 4 200 [10, 11, 12, 13, 14, 15, 16, 17] false true]).settled
      = some (.ok [10, 11, 12, 13, 14, 15, 16, 17]) :=
  have h := ((size_mismatch_retried ((smallDownload._download 8).run [.timer]) 200
    [10, 11, 12, 13, 14, 15] false true smallDownload 8 [] (Or.inl rfl) rfl).2.1
    (by decide)).2 rfl
  have heq := h.2.2.1 rfl (by decide)
  ⟨by rw [heq]; rfl, by rw [heq]; rfl, by rw [heq]; rfl, rfl⟩

/-! ## Failures, completeness and write order of the file downloader -/

/-- What `_decryptChunk` leaves behind when it throws: the downloader was
not stopped, and nothing was handed to `stream.write`. -/
theorem decryptChunk_throws (env : DownloadEnv) (d d1 : FileDownloader) (err : JsError)
    (hres : d._decryptChunk env = (d1, some err)) :
    d.core.stopped = false ∧ d1.core = d.core ∧ d1.written = d.written ∧
    d1.writesInFlight = d.writesInFlight := by
  by_cases hblocked : d.core.stopped = true ∨ d.writing = true ∨ d.decryptQueue = []
  · rw [decryptChunk_blocked env d hblocked] at hres
    cases (Prod.mk.inj hres).2
  · have hstopped : d.core.stopped = false := by
      by_contra hc
      exact hblocked (Or.inl (by simpa using hc))
    have hwriting : d.writing = false := by
      by_contra hc
      exact hblocked (Or.inr (Or.inl (by simpa using hc)))
    cases hqueue : d.decryptQueue with
    | nil => exact absurd (Or.inr (Or.inr hqueue)) hblocked
    | cons chunk rest =>
      rw [decryptChunk_eq env d chunk rest hstopped hwriting hqueue] at hres
      cases hdec : env.decrypt chunk d.chunkId with
      | error e =>
        rw [hdec] at hres
        have hd1 := (Prod.mk.inj hres).1
        rw [← hd1]
        exact ⟨hstopped, rfl, rfl, rfl⟩
      | ok plain =>
        rw [hdec] at hres
        simp only [] at hres
        split at hres
        · split at hres
          · cases (Prod.mk.inj hres).2
          · have hd1 := (Prod.mk.inj hres).1
            rw [← hd1]
            exact ⟨hstopped, rfl, rfl, rfl⟩
        · cases (Prod.mk.inj hres).2

/-- What the inherited `_error` does to a sound downloader that is not
finished: it finishes it and rejects the promise, whatever it is called
with. -/
theorem error_first (d : FileDownloader) (x : Thrown) (hs : d.Sound)
    (hfin : d.core.processFinished = false) :
    (d._error x).core.processFinished = true ∧ (d._error x).core.stopped = true ∧
    (d._error x).core.events
      = [.streamClose, .cleanup,
          .reject (normalize
            (if x ≠ .falsy then x else .error (.error (d.core.processType ++ " failed")))
            none)] ∧
    (d._error x).written = d.written ∧ (d._error x).writesInFlight = d.writesInFlight ∧
    (d.core._error x).2 = none := by
  have hne : (if x ≠ .falsy then x else .error (.error (d.core.processType ++ " failed")))
      ≠ .falsy := by
    by_cases hx : x = .falsy
    · simp [hx]
    · simp [hx]
  have hcore := finishProcess_first d.core
    (if x ≠ .falsy then x else .error (.error (d.core.processType ++ " failed")))
    hs.started hfin
  rw [if_pos hne] at hcore
  have heq : d._error x = _ := downloader_finish_first d
    (if x ≠ .falsy then x else .error (.error (d.core.processType ++ " failed"))) hfin
  refine ⟨?_, ?_, ?_, ?_, ?_, ?_⟩
  · rw [heq]
    show (d.core._finishProcess _).1.processFinished = true
    rw [hcore]
  · rw [heq]
    show (d.core._finishProcess _).1.stopped = true
    rw [hcore]
  · rw [heq]
    show (d.core._finishProcess _).1.events = _
    rw [hcore]
    show d.core.events ++ _ = _
    rw [hs.quiet hfin]
    rfl
  · rw [heq]
  · rw [heq]
  · show (d.core._finishProcess _).2 = none
    rw [hcore]

/-- C25: when `_downloadChunk` or `_decryptChunk` throws in the callback of a
tick of a started downloader, the callback ends in `_error` with the
exception: nothing is handed to `stream.write`, the process is finished and
stopped, the promise is rejected with the exception, and `_error` lets no
exception through. `_error(x)` of a started downloader that is not finished
rejects the promise for every `x`, with `x` when it is an `Error`, with a new
`Error` otherwise (for a falsy `x` the one made from `download failed`); it
does nothing to a finished downloader, and it never resolves the promise. -/
theorem step_failures_funnelled (env : DownloadEnv) (d d1 d2 : FileDownloader) (err : JsError)
    (x : Thrown) (hs : d.Sound) (hs2 : d2.Sound)
    (hthrow : d._downloadChunk._decryptChunk env = (d1, some err)) :
    d.onTimer env = d1._error (.error err) ∧
    (d.onTimer env).written = d.written ∧
    (d.onTimer env).writesInFlight = d.writesInFlight ∧
    (d.onTimer env).core.processFinished = true ∧
    (d.onTimer env).core.stopped = true ∧
    (d.onTimer env).core.events = [.streamClose, .cleanup, .reject err] ∧
    (d1.core._error (.error err)).2 = none ∧
    (d2.core.processFinished = false →
      (d2._error x).core.events
        = [.streamClose, .cleanup,
            .reject (normalize
              (if x ≠ .falsy then x else .error (.error (d2.core.processType ++ " failed")))
              none)] ∧
      (d2._error .falsy).core.events
        = [.streamClose, .cleanup, .reject (.error (d2.core.processType ++ " failed"))]) ∧
    (d2.core.processFinished = true → d2._error x = d2) ∧
    (ProcessEvent.resolve ∈ (d2._error x).core.events →
      ProcessEvent.resolve ∈ d2.core.events) := by
  obtain ⟨hstopped, hcore, hwritten, hflight⟩ :=
    decryptChunk_throws env d._downloadChunk d1 err hthrow
  obtain ⟨hcore0, _, _, _, hflight0, _, _, hwritten0, _⟩ := downloadChunk_frame d
  have hs1 : d1.Sound := by
    have := sound_decryptChunk env _ (sound_downloadChunk d hs)
    rw [hthrow] at this
    exact this
  have hfin1 : d1.core.processFinished = false := by
    rw [← hs1.stopped_eq, hcore]
    exact hstopped
  have htimer : d.onTimer env = d1._error (.error err) := by
    unfold FileDownloader.onTimer
    rw [hthrow]
  obtain ⟨e1, e2, e3, e4, e5, e6⟩ := error_first d1 (.error err) hs1 hfin1
  refine ⟨htimer, ?_, ?_, ?_, ?_, ?_, e6, ?_, ?_, ?_⟩
  · rw [htimer, e4, hwritten, hwritten0]
  · rw [htimer, e5, hflight, hflight0]
  · rw [htimer]; exact e1
  · rw [htimer]; exact e2
  · rw [htimer, e3]
    rfl
  · intro hfin2
    refine ⟨(error_first d2 x hs2 hfin2).2.2.1, ?_⟩
    rw [(error_first d2 .falsy hs2 hfin2).2.2.1]
    rfl
  · intro hfin2
    exact downloader_error_finished d2 x hfin2
  · intro hres
    by_cases hfin2 : d2.core.processFinished = true
    · rw [downloader_error_finished d2 x hfin2] at hres
      exact hres
    · have hfin3 : d2.core.processFinished = false := by simpa using hfin2
      rw [(error_first d2 x hs2 hfin3).2.2.1] at hres
      simp at hres

/-- C25 at a concrete run: the small download with a cipher that fails. The
tick after the first response takes the first chunk off the queue, the
cipher throws, and the promise is rejected with its error; nothing is
written. -/
theorem step_failures_funnelled_witness :
    ((smallDownload.run failingEnv
        [.timer, .fetched [10, 11, 12, 13, 14, 15, 16, 17]]).onTimer failingEnv).core.events
      = [.streamClose, .cleanup, .reject (.external "decrypt")] ∧
    ((smallDownload.run failingEnv
        [.timer, .fetched [10, 11, 12, 13, 14, 15, 16, 17]]).onTimer failingEnv).written = [] ∧
    ((smallDownload.run failingEnv
        [.timer, .fetched [10, 11, 12, 13, 14, 15, 16, 17]])._error .falsy).core.events
      = [.streamClose, .cleanup, .reject (.error "download failed")] :=
  have hsound := sound_run failingEnv [.timer, .fetched [10, 11, 12, 13, 14, 15, 16, 17]]
    smallDownload (sound_start smallConfig smallFile false 0 none)
  have h := step_failures_funnelled failingEnv
    (smallDownload.run failingEnv [.timer, .fetched [10, 11, 12, 13, 14, 15, 16, 17]])
    ((smallDownload.run failingEnv
      [.timer, .fetched [10, 11, 12, 13, 14, 15, 16, 17]])._downloadChunk._decryptChunk
        failingEnv).1
    (smallDownload.run failingEnv [.timer, .fetched [10, 11, 12, 13, 14, 15, 16, 17]])
    (.external "decrypt") .falsy hsound hsound rfl
  ⟨h.2.2.2.2.2.1, h.2.1, (h.2.2.2.2.2.2.2.1 rfl).2⟩

/-- The state that a download from scratch reaches with the events `timer`
and `chainEof` when `maxDownloadChunkSize` is less than a chunk with its
overhead: the first request size is 0, so the end of the data is declared at
once. -/
theorem tiny_batch_run (env : DownloadEnv) (config : DownloadConfig) (file : FileInfo)
    (streamCloseThrows : Bool) (chunkId : Nat)
    (htiny : config.maxDownloadChunkSize < file.chunkSize + config.chunkOverhead)
    (hpar : 0 < config.parallelism) :
    ((FileDownloader.new config file streamCloseThrows chunkId none).start.run env
        [.timer, .chainEof]).core.events = [.streamClose, .cleanup, .resolve] ∧
    ((FileDownloader.new config file streamCloseThrows chunkId none).start.run env
        [.timer, .chainEof]).downloadPos = 0 ∧
    ((FileDownloader.new config file streamCloseThrows chunkId none).start.run env
        [.timer, .chainEof]).requested = [] ∧
    ((FileDownloader.new config file streamCloseThrows chunkId none).start.run env
        [.timer, .chainEof]).written = [] := by
  have hb : config.maxDownloadChunkSize / (file.chunkSize + config.chunkOverhead) = 0 :=
    Nat.div_eq_of_lt htiny
  have hpar2 : ¬ ((0 : Int) ≥ (config.parallelism : Int)) := by omega
  have hstart : (FileDownloader.new config file streamCloseThrows chunkId none).start
      = { FileDownloader.fresh config file streamCloseThrows chunkId with
          timers := 1
          core := { FileProcessor.new "download" streamCloseThrows with hasPromise := true } } := by
    simp [FileDownloader.new, FileDownloader.start, FileDownloader._tick,
      FileDownloader._checkIfFinished, FileDownloader.fresh, FileProcessor.new]
  rw [hstart]
  simp [FileDownloader.run, FileDownloader.step, FileDownloader.onTimer,
    FileDownloader._downloadChunk, FileDownloader._decryptChunk, FileDownloader._isDecryptQueueFull,
    FileDownloader._tick, FileDownloader._checkIfFinished, FileDownloader._finishProcess,
    FileDownloader.cleanup, FileDownloader._abortXhr, FileProcessor._finishProcess,
    FileProcessor.closeStream, FileDownloader.fresh, FileProcessor.new, hb, hpar2]

/-- C28 fails for a `maxDownloadChunkSize` less than `chunkSize + overhead`:
`downloadChunkSize` is then 0, the first request size is 0, and a download
from scratch of a file that has stored bytes declares the end of the data at
once. After the first tick and the end-of-data continuation the promise is
resolved, while `downloadPos` is 0 and not `sizeWithOverhead`: no byte was
requested and none was written. -/
theorem success_without_completeness (env : DownloadEnv) (config : DownloadConfig)
    (file : FileInfo) (streamCloseThrows : Bool) (chunkId : Nat)
    (htiny : config.maxDownloadChunkSize < file.chunkSize + config.chunkOverhead)
    (hpar : 0 < config.parallelism) (hsize : 0 < file.sizeWithOverhead) :
    ProcessEvent.resolve ∈
      ((FileDownloader.new config file streamCloseThrows chunkId none).start.run env
        [.timer, .chainEof]).core.events ∧
    ((FileDownloader.new config file streamCloseThrows chunkId none).start.run env
        [.timer, .chainEof]).downloadPos = 0 ∧
    ((FileDownloader.new config file streamCloseThrows chunkId none).start.run env
        [.timer, .chainEof]).downloadPos ≠ (file.sizeWithOverhead : Int) ∧
    ((FileDownloader.new config file streamCloseThrows chunkId none).start.run env
        [.timer, .chainEof]).requested = [] ∧
    ((FileDownloader.new config file streamCloseThrows chunkId none).start.run env
        [.timer, .chainEof]).written = [] := by
  obtain ⟨hevents, hpos, hreq, hwritten⟩ :=
    tiny_batch_run env config file streamCloseThrows chunkId htiny hpar
  refine ⟨?_, hpos, ?_, hreq, hwritten⟩
  · rw [hevents]
    simp
  · rw [hpos]
    omega

/-- C28 fails at a concrete download: the small file of 10 stored bytes in
chunks of 4 bytes with overhead, under a `maxDownloadChunkSize` of 3 bytes.
The promise is resolved with `downloadPos = 0`. -/
theorem success_without_completeness_witness :
    tinyBatchDownload.downloadChunkSize = 0 ∧
    (tinyBatchDownload.run stripEnv [.timer, .chainEof]).core.events
      = [.streamClose, .cleanup, .resolve] ∧
    (tinyBatchDownload.run stripEnv [.timer, .chainEof]).sizeWithOverhead = 10 ∧
    (tinyBatchDownload.run stripEnv [.timer, .chainEof]).downloadPos = 0 ∧
    (tinyBatchDownload.run stripEnv [.timer, .chainEof]).requested = [] ∧
    (tinyBatchDownload.run stripEnv [.timer, .chainEof]).written = [] :=
  have h := success_without_completeness stripEnv tinyBatchConfig smallFile false 0
    (by decide) (by decide) (by decide)
  ⟨rfl, rfl, rfl, h.2.1, h.2.2.2.1, h.2.2.2.2⟩

/-- What does hold of a download from scratch: when `downloadChunkSize` is
positive, that is when `maxDownloadChunkSize` is at least `chunkSize +
overhead`, a resolved promise means that `downloadPos` is `sizeWithOverhead`
and that the whole fetch plan was requested. -/
theorem resolved_complete (env : DownloadEnv) (config : DownloadConfig) (file : FileInfo)
    (streamCloseThrows : Bool) (chunkId : Nat) (events : List DownloadEvent)
    (hb : 0 < (FileDownloader.new config file streamCloseThrows chunkId none).downloadChunkSize)
    (hres : ProcessEvent.resolve ∈
      ((FileDownloader.new config file streamCloseThrows chunkId none).start.run env
        events).core.events) :
    ((FileDownloader.new config file streamCloseThrows chunkId none).start.run env
        events).downloadPos = (file.sizeWithOverhead : Int) ∧
    ((FileDownloader.new config file streamCloseThrows chunkId none).start.run env
        events).requested
      = fetchPlan file.sizeWithOverhead
          (FileDownloader.new config file streamCloseThrows chunkId none).downloadChunkSize := by
  have hinit : ((FileDownloader.new config file streamCloseThrows chunkId none).start).Planned
      file.sizeWithOverhead
      (FileDownloader.new config file streamCloseThrows chunkId none).downloadChunkSize := by
    refine ⟨rfl, rfl, ⟨0, ?_, ?_⟩, ?_⟩
    · simp [FileDownloader.new, FileDownloader.fresh, FileDownloader.start,
        FileDownloader._tick, FileDownloader._checkIfFinished, FileProcessor.new]
    · simp [FileDownloader.new, FileDownloader.fresh, FileDownloader.start,
        FileDownloader._tick, FileDownloader._checkIfFinished, FileProcessor.new]
    · intro hc
      simp [FileDownloader.new, FileDownloader.fresh, FileDownloader.start,
        FileDownloader._tick, FileDownloader._checkIfFinished, FileProcessor.new] at hc
  have hrun := run_invariant env (fun _ _ _ => True)
    (fun d => d.Chained ∧ d.Planned file.sizeWithOverhead
      (FileDownloader.new config file streamCloseThrows chunkId none).downloadChunkSize)
    (fun d d2 _ hgood hmove =>
      ⟨chained_move env _ d d2 hgood.1 hmove, planned_move env _ _ _ hb d d2 hgood.2 hmove⟩)
    events _ (sound_start config file streamCloseThrows chunkId none)
    ⟨chained_start config file streamCloseThrows chunkId none, hinit⟩
    (allowedRun_any env events _)
  obtain ⟨hsound, hchained, _, _, ⟨n, hreq, hpos⟩, hmore⟩ := hrun
  have heof := (hsound.resolved hres).1
  have hdone := (hchained.closed heof).2
  have hend := hmore hdone
  refine ⟨hend, ?_⟩
  rw [hpos] at hend
  rw [hreq]
  exact fetchPlan_take_all _ _ n hb (by omega)

/-- The method `_decryptChunk` moves a chunk from the head of the queue to
the log of decrypt calls, or does nothing: the chunks that have entered the
queue stay as they are. -/
theorem decryptChunk_entered (env : DownloadEnv) (d : FileDownloader) :
    (d._decryptChunk env).1.entered = d.entered := by
  by_cases hblocked : d.core.stopped = true ∨ d.writing = true ∨ d.decryptQueue = []
  · rw [decryptChunk_blocked env d hblocked]
  · have hstopped : d.core.stopped = false := by
      by_contra hc
      exact hblocked (Or.inl (by simpa using hc))
    have hwriting : d.writing = false := by
      by_contra hc
      exact hblocked (Or.inr (Or.inl (by simpa using hc)))
    cases hqueue : d.decryptQueue with
    | nil => exact absurd (Or.inr (Or.inr hqueue)) hblocked
    | cons chunk rest =>
      obtain ⟨hq, _, hlog⟩ := decryptChunk_log env d chunk rest hstopped hwriting hqueue
      unfold FileDownloader.entered
      rw [hq, hlog, hqueue]
      simp

/-- A move other than the arrival of a response leaves the chunks that have
entered the queue as they are. -/
theorem entered_move (env : DownloadEnv) (d d2 : FileDownloader)
    (hmove : FileDownloader.Move env (fun _ _ _ => False) d d2) : d2.entered = d.entered := by
  cases hmove with
  | fail err herr =>
    obtain ⟨core, aborted, heq⟩ := finish_frame d err
    rw [heq]
    rfl
  | succeed heof hqueue hwriting =>
    obtain ⟨core, aborted, heq⟩ := finish_frame d .falsy
    rw [heq]
    rfl
  | schedule => rfl
  | timerPop => rfl
  | download =>
    obtain ⟨_, _, hq, _, _, _, hdec, _⟩ := downloadChunk_frame d
    unfold FileDownloader.entered
    rw [hq, hdec]
  | decrypt _ hres =>
    have := decryptChunk_entered env d
    rw [hres] at this
    exact this
  | decryptFail d1 err hres =>
    have := decryptChunk_entered env d
    rw [hres] at this
    obtain ⟨core, aborted, heq⟩ := error_frame d1 (.error err)
    rw [heq]
    exact this
  | land pos size rest dlChunk hchain hsize hstopped hlen hserved => exact absurd hserved id
  | skip pos size rest hchain hstopped => rfl
  | dropFail pos size rest err hchain herr =>
    obtain ⟨core, aborted, heq⟩ := finish_frame { d with downloadChain := rest } err
    rw [heq]
    rfl
  | eof rest hchain => rfl
  | writeEnd hflight => rfl
  | writeFail hflight => rfl
  | xhrs open_ => rfl

/-- Moves other than the arrival of a response leave the chunks that have
entered the queue as they are. -/
theorem entered_moves (env : DownloadEnv) (d d2 : FileDownloader)
    (hmoves : Relation.ReflTransGen (FileDownloader.Move env (fun _ _ _ => False)) d d2) :
    d2.entered = d.entered := by
  induction hmoves with
  | refl => rfl
  | tail _ hlast ih => exact (entered_move env _ _ hlast).trans ih

/-- Every event appends the chunks that it pushes to the chunks that have
entered the queue, and changes nothing else of them. -/
theorem entered_step (env : DownloadEnv) (d : FileDownloader) (e : DownloadEvent) :
    (d.step env e).entered = d.entered ++ d.pushes e := by
  have hquiet : ∀ e : DownloadEvent, d.Allowed (fun _ _ _ => False) e → d.pushes e = [] →
      (d.step env e).entered = d.entered ++ d.pushes e := by
    intro e hallowed hnone
    rw [hnone, List.append_nil]
    exact entered_moves env d _ (step_moves env _ d e hallowed)
  cases e with
  | fetched dlChunk =>
    cases hchain : d.downloadChain with
    | nil =>
      apply hquiet
      · simp [FileDownloader.Allowed, hchain]
      · simp [FileDownloader.pushes, hchain]
    | cons item rest =>
      cases item with
      | eof =>
        apply hquiet
        · simp [FileDownloader.Allowed, hchain]
        · simp [FileDownloader.pushes, hchain]
      | fetch pos size =>
        have hstep : d.step env (.fetched dlChunk)
            = if (dlChunk.length : Int) = size then
                FileDownloader.afterChunk { d with downloadChain := rest } dlChunk
              else d := by
          simp only [FileDownloader.step, hchain]
        have hpushes : d.pushes (.fetched dlChunk)
            = if (dlChunk.length : Int) = size ∧ d.core.stopped = false then
                splitChunks d.chunkSizeWithOverhead dlChunk
              else [] := by
          simp only [FileDownloader.pushes, hchain]
        rw [hstep, hpushes]
        by_cases hsize : (dlChunk.length : Int) = size
        · rw [if_pos hsize, afterChunk_eq]
          by_cases hstopped : d.core.stopped = true
          · have hs2 : ({ d with downloadChain := rest } : FileDownloader).core.stopped = true :=
              hstopped
            have hp : (if (dlChunk.length : Int) = size ∧ d.core.stopped = false then
                  splitChunks d.chunkSizeWithOverhead dlChunk
                else []) = [] := if_neg (fun hc => by rw [hstopped] at hc; cases hc.2)
            rw [if_pos hs2, hp, List.append_nil]
            rfl
          · have hs3 : d.core.stopped = false := by simpa using hstopped
            have hs2 : ¬ (({ d with downloadChain := rest } : FileDownloader).core.stopped
                = true) := hstopped
            have hp : (if (dlChunk.length : Int) = size ∧ d.core.stopped = false then
                  splitChunks d.chunkSizeWithOverhead dlChunk
                else []) = splitChunks d.chunkSizeWithOverhead dlChunk := if_pos ⟨hsize, hs3⟩
            rw [if_neg hs2, hp]
            by_cases hlen : dlChunk.length = 0
            · rw [if_pos hlen]
              have hnil : dlChunk = [] := List.length_eq_zero.mp hlen
              rw [hnil, splitChunks_nil, List.append_nil]
              exact entered_moves env { d with downloadChain := rest } _
                (error_moves env _ _ _)
            · rw [if_neg hlen]
              have := entered_moves env _ _ (tick_moves env (fun _ _ _ => False)
                { d with downloadChain := rest
                         decryptQueue := d.decryptQueue
                           ++ splitChunks d.chunkSizeWithOverhead dlChunk
                         activeDownloads := d.activeDownloads - 1 })
              rw [this]
              simp [FileDownloader.entered]
        · have hp : (if (dlChunk.length : Int) = size ∧ d.core.stopped = false then
                splitChunks d.chunkSizeWithOverhead dlChunk
              else []) = [] := if_neg (fun hc => hsize hc.1)
          rw [if_neg hsize, hp, List.append_nil]
  | timer => exact hquiet _ trivial rfl
  | xhrLoading => exact hquiet _ trivial rfl
  | fetchFailed err => exact hquiet _ trivial rfl
  | chainEof => exact hquiet _ trivial rfl
  | writeEnd => exact hquiet _ trivial rfl
  | writeFailed err => exact hquiet _ trivial rfl
  | cancel => exact hquiet _ trivial rfl
  | xhrOpened xhr => exact hquiet _ trivial rfl
  | xhrClosed xhr => exact hquiet _ trivial rfl

/-- After a run, the chunks that have entered the queue are those that had
entered it before and those that the events pushed, in this order. -/
theorem entered_run (env : DownloadEnv) (events : List DownloadEvent) :
    ∀ d : FileDownloader, (d.run env events).entered = d.entered ++ d.pushed env events := by
  induction events with
  | nil =>
    intro d
    show d.entered = d.entered ++ []
    rw [List.append_nil]
  | cons e rest ih =>
    intro d
    show ((d.step env e).run env rest).entered
      = d.entered ++ (d.pushes e ++ FileDownloader.pushed env (d.step env e) rest)
    rw [ih, entered_step, List.append_assoc]

/-- C21: in every state of a download, constructed with a new nonce
generator, at most one `stream.write` is in flight, and `writing` is set
while it is; `_decryptChunk` takes nothing off the decrypt queue while
`writing` is set; the chunks taken off the queue so far, followed by the
chunks waiting in it, are the chunks pushed on it, in the order in which
they were pushed; the chunks written are the plain chunks of the chunks
taken off, in the same order (the first without the bytes of a partial
chunk); and when every request resolved with the bytes that it asked for,
the chunks taken off are the chunks of the blob at the offsets `w × c`,
`(w + 1) × c`, ..., in ascending order. -/
theorem write_ordering (env : DownloadEnv) (config : DownloadConfig) (file : FileInfo)
    (blob : Bytes) (streamCloseThrows : Bool) (resumeParams : Option ResumeParams)
    (events : List DownloadEvent) (d : FileDownloader) :
    ((FileDownloader.new config file streamCloseThrows 0 resumeParams).start.run env
      events).writesInFlight ≤ 1 ∧
    (((FileDownloader.new config file streamCloseThrows 0 resumeParams).start.run env
        events).writesInFlight = 1 →
      ((FileDownloader.new config file streamCloseThrows 0 resumeParams).start.run env
        events).writing = true) ∧
    (d.writing = true → d._decryptChunk env = (d, none)) ∧
    ((FileDownloader.new config file streamCloseThrows 0 resumeParams).start.run env
        events).decrypted.map Prod.snd
      ++ ((FileDownloader.new config file streamCloseThrows 0 resumeParams).start.run env
        events).decryptQueue
      = FileDownloader.pushed env
          (FileDownloader.new config file streamCloseThrows 0 resumeParams).start events ∧
    ((FileDownloader.new config file streamCloseThrows 0 resumeParams).start.run env
        events).written.map some
      = (expectedWrites env (startPartial resumeParams)
          ((FileDownloader.new config file streamCloseThrows 0 resumeParams).start.run env
            events).decrypted).take
          ((FileDownloader.new config file streamCloseThrows 0 resumeParams).start.run env
            events).written.length ∧
    (0 < file.chunkSize + config.chunkOverhead → file.sizeWithOverhead = blob.length →
      FileDownloader.honest env blob
        (FileDownloader.new config file streamCloseThrows 0 resumeParams).start events = true →
      ((FileDownloader.new config file streamCloseThrows 0 resumeParams).start.run env
          events).decrypted
        = (List.range' (startChunk resumeParams)
            (((FileDownloader.new config file streamCloseThrows 0 resumeParams).start.run env
              events).chunkId - startChunk resumeParams)).map
            (fun i => (i, (blob.drop (i * (file.chunkSize + config.chunkOverhead))).take
              (file.chunkSize + config.chunkOverhead)))) := by
  have hrun := run_invariant env (fun _ _ _ => True)
    (FileDownloader.Writes env (startPartial resumeParams))
    (fun d d2 hs hgood hmove => writes_move env _ _ d d2 hs hgood hmove)
    events _ (sound_start config file streamCloseThrows 0 resumeParams)
    (writes_start env config file streamCloseThrows 0 resumeParams)
    (allowedRun_any env events _)
  have hentered := entered_run env events
    (FileDownloader.new config file streamCloseThrows 0 resumeParams).start
  have hstart : (FileDownloader.new config file streamCloseThrows 0 resumeParams).start.entered
      = [] := by
    cases resumeParams <;> rfl
  rw [hstart, List.nil_append] at hentered
  refine ⟨hrun.1.write_le, hrun.1.write_flag, ?_, hentered, hrun.2.written_eq, ?_⟩
  · intro hwriting
    exact decryptChunk_blocked env d (Or.inr (Or.inl hwriting))
  · intro hc hsize hhonest
    exact (aligned_run env config file blob streamCloseThrows resumeParams events hc hsize
      hhonest).2.2.1.log

/-- C21 at a concrete run: in the small download from scratch the chunks at
the offsets 0, 4 and 8 are pushed, taken off and written in this order. -/
theorem write_ordering_witness :
    FileDownloader.pushed stripEnv smallDownload smallRun
      = [[10, 11, 12, 13], [14, 15, 16, 17], [18, 19]] ∧
    (smallDownload.run stripEnv smallRun).decrypted
      = [(0, [10, 11, 12, 13]), (1, [14, 15, 16, 17]), (2, [18, 19])] ∧
    (smallDownload.run stripEnv smallRun).written = [[11, 12, 13], [15, 16, 17], [19]] ∧
    (smallDownload.run stripEnv [.timer, .fetched [10, 11, 12, 13, 14, 15, 16, 17],
      .timer]).writesInFlight = 1 ∧
    (smallDownload.run stripEnv [.timer, .fetched [10, 11, 12, 13, 14, 15, 16, 17],
      .timer]).writing = true ∧
    (smallDownload.run stripEnv smallRun).decrypted
      = (List.range' 0 ((smallDownload.run stripEnv smallRun).chunkId - 0)).map
          (fun i => (i, (smallBlob.drop (i * (3 + 1))).take (3 + 1))) :=
  have h := write_ordering stripEnv smallConfig smallFile smallBlob false none
    [.timer, .fetched [10, 11, 12, 13, 14, 15, 16, 17], .timer] smallDownload
  have h2 := write_ordering stripEnv smallConfig smallFile smallBlob false none smallRun
    smallDownload
  ⟨rfl, rfl, rfl, rfl, h.2.1 rfl, h2.2.2.2.2.2 (by decide) rfl (by decide)⟩

end Icebear
